import Mathlib

/-!
# Serialization marking and duplication counting of revng-c

A shallow embedding of `lib/Decompiler/MarkForSerialization.cpp`
(`MarkAnalysis::Analysis::transfer` and `computeDuplicationMap`), of the class `RegionCFG` of
`include/revng-c/RestructureCFGPass/RegionCFGTree.h` (`getNewID`, `getSwitchEdgeInfoSuccessor`,
the method that builds the graph from an input graph, `addArtificialNode`, `InlineFilter`) and
of the verifiers of struct, union and function types of
`lib/mlir/Dialect/Clift/IR/CliftAttributes.cpp`.

Pointers are natural numbers (the identity of the pointed object), `std::map`
keyed by a pointer is an association list with unique keys, an assertion
failure or an exception thrown by `std::map::at` is the result `none`.
-/

namespace RevngC

/-! ## `std::map` keyed by a pointer -/

/-- Association list standing for a `std::map` whose keys are pointers. -/
structure PtrMap (β : Type) where
  entries : List (Nat × β)
deriving DecidableEq

namespace PtrMap

/-- The empty map. -/
def empty {β : Type} : PtrMap β := ⟨[]⟩

/-- Lookup in the entry list. -/
def findEntries {β : Type} : List (Nat × β) → Nat → Option β
  | [], _ => none
  | (k', v) :: rest, k => if k' = k then some v else findEntries rest k

/-- The value stored for a key, when there is one (`find`, and `at` when absence is fatal). -/
def find? {β : Type} (m : PtrMap β) (k : Nat) : Option β :=
  findEntries m.entries k

/-- Number of entries for a key (`std::map::count`), as a Boolean. -/
def contains {β : Type} (m : PtrMap β) (k : Nat) : Bool :=
  (m.find? k).isSome

/-- Update of the entry list for `m[k]` followed by an in-place update. -/
def modifyEntries {β : Type} (dflt : β) (f : β → β) : List (Nat × β) → Nat → List (Nat × β)
  | [], k => [(k, f dflt)]
  | (k', v) :: rest, k =>
    if k' = k then (k', f v) :: rest else (k', v) :: modifyEntries dflt f rest k

/-- The statement `f(m[k])`: `operator[]` default-constructs the value `dflt` when the key is
absent, then the value is updated in place. -/
def modify {β : Type} (dflt : β) (f : β → β) (m : PtrMap β) (k : Nat) : PtrMap β :=
  ⟨modifyEntries dflt f m.entries k⟩

/-- The keys of the map, in entry order. -/
def keys {β : Type} (m : PtrMap β) : List Nat :=
  m.entries.map Prod.fst

/-- Number of entries (`std::map::size`). -/
def size {β : Type} (m : PtrMap β) : Nat :=
  m.entries.length

end PtrMap

/-! ## The LLVM objects the analysis reads -/

/-- The instruction classes the analysis distinguishes with `isa<>`, plus the remaining
terminators and a class for every other instruction. -/
inductive Opcode where
  | PHI
  | Br
  | Switch
  | IndirectBr
  | Ret
  | Unreachable
  | Invoke
  | InsertValue
  | Alloca
  | Store
  | Load
  | Call
  | Other
deriving DecidableEq

/-- An operand of an instruction, by the `llvm::Value` class that `transfer` tests for. -/
inductive Value where
  | instruction (id : Nat)
  | argument
  | constant
  | basicBlock
  | metadataAsValue
  | other
deriving DecidableEq

/-- The user of a use: an instruction (with the block it lives in) or another `llvm::User`. -/
inductive User where
  | instruction (id : Nat) (parent : Nat)
  | other
deriving DecidableEq

/-- An `llvm::Instruction`: its identity, its class, its operand list and its use list. -/
structure Instruction where
  id : Nat
  opcode : Opcode
  operands : List Value
  uses : List User
deriving DecidableEq

/-- The result of `Value::getNumUses`, a function of LLVM: the length of the use list. -/
def Instruction.getNumUses (I : Instruction) : Nat :=
  I.uses.length

/-- An `llvm::Function`: its identity and the identities of its basic blocks, in order. -/
structure Function where
  id : Nat
  blocks : List Nat
deriving DecidableEq

/-- An `llvm::BasicBlock`: its identity, its parent function and its instructions. -/
structure BasicBlock where
  id : Nat
  parent : Function
  insts : List Instruction
deriving DecidableEq

/-! ## The analysis state -/

/-- Modelled from the spec: the reasons of `MarkAnalysis.h`, a header that is not part of the
source slice; "bit set drawn from {AlwaysSerialize, HasSideEffects,
NeedsLocalVarToComputeExpr, NeedsManyStatements, HasManyUses, HasDuplicatedUses,
HasInterferingSideEffects}". -/
inductive SerializationReason where
  | AlwaysSerialize
  | HasSideEffects
  | NeedsLocalVarToComputeExpr
  | NeedsManyStatements
  | HasManyUses
  | HasDuplicatedUses
  | HasInterferingSideEffects
deriving DecidableEq

/-- Modelled from the spec: the per-instruction bit set of `MarkAnalysis.h`, one bit per
reason; a default-constructed value has no bit set. -/
structure SerializationFlags where
  alwaysSerialize : Bool
  hasSideEffects : Bool
  needsLocalVarToComputeExpr : Bool
  needsManyStatements : Bool
  hasManyUses : Bool
  hasDuplicatedUses : Bool
  hasInterferingSideEffects : Bool
deriving DecidableEq

namespace SerializationFlags

/-- The default-constructed bit set. -/
def none : SerializationFlags :=
  ⟨false, false, false, false, false, false, false⟩

/-- The bit set with one more bit set (`SerializationFlags::set`). -/
def set (s : SerializationFlags) : SerializationReason → SerializationFlags
  | .AlwaysSerialize => { s with alwaysSerialize := true }
  | .HasSideEffects => { s with hasSideEffects := true }
  | .NeedsLocalVarToComputeExpr => { s with needsLocalVarToComputeExpr := true }
  | .NeedsManyStatements => { s with needsManyStatements := true }
  | .HasManyUses => { s with hasManyUses := true }
  | .HasDuplicatedUses => { s with hasDuplicatedUses := true }
  | .HasInterferingSideEffects => { s with hasInterferingSideEffects := true }

/-- Whether a bit is set (`SerializationFlags::isSet`). -/
def isSet (s : SerializationFlags) : SerializationReason → Bool
  | .AlwaysSerialize => s.alwaysSerialize
  | .HasSideEffects => s.hasSideEffects
  | .NeedsLocalVarToComputeExpr => s.needsLocalVarToComputeExpr
  | .NeedsManyStatements => s.needsManyStatements
  | .HasManyUses => s.hasManyUses
  | .HasDuplicatedUses => s.hasDuplicatedUses
  | .HasInterferingSideEffects => s.hasInterferingSideEffects

end SerializationFlags

/-- The map `ToSerialize`, from an instruction to its bit set. -/
abbrev SerializationMap := PtrMap SerializationFlags

/-- The statement `ToSerialize[&I].set(R)`. -/
def SerializationMap.setFlag (TS : SerializationMap) (i : Nat) (R : SerializationReason) :
    SerializationMap :=
  PtrMap.modify SerializationFlags.none (fun s => s.set R) TS i

/-- Whether instruction `i` has an entry in which bit `R` is set. -/
def SerializationMap.hasFlag (TS : SerializationMap) (i : Nat) (R : SerializationReason) : Bool :=
  match TS.find? i with
  | some s => s.isSet R
  | Option.none => false

/-- Modelled from the spec: the lattice element of `MarkAnalysis.h`, "a pending set of
already-computed, not-yet-serialized values (order-insensitive)"; a set of instructions, kept
as a list without repetition. -/
structure LatticeElement where
  Instructions : List Nat
deriving DecidableEq

namespace LatticeElement

/-- The empty pending set. -/
def empty : LatticeElement := ⟨[]⟩

/-- Set insertion. -/
def insert (P : LatticeElement) (i : Nat) : LatticeElement :=
  if i ∈ P.Instructions then P else ⟨P.Instructions ++ [i]⟩

/-- Set removal. -/
def erase (P : LatticeElement) (i : Nat) : LatticeElement :=
  ⟨P.Instructions.filter (fun j => decide (j ≠ i))⟩

/-- Membership test. -/
def isPending (P : LatticeElement) (i : Nat) : Bool :=
  decide (i ∈ P.Instructions)

end LatticeElement

/-- The map from a basic block to the number of its duplicates. -/
abbrev DuplicationMap := PtrMap Nat

/-- The members of `MarkAnalysis::Analysis` that `transfer` touches. -/
structure Analysis where
  State : PtrMap LatticeElement
  NDuplicates : DuplicationMap
  ToSerialize : SerializationMap
deriving DecidableEq

/-! ## `MarkAnalysis::Analysis::transfer` -/

/-- The function `isPure`: no call is pure. -/
def isPure (_Call : Instruction) : Bool :=
  false

/-- The function `haveInterferingSideEffects`: everything interferes. -/
def haveInterferingSideEffects (_InstrWithSideEffects : Instruction) (_Other : Nat) : Bool :=
  true

/-- Lines 51-65: every operand that is an instruction is erased from pending; an operand that
is neither an instruction nor an argument, constant, basic block or metadata is fatal. -/
def removeOperands : List Value → LatticeElement → Option LatticeElement
  | [], Pending => some Pending
  | V :: rest, Pending =>
    match V with
    | .instruction UsedInstr => removeOperands rest (Pending.erase UsedInstr)
    | .argument => removeOperands rest Pending
    | .constant => removeOperands rest Pending
    | .basicBlock => removeOperands rest Pending
    | .metadataAsValue => removeOperands rest Pending
    | .other => Option.none

/-- Lines 69 and 77: phi nodes, branches and switches are not classified. -/
def isSkipped (I : Instruction) : Bool :=
  I.opcode = Opcode.PHI || (I.opcode = Opcode.Br || I.opcode = Opcode.Switch)

/-- Lines 80-104: the flags that depend on the class of the instruction. -/
def markKind (I : Instruction) (ToSerialize : SerializationMap) : SerializationMap :=
  let T1 :=
    if I.opcode = Opcode.InsertValue then
      ToSerialize.setFlag I.id SerializationReason.NeedsManyStatements
    else ToSerialize
  let T2 :=
    if I.opcode = Opcode.InsertValue || I.opcode = Opcode.Alloca then
      T1.setFlag I.id SerializationReason.NeedsLocalVarToComputeExpr
    else T1
  if I.opcode = Opcode.Store || (I.opcode = Opcode.Call && !isPure I) then
    T2.setFlag I.id SerializationReason.HasSideEffects
  else T2

/-- Lines 106-131: the switch on the number of uses. -/
def markUses (NDuplicates : DuplicationMap) (NBBDuplicates : Nat) (I : Instruction)
    (Pending : LatticeElement) (ToSerialize : SerializationMap) :
    Option (LatticeElement × SerializationMap) :=
  match I.getNumUses with
  | 1 =>
    match I.uses.head? with
    | some (User.instruction _ UserBB) =>
      match NDuplicates.find? UserBB with
      | some UserNDuplicates =>
        if NBBDuplicates < UserNDuplicates then
          some (Pending, ToSerialize.setFlag I.id SerializationReason.HasDuplicatedUses)
        else
          some (Pending.insert I.id, ToSerialize)
      | Option.none => Option.none
    | _ => Option.none
  | 0 => some (Pending, ToSerialize.setFlag I.id SerializationReason.AlwaysSerialize)
  | _ => some (Pending, ToSerialize.setFlag I.id SerializationReason.HasManyUses)

/-- Lines 137-150: the loop over the pending set. -/
def serializePendingLoop (I : Instruction) :
    List Nat → SerializationMap → List Nat × SerializationMap
  | [], ToSerialize => ([], ToSerialize)
  | PendingInstr :: rest, ToSerialize =>
    if haveInterferingSideEffects I PendingInstr then
      serializePendingLoop I rest
        (ToSerialize.setFlag PendingInstr SerializationReason.HasInterferingSideEffects)
    else
      let r := serializePendingLoop I rest ToSerialize
      (PendingInstr :: r.1, r.2)

/-- Lines 133-155: an instruction with an entry flushes the pending set, any other
instruction becomes pending. -/
def serializePending (I : Instruction) (Pending : LatticeElement)
    (ToSerialize : SerializationMap) : LatticeElement × SerializationMap :=
  if ToSerialize.contains I.id then
    let r := serializePendingLoop I Pending.Instructions ToSerialize
    (⟨r.1⟩, r.2)
  else
    (Pending.insert I.id, ToSerialize)

/-- Lines 43-156: the body of the loop over the instructions of the block. -/
def transferInstruction (NDuplicates : DuplicationMap) (NBBDuplicates : Nat) (I : Instruction)
    (Pending : LatticeElement) (ToSerialize : SerializationMap) :
    Option (LatticeElement × SerializationMap) :=
  match removeOperands I.operands Pending with
  | Option.none => Option.none
  | some P1 =>
    if isSkipped I then some (P1, ToSerialize)
    else
      match markUses NDuplicates NBBDuplicates I P1 (markKind I ToSerialize) with
      | Option.none => Option.none
      | some (P2, T2) => some (serializePending I P2 T2)

/-- The loop over the instructions of the block. -/
def transferLoop (NDuplicates : DuplicationMap) (NBBDuplicates : Nat) :
    List Instruction → LatticeElement → SerializationMap →
      Option (LatticeElement × SerializationMap)
  | [], Pending, ToSerialize => some (Pending, ToSerialize)
  | I :: rest, Pending, ToSerialize =>
    match transferInstruction NDuplicates NBBDuplicates I Pending ToSerialize with
    | Option.none => Option.none
    | some (P1, T1) => transferLoop NDuplicates NBBDuplicates rest P1 T1

/-- The method `Analysis::transfer`: the pending set handed to `createInterrupt` and the
analysis afterwards. `State[BB]` default-constructs an empty element for a block without
one, `NDuplicates.at(BB)` is fatal for a block without a count. -/
def transfer (A : Analysis) (BB : BasicBlock) : Option (LatticeElement × Analysis) :=
  let State1 := PtrMap.modify LatticeElement.empty (fun P => P) A.State BB.id
  let Pending := (State1.find? BB.id).getD LatticeElement.empty
  match A.NDuplicates.find? BB.id with
  | Option.none => Option.none
  | some NBBDuplicates =>
    match transferLoop A.NDuplicates NBBDuplicates BB.insts Pending A.ToSerialize with
    | Option.none => Option.none
    | some (P, T) => some (P, { A with State := State1, ToSerialize := T })

/-! ## `computeDuplicationMap` -/

/-- The kinds of a node of the RegionCFG. -/
inductive BasicBlockNodeType where
  | Code
  | Empty
  | Break
  | Continue
  | Dispatcher
  | Set
  | Tile
  | Collapsed
deriving DecidableEq

/-- Modelled from the spec: a node of the RegionCFG (`BasicBlockNode.h` is not part of the
source slice), "unique numeric id", "kind", "optional reference to the original block it
represents (only for Code nodes)". -/
structure BasicBlockNode where
  ID : Nat
  NodeType : BasicBlockNodeType
  OriginalNode : Option BasicBlock
deriving DecidableEq

/-- The method `BasicBlockNode::isCode`. -/
def BasicBlockNode.isCode (N : BasicBlockNode) : Bool :=
  N.NodeType = BasicBlockNodeType.Code

/-- The members of `RegionCFG` read here: the node storage, in order. -/
structure RegionCFG where
  BlockNodes : List BasicBlockNode
deriving DecidableEq

/-- The range `RegionCFG::nodes`. -/
def RegionCFG.nodes (G : RegionCFG) : List BasicBlockNode :=
  G.BlockNodes

/-- Lines 171-178: the loop over the nodes, on the map `Result` and the function pointer `F`
(`none` is the null pointer). A pointer to a function is the function object: equal pointers,
equal objects. A Code node without an original block is a null dereference, fatal. The counts
are `size_t`; they cannot wrap, a graph has fewer than `2^64` nodes. -/
def computeDuplicationMapLoop :
    List BasicBlockNode → DuplicationMap → Option Function → Option (DuplicationMap × Option Function)
  | [], Result, F => some (Result, F)
  | BBNode :: rest, Result, F =>
    if BBNode.isCode then
      match BBNode.OriginalNode with
      | Option.none => Option.none
      | some BB =>
        if F = Option.none ∨ some BB.parent = F then
          computeDuplicationMapLoop rest (PtrMap.modify 0 (fun n => n + 1) Result BB.id)
            (some BB.parent)
        else Option.none
    else computeDuplicationMapLoop rest Result F

/-- The function `computeDuplicationMap`; `none` is an assertion failure. -/
def computeDuplicationMap (G : RegionCFG) : Option DuplicationMap :=
  match computeDuplicationMapLoop G.nodes PtrMap.empty Option.none with
  | Option.none => Option.none
  | some (Result, Option.none) =>
    if Result.size = 0 then some Result else Option.none
  | some (Result, some F) =>
    if Result.size = F.blocks.length then
      if F.blocks.all (fun BB => Result.contains BB) then some Result else Option.none
    else Option.none

/-- Number of Code nodes of the graph whose original node is the block `bb`. -/
def codeNodesOf (G : RegionCFG) (bb : Nat) : Nat :=
  (G.nodes.filter (fun N =>
    N.isCode && (match N.OriginalNode with
      | some BB => decide (BB.id = bb)
      | Option.none => false))).length

/-! ## A small function, used to run the definitions

Three blocks. Block 1: an alloca (used by the load and the store), a load (used once, by the
phi of block 2), a store, a branch. Block 2: a phi (used once, by the addition of block 3), a
call, a branch. Block 3: an addition (used once, by the return), a return. -/

/-- The function of the example. -/
def exampleFunction : Function :=
  ⟨100, [1, 2, 3]⟩

/-- The alloca of block 1. -/
def exampleAlloca : Instruction :=
  ⟨10, Opcode.Alloca, [Value.constant], [User.instruction 11 1, User.instruction 12 1]⟩

/-- The load of block 1. -/
def exampleLoad : Instruction :=
  ⟨11, Opcode.Load, [Value.instruction 10], [User.instruction 20 2]⟩

/-- The store of block 1. -/
def exampleStore : Instruction :=
  ⟨12, Opcode.Store, [Value.constant, Value.instruction 10], []⟩

/-- The branch that ends block 1. -/
def exampleBr : Instruction :=
  ⟨13, Opcode.Br, [Value.basicBlock], []⟩

/-- The phi of block 2. -/
def examplePhi : Instruction :=
  ⟨20, Opcode.PHI, [Value.instruction 11], [User.instruction 30 3]⟩

/-- The call of block 2. -/
def exampleCall : Instruction :=
  ⟨21, Opcode.Call, [Value.constant], []⟩

/-- The branch that ends block 2. -/
def exampleBr2 : Instruction :=
  ⟨22, Opcode.Br, [Value.basicBlock], []⟩

/-- The addition of block 3. -/
def exampleAdd : Instruction :=
  ⟨30, Opcode.Other, [Value.instruction 20, Value.constant], [User.instruction 31 3]⟩

/-- The return of block 3. -/
def exampleRet : Instruction :=
  ⟨31, Opcode.Ret, [Value.instruction 30], []⟩

/-- Block 1. -/
def exampleBB1 : BasicBlock :=
  ⟨1, exampleFunction, [exampleAlloca, exampleLoad, exampleStore, exampleBr]⟩

/-- Block 2. -/
def exampleBB2 : BasicBlock :=
  ⟨2, exampleFunction, [examplePhi, exampleCall, exampleBr2]⟩

/-- Block 3. -/
def exampleBB3 : BasicBlock :=
  ⟨3, exampleFunction, [exampleAdd, exampleRet]⟩

/-- Duplication counts: block 1 once, block 2 twice, block 3 three times. -/
def exampleNDuplicates : DuplicationMap :=
  ⟨[(1, 1), (2, 2), (3, 3)]⟩

/-- The analysis before any block is visited. -/
def exampleAnalysis : Analysis :=
  ⟨PtrMap.empty, exampleNDuplicates, PtrMap.empty⟩

/-- The restructured graph of the example: block 1 once, block 2 twice, block 3 three times,
and three artificial nodes. -/
def exampleRegionCFG : RegionCFG :=
  ⟨[⟨0, BasicBlockNodeType.Code, some exampleBB1⟩,
    ⟨1, BasicBlockNodeType.Code, some exampleBB2⟩,
    ⟨2, BasicBlockNodeType.Empty, Option.none⟩,
    ⟨3, BasicBlockNodeType.Code, some exampleBB3⟩,
    ⟨4, BasicBlockNodeType.Code, some exampleBB2⟩,
    ⟨5, BasicBlockNodeType.Dispatcher, Option.none⟩,
    ⟨6, BasicBlockNodeType.Code, some exampleBB3⟩,
    ⟨7, BasicBlockNodeType.Break, Option.none⟩,
    ⟨8, BasicBlockNodeType.Code, some exampleBB3⟩]⟩

/-- An insertvalue, used once, in block 3. -/
def exampleInsertValue : Instruction :=
  ⟨40, Opcode.InsertValue, [Value.constant, Value.instruction 30], [User.instruction 41 3]⟩

/-! ## Definitions used to state the facts -/

/-- The flag that lines 80-104 set for an instruction, by its class. -/
def kindFlag (I : Instruction) : SerializationReason → Bool
  | .NeedsManyStatements => I.opcode = Opcode.InsertValue
  | .NeedsLocalVarToComputeExpr => I.opcode = Opcode.InsertValue || I.opcode = Opcode.Alloca
  | .HasSideEffects => I.opcode = Opcode.Store || I.opcode = Opcode.Call
  | _ => false

/-- Whether lines 80-104 set some flag for an instruction. -/
def hasKindFlag (I : Instruction) : Bool :=
  I.opcode = Opcode.InsertValue || I.opcode = Opcode.Alloca || I.opcode = Opcode.Store
    || I.opcode = Opcode.Call

/-- The flag that lines 106-131 set for an instruction, by its uses. -/
def usesFlag (nd : DuplicationMap) (nbb : Nat) (I : Instruction) : SerializationReason → Bool
  | .AlwaysSerialize => decide (I.getNumUses = 0)
  | .HasManyUses => decide (2 ≤ I.getNumUses)
  | .HasDuplicatedUses =>
    decide (I.getNumUses = 1) &&
      (match I.uses.head? with
        | some (User.instruction _ ubb) =>
          (match nd.find? ubb with
            | some ud => decide (nbb < ud)
            | Option.none => false)
        | _ => false)
  | _ => false

/-- Whether a node is a Code node whose original node is the block `bb`. -/
def isCodeNodeOf (bb : Nat) (N : BasicBlockNode) : Bool :=
  N.isCode && (match N.OriginalNode with
    | some BB => decide (BB.id = bb)
    | Option.none => false)

/-- What `transfer` asserts of an instruction: every operand is an instruction, an argument,
a constant, a basic block or metadata, and when there is exactly one use, its user is an
instruction in a block that has a duplication count. -/
def Instruction.isAccepted (nd : DuplicationMap) (I : Instruction) : Bool :=
  decide (Value.other ∉ I.operands) &&
    (decide (I.getNumUses ≠ 1) ||
      (match I.uses.head? with
        | some (User.instruction _ ubb) => nd.contains ubb
        | _ => false))

/-! ## `RegionCFGTree.h`: the container of the nodes

The class `RegionCFG<NodeT>` is a template; the type of the original nodes is a parameter
here too. A pointer to a node of the graph is the position of the node in the storage
`BlockNodes`. -/

/-- The labels and the flag that an edge carries (`BasicBlockNode::EdgeInfo`): the set of
case values, kept as a list, and the flag `Inlined`. -/
structure EdgeInfo where
  Labels : List Nat
  Inlined : Bool
deriving DecidableEq

/-- The function `InlineFilter`, on an edge reference: the pair of the target node and the
edge information. -/
def InlineFilter (E : Nat × EdgeInfo) : Bool :=
  !E.2.Inlined

/-- An `llvm::SwitchInst`: the default destination and the cases, each the value of the case
constant as `getZExtValue` gives it and the destination block. -/
structure SwitchInst where
  DefaultDest : Nat
  Cases : List (Nat × Nat)
deriving DecidableEq

namespace SwitchInst

/-- The successors of a switch, as LLVM numbers them: the default destination first, then the
destinations of the cases. -/
def successors (S : SwitchInst) : List Nat :=
  S.DefaultDest :: S.Cases.map Prod.snd

/-- The method `getSuccessor`; an index out of range is fatal. -/
def getSuccessor (S : SwitchInst) (Idx : Nat) : Option Nat :=
  S.successors[Idx]?

/-- The method `getDefaultDest`. -/
def getDefaultDest (S : SwitchInst) : Nat :=
  S.DefaultDest

/-- The loop of `findCaseDest`: `CI` is the case value found so far. -/
def findCaseDestLoop (BB : Nat) : List (Nat × Nat) → Option Nat → Option Nat
  | [], CI => CI
  | (CaseValue, CaseSuccessor) :: rest, CI =>
    if CaseSuccessor ≠ BB then findCaseDestLoop BB rest CI
    else
      match CI with
      | some _ => none
      | none => findCaseDestLoop BB rest (some CaseValue)

/-- The method `findCaseDest` of LLVM: the value of the one case that leads to `BB`; null
(`none`) when `BB` is the default destination, when no case leads to it, or several do. -/
def findCaseDest (S : SwitchInst) (BB : Nat) : Option Nat :=
  if BB = S.getDefaultDest then none else findCaseDestLoop BB S.Cases none

end SwitchInst

/-- The terminator of a block: a switch, or another terminator with its successors. -/
inductive TerminatorInst where
  | Switch (S : SwitchInst)
  | Other (Successors : List Nat)
deriving DecidableEq

/-- The successors of a terminator, in order. -/
def TerminatorInst.successors : TerminatorInst → List Nat
  | .Switch S => S.successors
  | .Other Successors => Successors

/-- An `llvm::BasicBlock` as a node of the input graph: its identity, its name and its
terminator. -/
structure CFGBlock where
  id : Nat
  Name : String
  Terminator : TerminatorInst
deriving DecidableEq

/-- What `initialize` asks of the type of the original nodes through `llvm::GraphTraits`: the
identity of a node, its name and its successors, in order. -/
structure GraphTraits (NodeT : Type) where
  nodeId : NodeT → Nat
  getName : NodeT → String
  children : NodeT → List Nat

/-- The graph traits of `llvm::BasicBlock`: the successors are those of the terminator. -/
def CFGBlock.graphTraits : GraphTraits CFGBlock :=
  ⟨fun BB => BB.id, fun BB => BB.Name, fun BB => BB.Terminator.successors⟩

/-- The input of `initialize`: the nodes of the graph, in order, and its entry node. -/
structure InputGraph (NodeT : Type) where
  nodes : List NodeT
  getEntryNode : Nat

/-- Modelled from the spec: a node of the RegionCFG over original nodes of type `NodeT`
(`BasicBlockNode.h` is not part of the source slice), "unique numeric id", "kind", "optional
reference to the original block it represents (only for Code nodes)"; the name is the one
handed to the constructor. -/
structure BasicBlockNodeT (NodeT : Type) where
  ID : Nat
  NodeType : BasicBlockNodeType
  OriginalNode : Option NodeT
  Name : String
deriving DecidableEq

/-- The method `BasicBlockNode::isCode`. -/
def BasicBlockNodeT.isCode {NodeT : Type} (N : BasicBlockNodeT NodeT) : Bool :=
  N.NodeType = BasicBlockNodeType.Code

/-- The method `BasicBlockNode::getOriginalNode`. -/
def BasicBlockNodeT.getOriginalNode {NodeT : Type} (N : BasicBlockNodeT NodeT) :
    Option NodeT :=
  N.OriginalNode

/-- Modelled from the spec: an edge of the RegionCFG, "directed, connects two GraphNodes;
carries an optional label set [...] and an inlined flag". An edge added by `addPlainEdge` has
no label information, an edge added by `addEdge` has the one handed to it. -/
structure Edge where
  Source : Nat
  Target : Nat
  Info : Option EdgeInfo
deriving DecidableEq

/-- The edge information of an edge; a plain edge has no label and is not inlined. -/
def Edge.edgeInfo (E : Edge) : EdgeInfo :=
  E.Info.getD ⟨[], false⟩

/-- The members of `RegionCFG<NodeT>` that the constructor, `getNewID`, `initialize`,
`getEntryNode` and `front` touch: the node storage, the entry node (`none` before it is
set), the counter of ids, and the edges, in the order in which they were added. -/
structure RegionCFGT (NodeT : Type) where
  BlockNodes : List (BasicBlockNodeT NodeT)
  EntryNode : Option Nat
  IDCounter : Nat
  Edges : List Edge

namespace RegionCFGT

/-- The default constructor: no node, `IDCounter = 0`. -/
def new {NodeT : Type} : RegionCFGT NodeT :=
  ⟨[], none, 0, []⟩

/-- The method `getNewID`, `return IDCounter++` on an `unsigned`: the id returned and the
graph afterwards. -/
def getNewID {NodeT : Type} (G : RegionCFGT NodeT) : Nat × RegionCFGT NodeT :=
  (G.IDCounter, { G with IDCounter := (G.IDCounter + 1) % 2 ^ 32 })

/-- The ids that `n` successive calls of `getNewID` return, and the graph afterwards. -/
def getNewIDs {NodeT : Type} : Nat → RegionCFGT NodeT → List Nat × RegionCFGT NodeT
  | 0, G => ([], G)
  | n + 1, G =>
    let r := G.getNewID
    let rs := getNewIDs n r.2
    (r.1 :: rs.1, rs.2)

/-- Modelled from the spec: the method `addNode`, declared in the header and defined outside
the source slice; "create node of a given kind", "every new node consumes the next id from a
per-graph monotonic counter". The node is a Code node for the original node; the result is
the pointer to it. -/
def addNode {NodeT : Type} (G : RegionCFGT NodeT) (Node : NodeT) (Name : String) :
    Nat × RegionCFGT NodeT :=
  let r := G.getNewID
  (r.2.BlockNodes.length,
    { r.2 with BlockNodes := r.2.BlockNodes ++ [⟨r.1, BasicBlockNodeType.Code, some Node, Name⟩] })

/-- Modelled from the spec: the function `addEdge`, defined outside the source slice; "add a
labeled edge". -/
def addEdge {NodeT : Type} (G : RegionCFGT NodeT) (Source Target : Nat) (Labels : EdgeInfo) :
    RegionCFGT NodeT :=
  { G with Edges := G.Edges ++ [⟨Source, Target, some Labels⟩] }

/-- Modelled from the spec: the function `addPlainEdge`, defined outside the source slice;
"add a plain edge". -/
def addPlainEdge {NodeT : Type} (G : RegionCFGT NodeT) (Source Target : Nat) :
    RegionCFGT NodeT :=
  { G with Edges := G.Edges ++ [⟨Source, Target, none⟩] }

/-- The method `getEntryNode`: the node that `EntryNode` points to. -/
def getEntryNode {NodeT : Type} (G : RegionCFGT NodeT) : Option (BasicBlockNodeT NodeT) :=
  match G.EntryNode with
  | none => none
  | some E => G.BlockNodes[E]?

/-- The successors of a node: the edge references of its outgoing edges, in order. -/
def successors {NodeT : Type} (G : RegionCFGT NodeT) (Node : Nat) : List (Nat × EdgeInfo) :=
  (G.Edges.filter (fun E => decide (E.Source = Node))).map (fun E => (E.Target, E.edgeInfo))

/-- The successors of a node in the view `EFGT`, the graph filtered by `InlineFilter`, on
which the trees `IFDT` and `IFPDT` are computed: the edge references that the filter keeps. -/
def filteredSuccessors {NodeT : Type} (G : RegionCFGT NodeT) (Node : Nat) :
    List (Nat × EdgeInfo) :=
  (G.successors Node).filter InlineFilter

end RegionCFGT

/-- Lines 35-38: the function `isASwitch` of the template, for any type of original node. -/
def isASwitchGeneric {NodeT : Type} (_Node : BasicBlockNodeT NodeT) : Bool :=
  false

/-- Lines 40-52: the function `isASwitch` for `llvm::BasicBlock *`. -/
def isASwitch (Node : BasicBlockNodeT CFGBlock) : Bool :=
  match Node.isCode, Node.getOriginalNode with
  | true, some OriginalBB =>
    match OriginalBB.Terminator with
    | .Switch _ => true
    | .Other _ => false
  | _, _ => false

/-- Lines 125-131: the method `getSwitchEdgeInfoSuccessor` of the template, for any type of
original node. -/
def getSwitchEdgeInfoSuccessorGeneric {NodeT : Type} (_N : Option NodeT) (I : Nat) :
    Option EdgeInfo :=
  some ⟨[I], false⟩

/-- Lines 133-158: the method `getSwitchEdgeInfoSuccessor` for `llvm::BasicBlock *`; `none`
is a failed assertion. -/
def getSwitchEdgeInfoSuccessor (BB : Option CFGBlock) (I : Nat) : Option EdgeInfo :=
  match BB with
  | none => none
  | some B =>
    match B.Terminator with
    | .Other _ => none
    | .Switch Switch =>
      if I ≤ 4294967295 then
        match Switch.getSuccessor (I % 2 ^ 32) with
        | none => none
        | some CaseBB =>
          if CaseBB = Switch.getDefaultDest then some ⟨[], false⟩
          else
            match Switch.findCaseDest CaseBB with
            | none => none
            | some CaseValue => some ⟨[CaseValue], false⟩
      else none

/-! ## `RegionCFG::initialize` -/

namespace RegionCFGT

/-- Lines 179-182: a node is created for every node of the input graph, and recorded in
`NodeToBBNodeMap`. -/
def createNodes {NodeT : Type} (GT : GraphTraits NodeT) :
    List NodeT → RegionCFGT NodeT → PtrMap Nat → RegionCFGT NodeT × PtrMap Nat
  | [], G, NodeToBBNodeMap => (G, NodeToBBNodeMap)
  | N :: rest, G, NodeToBBNodeMap =>
    let r := G.addNode N (GT.getName N)
    createNodes GT rest r.2 (PtrMap.modify 0 (fun _ => r.1) NodeToBBNodeMap (GT.nodeId N))

/-- Lines 193-204: the loop over the successors of the input node `N`, whose node is
`BBNode`; `index` is the position of the successor. The function `isASwitch` and the method
`getSwitchEdgeInfoSuccessor` are the ones that the template selects. -/
def createEdgesOf {NodeT : Type}
    (isASwitch : BasicBlockNodeT NodeT → Bool)
    (getSwitchEdgeInfoSuccessor : Option NodeT → Nat → Option EdgeInfo)
    (NodeToBBNodeMap : PtrMap Nat) (N : NodeT) (BBNode : Nat) :
    List Nat → Nat → RegionCFGT NodeT → Option (RegionCFGT NodeT)
  | [], _, G => some G
  | OriginalSucc :: rest, index, G =>
    match NodeToBBNodeMap.find? OriginalSucc with
    | none => none
    | some Successor =>
      match G.BlockNodes[BBNode]? with
      | none => none
      | some Node =>
        if Node.isCode && isASwitch Node then
          match getSwitchEdgeInfoSuccessor (some N) index with
          | none => none
          | some Labels =>
            createEdgesOf isASwitch getSwitchEdgeInfoSuccessor NodeToBBNodeMap N BBNode rest
              (index + 1) (G.addEdge BBNode Successor Labels)
        else
          createEdgesOf isASwitch getSwitchEdgeInfoSuccessor NodeToBBNodeMap N BBNode rest
            (index + 1) (G.addPlainEdge BBNode Successor)

/-- Lines 189-205: the loop over the nodes of the input graph that creates the edges. -/
def createEdges {NodeT : Type} (GT : GraphTraits NodeT)
    (isASwitch : BasicBlockNodeT NodeT → Bool)
    (getSwitchEdgeInfoSuccessor : Option NodeT → Nat → Option EdgeInfo)
    (NodeToBBNodeMap : PtrMap Nat) :
    List NodeT → RegionCFGT NodeT → Option (RegionCFGT NodeT)
  | [], G => some G
  | N :: rest, G =>
    match NodeToBBNodeMap.find? (GT.nodeId N) with
    | none => none
    | some BBNode =>
      match createEdgesOf isASwitch getSwitchEdgeInfoSuccessor NodeToBBNodeMap N BBNode
          (GT.children N) 0 G with
      | none => none
      | some G1 =>
        createEdges GT isASwitch getSwitchEdgeInfoSuccessor NodeToBBNodeMap rest G1

/-- The method `initialize` of the template; `none` is a failed assertion or an exception of
`std::map::at`. -/
def initializeWith {NodeT : Type} (GT : GraphTraits NodeT)
    (isASwitch : BasicBlockNodeT NodeT → Bool)
    (getSwitchEdgeInfoSuccessor : Option NodeT → Nat → Option EdgeInfo)
    (G : RegionCFGT NodeT) (Graph : InputGraph NodeT) : Option (RegionCFGT NodeT) :=
  let r := createNodes GT Graph.nodes G PtrMap.empty
  match r.2.find? Graph.getEntryNode with
  | none => none
  | some Entry =>
    createEdges GT isASwitch getSwitchEdgeInfoSuccessor r.2 Graph.nodes
      { r.1 with EntryNode := some Entry }

/-- The method `initialize` of `RegionCFG<llvm::BasicBlock *>`. -/
def initializeBB (G : RegionCFGT CFGBlock) (Graph : InputGraph CFGBlock) :
    Option (RegionCFGT CFGBlock) :=
  initializeWith CFGBlock.graphTraits RevngC.isASwitch RevngC.getSwitchEdgeInfoSuccessor G
    Graph

/-- The method `initialize` of `RegionCFG<NodeT>` for a type of original node other than
`llvm::BasicBlock *`. -/
def initializeGeneric {NodeT : Type} (GT : GraphTraits NodeT) (G : RegionCFGT NodeT)
    (Graph : InputGraph NodeT) : Option (RegionCFGT NodeT) :=
  initializeWith GT isASwitchGeneric getSwitchEdgeInfoSuccessorGeneric G Graph

end RegionCFGT

/-- The successor positions of the input graph, in the order in which `initialize` visits
them: for every node, in order, every index of its successor list with the successor at that
index, in order. -/
def successorPositions {NodeT : Type} (GT : GraphTraits NodeT) (nodes : List NodeT) :
    List (NodeT × Nat × Nat) :=
  nodes.flatMap (fun N => (GT.children N).enum.map (fun p => (N, p.1, p.2)))

/-- The map `NodeToBBNodeMap` is sound for the node storage `B`: a key is mapped to a
pointer to a Code node whose original node has that key as identity and is one of `L`. -/
def MapsToCreated {NodeT : Type} (GT : GraphTraits NodeT) (B : List (BasicBlockNodeT NodeT))
    (L : List NodeT) (M : PtrMap Nat) : Prop :=
  ∀ k p, M.find? k = some p →
    ∃ Node N, B[p]? = some Node ∧ Node.NodeType = BasicBlockNodeType.Code ∧
      Node.OriginalNode = some N ∧ GT.nodeId N = k ∧ N ∈ L

/-- The edge `E` is the one that the loop body at lines 196-203 adds at the successor
position `pos` (an input node, an index and the successor at that index). -/
def EdgeAt {NodeT : Type} (GT : GraphTraits NodeT)
    (isASwitch : BasicBlockNodeT NodeT → Bool)
    (getSwitchEdgeInfoSuccessor : Option NodeT → Nat → Option EdgeInfo)
    (M : PtrMap Nat) (B : List (BasicBlockNodeT NodeT)) (pos : NodeT × Nat × Nat) (E : Edge) :
    Prop :=
  M.find? (GT.nodeId pos.1) = some E.Source ∧ M.find? pos.2.2 = some E.Target ∧
  ∃ Node, B[E.Source]? = some Node ∧
    E.Info.isSome = (Node.isCode && isASwitch Node) ∧
    E.Info = (if Node.isCode && isASwitch Node then getSwitchEdgeInfoSuccessor (some pos.1) pos.2.1
              else none)

/-! ## An input graph, used to run `initialize`

Block 1 ends with a switch: default to block 4, case 7 to block 2, case 9 to block 3. The
blocks 2 and 3 branch to block 4, which returns. -/

/-- The switch that ends block 1. -/
def exampleSwitch : SwitchInst :=
  ⟨4, [(7, 2), (9, 3)]⟩

/-- Block 1 of the input graph. -/
def exampleCFGBlock1 : CFGBlock :=
  ⟨1, "entry", TerminatorInst.Switch exampleSwitch⟩

/-- Block 2 of the input graph. -/
def exampleCFGBlock2 : CFGBlock :=
  ⟨2, "left", TerminatorInst.Other [4]⟩

/-- Block 3 of the input graph. -/
def exampleCFGBlock3 : CFGBlock :=
  ⟨3, "right", TerminatorInst.Other [4]⟩

/-- Block 4 of the input graph. -/
def exampleCFGBlock4 : CFGBlock :=
  ⟨4, "exit", TerminatorInst.Other []⟩

/-- The input graph. -/
def exampleInputGraph : InputGraph CFGBlock :=
  ⟨[exampleCFGBlock1, exampleCFGBlock2, exampleCFGBlock3, exampleCFGBlock4], 1⟩

/-- A switch with two cases that lead to the same block. -/
def exampleSwitchTwoCases : SwitchInst :=
  ⟨4, [(7, 2), (9, 2)]⟩

/-! ## `CliftAttributes.cpp`: the verifiers of struct and union types

Offsets and sizes are `uint64_t`: natural numbers below `2^64`, and a sum is taken modulo
`2^64`. -/

/-- A field of a struct or union (`FieldAttr`): its offset, the byte size of its type (a
value type, of non-zero size, by `FieldAttr::verify`) and its name. -/
structure FieldAttr where
  Offset : Nat
  ByteSize : Nat
  Name : String
deriving DecidableEq

/-- The errors that the verifiers emit, one constructor per message. -/
inductive Diagnostic where
  /-- The message "struct type cannot have a size of zero". -/
  | structZeroSize
  /-- The message "Fields of structs must be ordered by offset, and they cannot overlap". -/
  | structFieldsNotOrdered
  /-- The message "offset + size of field of struct type is greater than the struct type
  size.". -/
  | structFieldBeyondSize
  /-- The message "multiple definitions of struct field named " followed by the name. -/
  | structMultipleDefinitions (Name : String)
  /-- The message "union type cannot have a size of zero". -/
  | unionZeroSize
  /-- The message "union types must have at least a field". -/
  | unionWithoutField
  /-- The message "union types offsets must be zero". -/
  | unionOffsetNotZero
  /-- The message "multiple definitions of union field named " followed by the name. -/
  | unionMultipleDefinitions (Name : String)
deriving DecidableEq

/-- The loop over the names of the fields, common to the verifiers: `Names` is the set of the
names seen so far, `multipleDefinitions` builds the error. -/
def verifyNames (multipleDefinitions : String → Diagnostic) :
    List FieldAttr → List String → Except Diagnostic Unit
  | [], _ => Except.ok ()
  | Field :: rest, Names =>
    if Field.Name = "" then verifyNames multipleDefinitions rest Names
    else if Field.Name ∈ Names then Except.error (multipleDefinitions Field.Name)
    else verifyNames multipleDefinitions rest (Field.Name :: Names)

namespace StructType

/-- Lines 329-341: the loop over the pairs of consecutive fields. -/
def verifyOrder : List (FieldAttr × FieldAttr) → Except Diagnostic Unit
  | [] => Except.ok ()
  | (first, second) :: rest =>
    let StructEnd := (first.Offset + first.ByteSize) % 2 ^ 64
    if StructEnd ≥ second.Offset then Except.error Diagnostic.structFieldsNotOrdered
    else verifyOrder rest

/-- Lines 343-352: the loop over the fields that compares their end with the size. -/
def verifyEnd (Size : Nat) : List FieldAttr → Except Diagnostic Unit
  | [] => Except.ok ()
  | Field :: rest =>
    let FieldEndPoint := (Field.Offset + Field.ByteSize) % 2 ^ 64
    if FieldEndPoint ≥ Size then Except.error Diagnostic.structFieldBeyondSize
    else verifyEnd Size rest

/-- The method `StructType::verify` on a name, a size and fields (lines 316-366). -/
def verify (_ID : Nat) (_Name : String) (Size : Nat) (Fields : List FieldAttr) :
    Except Diagnostic Unit :=
  if Size = 0 then Except.error Diagnostic.structZeroSize
  else if Fields.isEmpty then Except.ok ()
  else
    match verifyOrder (List.zip Fields.dropLast (Fields.drop 1)) with
    | Except.error e => Except.error e
    | Except.ok _ =>
      match verifyEnd Size Fields with
      | Except.error e => Except.error e
      | Except.ok _ => verifyNames Diagnostic.structMultipleDefinitions Fields []

end StructType

namespace UnionType

/-- Lines 379-383: the loop over the fields that checks the offsets. -/
def verifyOffsets : List FieldAttr → Except Diagnostic Unit
  | [] => Except.ok ()
  | Field :: rest =>
    if Field.Offset ≠ 0 then Except.error Diagnostic.unionOffsetNotZero
    else verifyOffsets rest

/-- The method `UnionType::verify` (lines 368-395). -/
def verify (_ID : Nat) (_Name : String) (Size : Nat) (Fields : List FieldAttr) :
    Except Diagnostic Unit :=
  if Size = 0 then Except.error Diagnostic.unionZeroSize
  else if Fields.length ≠ 0 then Except.error Diagnostic.unionWithoutField
  else
    match verifyOffsets Fields with
    | Except.error e => Except.error e
    | Except.ok _ => verifyNames Diagnostic.unionMultipleDefinitions Fields []

end UnionType

/-! ## `CliftAttributes.cpp`: the verifier of function types -/

/-- A value type, as far as `FunctionAttr::verify` looks at it: a `DefinedType`, whose
element type is a function type or not, or another value type. -/
inductive ValueType where
  | DefinedType (elementIsFunctionAttr : Bool)
  | Other
deriving DecidableEq

/-- An argument of a function type (`FunctionArgumentAttr`): the byte size of its type and
its name. -/
structure FunctionArgumentAttr where
  ByteSize : Nat
  Name : String
deriving DecidableEq

/-- The errors that `FunctionAttr::verify` emits, one constructor per message. -/
inductive FunctionDiagnostic where
  /-- The message "function type cannot return another function type". -/
  | returnsFunctionType
  /-- The message "multiple definitions of function argument named " followed by the
  name. -/
  | multipleDefinitions (Name : String)
deriving DecidableEq

namespace FunctionAttr

/-- Lines 82-91: the loop over the names of the arguments; `Names` is the set of the names
seen so far. -/
def verifyNames : List FunctionArgumentAttr → List String → Except FunctionDiagnostic Unit
  | [], _ => Except.ok ()
  | Arg :: rest, Names =>
    if Arg.Name = "" then verifyNames rest Names
    else if Arg.Name ∈ Names then Except.error (FunctionDiagnostic.multipleDefinitions Arg.Name)
    else verifyNames rest (Arg.Name :: Names)

/-- The method `FunctionAttr::verify` (lines 68-93). -/
def verify (_Id : Nat) (_Name : String) (ReturnType : ValueType)
    (Args : List FunctionArgumentAttr) : Except FunctionDiagnostic Unit :=
  match ReturnType with
  | ValueType.DefinedType true => Except.error FunctionDiagnostic.returnsFunctionType
  | _ => verifyNames Args []

end FunctionAttr

/-- No two elements of the list have the same non-empty name; `name` gives the name of an
element. -/
def NoSharedName {α : Type} (name : α → String) (l : List α) : Prop :=
  l.Pairwise (fun a b => ¬ (name a = name b ∧ name a ≠ ""))

/-! ## `RegionCFG::addArtificialNode` -/

namespace RegionCFGT

/-- Lines 249-256: the method `addArtificialNode`; `none` is the failed assertion. The
constructor of the node, outside the source slice, is modelled from the spec like the one of
`addNode`: the node takes the next id, has the kind and the name handed to it and no original
node. The result is the pointer to the node and the graph afterwards. -/
def addArtificialNode {NodeT : Type} (G : RegionCFGT NodeT) (Name : String)
    (T : BasicBlockNodeType) : Option (Nat × RegionCFGT NodeT) :=
  if T = BasicBlockNodeType.Empty ∨ T = BasicBlockNodeType.Break
      ∨ T = BasicBlockNodeType.Continue then
    let r := G.getNewID
    some (r.2.BlockNodes.length,
      { r.2 with BlockNodes := r.2.BlockNodes ++ [⟨r.1, T, none, Name⟩] })
  else none

/-- The call `addArtificialNode()` with the default arguments, the name "dummy" and the kind
`Empty`. -/
def addArtificialNodeDefault {NodeT : Type} (G : RegionCFGT NodeT) :
    Option (Nat × RegionCFGT NodeT) :=
  G.addArtificialNode "dummy" BasicBlockNodeType.Empty

/-- Lines 258-260: the method `addContinue`. -/
def addContinue {NodeT : Type} (G : RegionCFGT NodeT) : Option (Nat × RegionCFGT NodeT) :=
  G.addArtificialNode "continue" BasicBlockNodeType.Continue

/-- Lines 262-264: the method `addBreak`. -/
def addBreak {NodeT : Type} (G : RegionCFGT NodeT) : Option (Nat × RegionCFGT NodeT) :=
  G.addArtificialNode "break" BasicBlockNodeType.Break

end RegionCFGT

/-! ## Sequences of runs of `transfer` -/

/-- A sequence of runs of `transfer`: before each run the framework has set `State` to some
value, here given with the block; the maps `NDuplicates` and `ToSerialize` go from one run to
the next. -/
def transferRuns : List (PtrMap LatticeElement × BasicBlock) → Analysis → Option Analysis
  | [], A => some A
  | (State, BB) :: rest, A =>
    match transfer { A with State := State } BB with
    | none => none
    | some r => transferRuns rest r.2

/-- The element that `State[BB]` denotes. -/
def Analysis.stateOf (A : Analysis) (BB : Nat) : LatticeElement :=
  (A.State.find? BB).getD LatticeElement.empty

/-! ## More inputs, used to run the definitions -/

/-- A call used once, in its own block. -/
def exampleCallUsedOnce : Instruction :=
  ⟨50, Opcode.Call, [Value.constant], [User.instruction 51 3]⟩

/-- A graph made of two Code nodes that wrap blocks of different functions. -/
def exampleRegionCFGTwoFunctions : RegionCFG :=
  ⟨[⟨0, BasicBlockNodeType.Code, some exampleBB1⟩,
    ⟨1, BasicBlockNodeType.Code, some ⟨9, ⟨200, [9]⟩, []⟩⟩]⟩

/-- A graph in which block 3 of the example function is wrapped by no node. -/
def exampleRegionCFGMissingBlock : RegionCFG :=
  ⟨[⟨0, BasicBlockNodeType.Code, some exampleBB1⟩,
    ⟨1, BasicBlockNodeType.Code, some exampleBB2⟩]⟩

/-- A graph without Code node. -/
def exampleRegionCFGNoCode : RegionCFG :=
  ⟨[⟨0, BasicBlockNodeType.Empty, none⟩, ⟨1, BasicBlockNodeType.Break, none⟩]⟩

/-- The number of uses of every instruction of the example, by the identity of the
instruction. -/
def exampleNumUses : Nat → Nat
  | 10 => 2
  | 11 => 1
  | 20 => 1
  | 30 => 1
  | _ => 0

/-- Four runs of `transfer`, over the blocks 1, 2, 3 and 1 again, each from an empty
`State`. -/
def exampleRuns : List (PtrMap LatticeElement × BasicBlock) :=
  [(PtrMap.empty, exampleBB1), (PtrMap.empty, exampleBB2), (PtrMap.empty, exampleBB3),
    (PtrMap.empty, exampleBB1)]

/-- A block of another function: an addition of arguments, used once in the next block,
and a branch. -/
def exampleBB5 : BasicBlock :=
  ⟨5, ⟨101, [5, 6]⟩,
    [⟨60, Opcode.Other, [Value.argument, Value.argument], [User.instruction 61 6]⟩,
      ⟨62, Opcode.Br, [Value.basicBlock], []⟩]⟩

/-- The analysis before block 5 is visited: the blocks 5 and 6 are not duplicated, the
instruction 59 is pending on entry, nothing is classified. -/
def exampleAnalysis5 : Analysis :=
  ⟨⟨[(5, ⟨[59]⟩)]⟩, ⟨[(5, 1), (6, 1)]⟩, PtrMap.empty⟩

/-- An analysis in which the alloca of block 1 is already classified, with `HasManyUses`. -/
def exampleAnalysisClassified : Analysis :=
  ⟨PtrMap.empty, exampleNDuplicates,
    SerializationMap.setFlag PtrMap.empty 10 SerializationReason.HasManyUses⟩

/-- The use-count bits of a classification map agree with the use counts `numUses`:
`AlwaysSerialize` only on instructions without use, `HasDuplicatedUses` only on instructions
with one use, `HasManyUses` only on instructions with more than one use. -/
def UseFlagsSound (numUses : Nat → Nat) (T : SerializationMap) : Prop :=
  ∀ j, (T.hasFlag j SerializationReason.AlwaysSerialize = true → numUses j = 0) ∧
    (T.hasFlag j SerializationReason.HasDuplicatedUses = true → numUses j = 1) ∧
    (T.hasFlag j SerializationReason.HasManyUses = true → 2 ≤ numUses j)

/-- A block that ends with the switch whose two cases lead to the same block: default to
block 4, case 7 and case 9 to block 2. -/
def exampleCFGBlockTwoCases : CFGBlock :=
  ⟨1, "entry", TerminatorInst.Switch exampleSwitchTwoCases⟩

/-! ## Facts about the maps -/

namespace PtrMap

theorem findEntries_modifyEntries {β : Type} (dflt : β) (f : β → β) (l : List (Nat × β))
    (k j : Nat) :
    findEntries (modifyEntries dflt f l k) j =
      if j = k then some (f ((findEntries l k).getD dflt)) else findEntries l j := by
  induction l with
  | nil =>
    by_cases h : j = k
    · simp [modifyEntries, findEntries, h]
    · have h' : ¬ k = j := fun e => h e.symm
      simp [modifyEntries, findEntries, h, h']
  | cons e rest ih =>
    obtain ⟨k', v⟩ := e
    by_cases hk : k' = k
    · by_cases h : j = k
      · simp [modifyEntries, findEntries, hk, h]
      · have h' : ¬ k = j := fun e => h e.symm
        simp [modifyEntries, findEntries, hk, h, h']
    · by_cases h : j = k
      · subst h
        simpa [modifyEntries, findEntries, hk] using ih
      · simp [modifyEntries, findEntries, hk, h, ih]

theorem find?_modify {β : Type} (dflt : β) (f : β → β) (m : PtrMap β) (k j : Nat) :
    (modify dflt f m k).find? j =
      if j = k then some (f ((m.find? k).getD dflt)) else m.find? j :=
  findEntries_modifyEntries dflt f m.entries k j

theorem find?_empty {β : Type} (j : Nat) : (empty : PtrMap β).find? j = none := rfl

theorem findEntries_isSome_iff {β : Type} (l : List (Nat × β)) (k : Nat) :
    (findEntries l k).isSome = true ↔ k ∈ l.map Prod.fst := by
  induction l with
  | nil => simp [findEntries]
  | cons e rest ih =>
    obtain ⟨k', v⟩ := e
    by_cases hk : k' = k
    · simp [findEntries, hk]
    · have hk' : ¬ k = k' := fun e => hk e.symm
      simp [findEntries, hk, hk', ih]

theorem contains_iff_mem_keys {β : Type} (m : PtrMap β) (k : Nat) :
    m.contains k = true ↔ k ∈ m.keys :=
  findEntries_isSome_iff m.entries k

theorem keys_modifyEntries {β : Type} (dflt : β) (f : β → β) (l : List (Nat × β)) (k : Nat) :
    (modifyEntries dflt f l k).map Prod.fst =
      if k ∈ l.map Prod.fst then l.map Prod.fst else l.map Prod.fst ++ [k] := by
  induction l with
  | nil => simp [modifyEntries]
  | cons e rest ih =>
    obtain ⟨k', v⟩ := e
    by_cases hk : k' = k
    · simp [modifyEntries, hk]
    · have hk' : ¬ k = k' := fun e => hk e.symm
      by_cases hm : k ∈ rest.map Prod.fst
      · simp only [modifyEntries, hk, if_false, List.map_cons, ih, hm, if_true,
          List.mem_cons, or_true]
      · simp only [modifyEntries, hk, if_false, List.map_cons, ih, hm, List.mem_cons, hk',
          or_self, List.cons_append]

theorem nodup_keys_modify {β : Type} (dflt : β) (f : β → β) (m : PtrMap β) (k : Nat)
    (h : m.keys.Nodup) : (modify dflt f m k).keys.Nodup := by
  unfold keys modify
  rw [keys_modifyEntries]
  by_cases hm : k ∈ m.entries.map Prod.fst
  · simpa [hm] using h
  · simp only [hm, if_false]
    rw [List.nodup_append]
    refine ⟨h, List.nodup_singleton k, ?_⟩
    intro a ha hb
    rw [List.mem_singleton] at hb
    exact hm (hb ▸ ha)

end PtrMap

namespace SerializationFlags

theorem isSet_set (s : SerializationFlags) (R Q : SerializationReason) :
    (s.set R).isSet Q = (decide (Q = R) || s.isSet Q) := by
  cases R <;> cases Q <;> simp [set, isSet]

theorem isSet_none (Q : SerializationReason) : none.isSet Q = false := by
  cases Q <;> rfl

end SerializationFlags

namespace SerializationMap

theorem hasFlag_setFlag (TS : SerializationMap) (i j : Nat) (R Q : SerializationReason) :
    (setFlag TS i R).hasFlag j Q = ((decide (j = i) && decide (Q = R)) || TS.hasFlag j Q) := by
  unfold hasFlag setFlag
  rw [PtrMap.find?_modify]
  by_cases h : j = i
  · subst h
    cases hf : PtrMap.find? TS j with
    | none => simp [SerializationFlags.isSet_set, SerializationFlags.isSet_none]
    | some s => simp [SerializationFlags.isSet_set]
  · simp [h]

theorem contains_setFlag (TS : SerializationMap) (i j : Nat) (R : SerializationReason) :
    PtrMap.contains (setFlag TS i R) j = (decide (j = i) || PtrMap.contains TS j) := by
  unfold PtrMap.contains setFlag
  rw [PtrMap.find?_modify]
  by_cases h : j = i
  · simp [h]
  · simp [h]

theorem hasFlag_eq_false_of_contains_eq_false (TS : SerializationMap) (j : Nat)
    (Q : SerializationReason) (h : PtrMap.contains TS j = false) : TS.hasFlag j Q = false := by
  unfold PtrMap.contains at h
  unfold hasFlag
  cases hf : PtrMap.find? TS j with
  | none => rfl
  | some s => simp [hf] at h

theorem contains_of_hasFlag (TS : SerializationMap) (j : Nat) (Q : SerializationReason)
    (h : TS.hasFlag j Q = true) : PtrMap.contains TS j = true := by
  cases hc : PtrMap.contains TS j with
  | true => rfl
  | false => rw [hasFlag_eq_false_of_contains_eq_false TS j Q hc] at h; cases h

end SerializationMap

namespace LatticeElement

theorem mem_erase (P : LatticeElement) (i j : Nat) :
    j ∈ (P.erase i).Instructions ↔ j ∈ P.Instructions ∧ j ≠ i := by
  simp [erase]

theorem mem_insert (P : LatticeElement) (i j : Nat) :
    j ∈ (P.insert i).Instructions ↔ j ∈ P.Instructions ∨ j = i := by
  unfold insert
  by_cases h : i ∈ P.Instructions
  · simp only [h, if_true]
    constructor
    · exact Or.inl
    · rintro (h' | h')
      · exact h'
      · exact h' ▸ h
  · simp [h]

end LatticeElement

/-! ## Facts about the phases of the loop body -/

theorem mem_removeOperands (ops : List Value) (P P1 : LatticeElement)
    (h : removeOperands ops P = some P1) (j : Nat) :
    j ∈ P1.Instructions ↔ j ∈ P.Instructions ∧ Value.instruction j ∉ ops := by
  induction ops generalizing P with
  | nil =>
    simp only [removeOperands, Option.some.injEq] at h
    subst h
    simp
  | cons V rest ih =>
    cases V with
    | instruction u =>
      simp only [removeOperands] at h
      rw [ih _ h, LatticeElement.mem_erase]
      simp only [List.mem_cons, Value.instruction.injEq, not_or]
      tauto
    | argument => simp only [removeOperands] at h; rw [ih _ h]; simp
    | constant => simp only [removeOperands] at h; rw [ih _ h]; simp
    | basicBlock => simp only [removeOperands] at h; rw [ih _ h]; simp
    | metadataAsValue => simp only [removeOperands] at h; rw [ih _ h]; simp
    | other => simp [removeOperands] at h

theorem hasFlag_markKind (I : Instruction) (T : SerializationMap) (j : Nat)
    (Q : SerializationReason) :
    (markKind I T).hasFlag j Q = ((decide (j = I.id) && kindFlag I Q) || T.hasFlag j Q) := by
  unfold markKind
  cases hop : I.opcode <;> cases Q <;>
    simp [hop, isPure, kindFlag, SerializationMap.hasFlag_setFlag]

theorem contains_markKind (I : Instruction) (T : SerializationMap) (j : Nat) :
    PtrMap.contains (markKind I T) j =
      ((decide (j = I.id) && hasKindFlag I) || PtrMap.contains T j) := by
  unfold markKind
  cases hop : I.opcode <;>
    simp [hop, isPure, hasKindFlag, SerializationMap.contains_setFlag]

theorem markUses_cases (nd : DuplicationMap) (nbb : Nat) (I : Instruction)
    (P P2 : LatticeElement) (T T2 : SerializationMap)
    (h : markUses nd nbb I P T = some (P2, T2)) :
    (I.getNumUses = 0 ∧ P2 = P ∧
        T2 = T.setFlag I.id SerializationReason.AlwaysSerialize) ∨
    (I.getNumUses = 1 ∧ ∃ uid ubb ud, I.uses.head? = some (User.instruction uid ubb) ∧
        nd.find? ubb = some ud ∧
        ((nbb < ud ∧ P2 = P ∧ T2 = T.setFlag I.id SerializationReason.HasDuplicatedUses) ∨
         (¬ nbb < ud ∧ P2 = P.insert I.id ∧ T2 = T))) ∨
    (2 ≤ I.getNumUses ∧ P2 = P ∧
        T2 = T.setFlag I.id SerializationReason.HasManyUses) := by
  unfold markUses at h
  split at h
  · rename_i hn
    right; left
    refine ⟨hn, ?_⟩
    split at h
    · rename_i uid ubb hu
      split at h
      · rename_i ud hd
        refine ⟨uid, ubb, ud, hu, hd, ?_⟩
        split at h
        · rename_i hlt
          simp only [Option.some.injEq, Prod.mk.injEq] at h
          exact Or.inl ⟨hlt, h.1.symm, h.2.symm⟩
        · rename_i hlt
          simp only [Option.some.injEq, Prod.mk.injEq] at h
          exact Or.inr ⟨hlt, h.1.symm, h.2.symm⟩
      · cases h
    · cases h
  · rename_i hn
    left
    simp only [Option.some.injEq, Prod.mk.injEq] at h
    exact ⟨hn, h.1.symm, h.2.symm⟩
  · rename_i h1 h0
    right; right
    simp only [Option.some.injEq, Prod.mk.injEq] at h
    refine ⟨?_, h.1.symm, h.2.symm⟩
    have h1' : I.getNumUses ≠ 1 := h1
    have h0' : I.getNumUses ≠ 0 := h0
    omega

theorem serializePendingLoop_fst (I : Instruction) (l : List Nat) (T : SerializationMap) :
    (serializePendingLoop I l T).1 = [] := by
  induction l generalizing T with
  | nil => rfl
  | cons j rest ih => simp [serializePendingLoop, haveInterferingSideEffects, ih]

theorem hasFlag_serializePendingLoop (I : Instruction) (l : List Nat) (T : SerializationMap)
    (j : Nat) (Q : SerializationReason) :
    (serializePendingLoop I l T).2.hasFlag j Q =
      ((decide (j ∈ l) && decide (Q = SerializationReason.HasInterferingSideEffects))
        || T.hasFlag j Q) := by
  induction l generalizing T with
  | nil => simp [serializePendingLoop]
  | cons i rest ih =>
    simp only [serializePendingLoop, haveInterferingSideEffects, if_true, ih,
      SerializationMap.hasFlag_setFlag, List.mem_cons]
    by_cases h1 : j = i <;> by_cases h2 : j ∈ rest <;>
      by_cases h3 : Q = SerializationReason.HasInterferingSideEffects <;> simp [h1, h2, h3]

theorem contains_serializePendingLoop (I : Instruction) (l : List Nat) (T : SerializationMap)
    (j : Nat) :
    PtrMap.contains (serializePendingLoop I l T).2 j = (decide (j ∈ l) || PtrMap.contains T j) := by
  induction l generalizing T with
  | nil => simp [serializePendingLoop]
  | cons i rest ih =>
    simp only [serializePendingLoop, haveInterferingSideEffects, if_true, ih,
      SerializationMap.contains_setFlag, List.mem_cons]
    by_cases h1 : j = i <;> by_cases h2 : j ∈ rest <;> simp [h1, h2]

/-- The loop body on an instruction that is not skipped, phase by phase. -/
theorem transferInstruction_phases (nd : DuplicationMap) (nbb : Nat) (I : Instruction)
    (P P' : LatticeElement) (T T' : SerializationMap)
    (hs : isSkipped I = false)
    (h : transferInstruction nd nbb I P T = some (P', T')) :
    ∃ P1 P2 T2, removeOperands I.operands P = some P1 ∧
      markUses nd nbb I P1 (markKind I T) = some (P2, T2) ∧
      serializePending I P2 T2 = (P', T') := by
  unfold transferInstruction at h
  cases h1 : removeOperands I.operands P with
  | none => simp [h1] at h
  | some P1 =>
    simp only [h1, hs] at h
    cases h2 : markUses nd nbb I P1 (markKind I T) with
    | none => simp [h2] at h
    | some r =>
      obtain ⟨P2, T2⟩ := r
      simp only [h2, Bool.false_eq_true, if_false, Option.some.injEq] at h
      exact ⟨P1, P2, T2, rfl, h2, h⟩

/-- The loop body on a skipped instruction. -/
theorem transferInstruction_skipped (nd : DuplicationMap) (nbb : Nat) (I : Instruction)
    (P P' : LatticeElement) (T T' : SerializationMap)
    (hs : isSkipped I = true)
    (h : transferInstruction nd nbb I P T = some (P', T')) :
    removeOperands I.operands P = some P' ∧ T' = T := by
  unfold transferInstruction at h
  cases h1 : removeOperands I.operands P with
  | none => simp [h1] at h
  | some P1 =>
    simp only [h1, hs, if_true, Option.some.injEq, Prod.mk.injEq] at h
    exact ⟨by rw [h.1], h.2.symm⟩

theorem hasFlag_markUses (nd : DuplicationMap) (nbb : Nat) (I : Instruction)
    (P P2 : LatticeElement) (T T2 : SerializationMap)
    (h : markUses nd nbb I P T = some (P2, T2)) (j : Nat) (Q : SerializationReason) :
    T2.hasFlag j Q = ((decide (j = I.id) && usesFlag nd nbb I Q) || T.hasFlag j Q) := by
  rcases markUses_cases nd nbb I P P2 T T2 h with
    ⟨hn, -, rfl⟩ | ⟨hn, uid, ubb, ud, hu, hd, ⟨hlt, -, rfl⟩ | ⟨hlt, -, rfl⟩⟩ | ⟨hn, -, rfl⟩
  · cases Q <;> simp [SerializationMap.hasFlag_setFlag, usesFlag, hn]
  · cases Q <;> simp [SerializationMap.hasFlag_setFlag, usesFlag, hn, hu, hd, hlt]
  · cases Q <;> simp [usesFlag, hn, hu, hd, hlt]
  · have h0 : I.getNumUses ≠ 0 := by omega
    have h1 : I.getNumUses ≠ 1 := by omega
    cases Q <;> simp [SerializationMap.hasFlag_setFlag, usesFlag, hn, h0, h1]

theorem hasFlag_serializePending (I : Instruction) (P2 P' : LatticeElement)
    (T2 T' : SerializationMap) (h : serializePending I P2 T2 = (P', T')) (j : Nat)
    (Q : SerializationReason) :
    T'.hasFlag j Q =
      ((PtrMap.contains T2 I.id && decide (j ∈ P2.Instructions) &&
          decide (Q = SerializationReason.HasInterferingSideEffects)) || T2.hasFlag j Q) := by
  unfold serializePending at h
  cases hc : PtrMap.contains T2 I.id with
  | true =>
    simp only [hc, if_true, Prod.mk.injEq] at h
    rw [← h.2, hasFlag_serializePendingLoop]
    simp
  | false =>
    simp only [hc, Bool.false_eq_true, if_false, Prod.mk.injEq] at h
    rw [← h.2]
    simp

/-- The flags after the loop body on an instruction that is not skipped. -/
theorem hasFlag_transferInstruction (nd : DuplicationMap) (nbb : Nat) (I : Instruction)
    (P P' : LatticeElement) (T T' : SerializationMap)
    (hs : isSkipped I = false)
    (h : transferInstruction nd nbb I P T = some (P', T')) (j : Nat) (Q : SerializationReason) :
    ∃ flushed : Bool, T'.hasFlag j Q =
      ((flushed && decide (Q = SerializationReason.HasInterferingSideEffects)) ||
        ((decide (j = I.id) && (usesFlag nd nbb I Q || kindFlag I Q)) || T.hasFlag j Q)) := by
  obtain ⟨P1, P2, T2, -, h2, h3⟩ := transferInstruction_phases nd nbb I P P' T T' hs h
  refine ⟨PtrMap.contains T2 I.id && decide (j ∈ P2.Instructions), ?_⟩
  rw [hasFlag_serializePending I P2 P' T2 T' h3, hasFlag_markUses nd nbb I P1 P2 _ T2 h2,
    hasFlag_markKind]
  cases decide (j = I.id) <;> cases usesFlag nd nbb I Q <;> cases kindFlag I Q <;> simp

/-- Flags are never cleared by the loop body. -/
theorem hasFlag_transferInstruction_mono (nd : DuplicationMap) (nbb : Nat) (I : Instruction)
    (P P' : LatticeElement) (T T' : SerializationMap)
    (h : transferInstruction nd nbb I P T = some (P', T')) (j : Nat) (Q : SerializationReason)
    (hf : T.hasFlag j Q = true) : T'.hasFlag j Q = true := by
  cases hs : isSkipped I with
  | true =>
    rw [(transferInstruction_skipped nd nbb I P P' T T' hs h).2]
    exact hf
  | false =>
    obtain ⟨b, hb⟩ := hasFlag_transferInstruction nd nbb I P P' T T' hs h j Q
    rw [hb, hf]
    simp

/-- Flags are never cleared by the loop over the instructions. -/
theorem hasFlag_transferLoop_mono (nd : DuplicationMap) (nbb : Nat) (l : List Instruction)
    (P P' : LatticeElement) (T T' : SerializationMap)
    (h : transferLoop nd nbb l P T = some (P', T')) (j : Nat) (Q : SerializationReason)
    (hf : T.hasFlag j Q = true) : T'.hasFlag j Q = true := by
  induction l generalizing P T with
  | nil =>
    simp only [transferLoop, Option.some.injEq, Prod.mk.injEq] at h
    rw [← h.2]
    exact hf
  | cons I rest ih =>
    simp only [transferLoop] at h
    cases h1 : transferInstruction nd nbb I P T with
    | none => simp [h1] at h
    | some r =>
      obtain ⟨P1, T1⟩ := r
      simp only [h1] at h
      exact ih P1 T1 h (hasFlag_transferInstruction_mono nd nbb I P P1 T T1 h1 j Q hf)

/-- Every instruction of the list goes through the loop body, and the flags it leaves are
still there at the end of the loop. -/
theorem transferLoop_step_of_mem (nd : DuplicationMap) (nbb : Nat) (l : List Instruction)
    (P P' : LatticeElement) (T T' : SerializationMap)
    (h : transferLoop nd nbb l P T = some (P', T')) (I : Instruction) (hI : I ∈ l) :
    ∃ Pa Ta Pb Tb, transferInstruction nd nbb I Pa Ta = some (Pb, Tb) ∧
      ∀ j Q, Tb.hasFlag j Q = true → T'.hasFlag j Q = true := by
  induction l generalizing P T with
  | nil => cases hI
  | cons J rest ih =>
    simp only [transferLoop] at h
    cases h1 : transferInstruction nd nbb J P T with
    | none => simp [h1] at h
    | some r =>
      obtain ⟨P1, T1⟩ := r
      simp only [h1] at h
      rcases List.mem_cons.mp hI with rfl | hmem
      · exact ⟨P, T, P1, T1, h1, fun j Q hf =>
          hasFlag_transferLoop_mono nd nbb rest P1 P' T1 T' h j Q hf⟩
      · exact ih P1 T1 h hmem

/-- The method `transfer`, unfolded on a run that returns. -/
theorem transfer_eq_some (A A' : Analysis) (BB : BasicBlock) (P' : LatticeElement)
    (h : transfer A BB = some (P', A')) :
    ∃ nbb, A.NDuplicates.find? BB.id = some nbb ∧
      transferLoop A.NDuplicates nbb BB.insts
        (((PtrMap.modify LatticeElement.empty (fun P => P) A.State BB.id).find? BB.id).getD
          LatticeElement.empty) A.ToSerialize = some (P', A'.ToSerialize) ∧
      A'.State = PtrMap.modify LatticeElement.empty (fun P => P) A.State BB.id ∧
      A'.NDuplicates = A.NDuplicates := by
  unfold transfer at h
  cases hn : A.NDuplicates.find? BB.id with
  | none => simp [hn] at h
  | some nbb =>
    simp only [hn] at h
    split at h
    · cases h
    · rename_i P T hl
      simp only [Option.some.injEq, Prod.mk.injEq] at h
      obtain ⟨rfl, rfl⟩ := h
      exact ⟨nbb, rfl, hl, rfl, rfl⟩

/-! ## The loop body returns on accepted instructions -/

theorem removeOperands_isSome (ops : List Value) (P : LatticeElement)
    (h : Value.other ∉ ops) : ∃ P1, removeOperands ops P = some P1 := by
  induction ops generalizing P with
  | nil => exact ⟨P, rfl⟩
  | cons V rest ih =>
    have hrest : Value.other ∉ rest := fun hm => h (List.mem_cons_of_mem _ hm)
    cases V with
    | instruction u => exact ih (P.erase u) hrest
    | argument => exact ih P hrest
    | constant => exact ih P hrest
    | basicBlock => exact ih P hrest
    | metadataAsValue => exact ih P hrest
    | other => exact absurd (List.mem_cons_self _ _) h

theorem markUses_isSome (nd : DuplicationMap) (nbb : Nat) (I : Instruction)
    (P : LatticeElement) (T : SerializationMap) (h : I.isAccepted nd = true) :
    ∃ r, markUses nd nbb I P T = some r := by
  unfold Instruction.isAccepted at h
  simp only [Bool.and_eq_true, Bool.or_eq_true, decide_eq_true_eq] at h
  obtain ⟨-, h⟩ := h
  unfold markUses
  split
  · rename_i hn
    rcases h with h | h
    · exact absurd hn h
    · split at h
      · rename_i uid ubb hu
        unfold PtrMap.contains at h
        cases hd : nd.find? ubb with
        | none => simp [hd] at h
        | some ud =>
          simp only [hu, hd]
          split
          · exact ⟨_, rfl⟩
          · exact ⟨_, rfl⟩
      · cases h
  · exact ⟨_, rfl⟩
  · exact ⟨_, rfl⟩

theorem transferInstruction_isSome (nd : DuplicationMap) (nbb : Nat) (I : Instruction)
    (P : LatticeElement) (T : SerializationMap) (h : I.isAccepted nd = true) :
    ∃ r, transferInstruction nd nbb I P T = some r := by
  have hops : Value.other ∉ I.operands := by
    unfold Instruction.isAccepted at h
    simp only [Bool.and_eq_true, decide_eq_true_eq] at h
    exact h.1
  obtain ⟨P1, h1⟩ := removeOperands_isSome I.operands P hops
  unfold transferInstruction
  rw [h1]
  cases hs : isSkipped I with
  | true => exact ⟨_, rfl⟩
  | false =>
    obtain ⟨r, hr⟩ := markUses_isSome nd nbb I P1 (markKind I T) h
    obtain ⟨P2, T2⟩ := r
    simp only [hr, Bool.false_eq_true, if_false]
    exact ⟨_, rfl⟩

theorem transferLoop_isSome (nd : DuplicationMap) (nbb : Nat) (l : List Instruction)
    (P : LatticeElement) (T : SerializationMap) (h : ∀ I ∈ l, I.isAccepted nd = true) :
    ∃ r, transferLoop nd nbb l P T = some r := by
  induction l generalizing P T with
  | nil => exact ⟨_, rfl⟩
  | cons I rest ih =>
    obtain ⟨r, hr⟩ := transferInstruction_isSome nd nbb I P T (h I (List.mem_cons_self _ _))
    obtain ⟨P1, T1⟩ := r
    simp only [transferLoop, hr]
    exact ih P1 T1 (fun J hJ => h J (List.mem_cons_of_mem _ hJ))

/-- The method `transfer` returns on a block that has a duplication count and whose
instructions are accepted. -/
theorem transfer_isSome (A : Analysis) (BB : BasicBlock)
    (hb : A.NDuplicates.contains BB.id = true)
    (h : ∀ I ∈ BB.insts, I.isAccepted A.NDuplicates = true) :
    ∃ r, transfer A BB = some r := by
  unfold PtrMap.contains at hb
  unfold transfer
  cases hn : A.NDuplicates.find? BB.id with
  | none => simp [hn] at hb
  | some nbb =>
    obtain ⟨r, hr⟩ := transferLoop_isSome A.NDuplicates nbb BB.insts
      (((PtrMap.modify LatticeElement.empty (fun P => P) A.State BB.id).find? BB.id).getD
        LatticeElement.empty) A.ToSerialize h
    obtain ⟨P1, T1⟩ := r
    simp only [hr]
    exact ⟨_, rfl⟩

/-! ## What the loop body leaves alone -/

theorem find?_setFlag_of_ne (T : SerializationMap) (i j : Nat) (R : SerializationReason)
    (h : j ≠ i) : PtrMap.find? (T.setFlag i R) j = PtrMap.find? T j := by
  unfold SerializationMap.setFlag
  rw [PtrMap.find?_modify]
  simp [h]

theorem find?_markKind_of_ne (I : Instruction) (T : SerializationMap) (j : Nat)
    (h : j ≠ I.id) : PtrMap.find? (markKind I T) j = PtrMap.find? T j := by
  unfold markKind
  cases hop : I.opcode <;> simp [isPure, find?_setFlag_of_ne, h]

theorem markKind_of_hasKindFlag_eq_false (I : Instruction) (T : SerializationMap)
    (h : hasKindFlag I = false) : markKind I T = T := by
  unfold markKind
  cases hop : I.opcode <;> simp [hasKindFlag, hop] at h <;> simp [isPure]

theorem find?_markUses_of_ne (nd : DuplicationMap) (nbb : Nat) (I : Instruction)
    (P P2 : LatticeElement) (T T2 : SerializationMap)
    (h : markUses nd nbb I P T = some (P2, T2)) (j : Nat) (hj : j ≠ I.id) :
    PtrMap.find? T2 j = PtrMap.find? T j := by
  rcases markUses_cases nd nbb I P P2 T T2 h with
    ⟨-, -, rfl⟩ | ⟨-, -, -, -, -, -, ⟨-, -, rfl⟩ | ⟨-, -, rfl⟩⟩ | ⟨-, -, rfl⟩
  · exact find?_setFlag_of_ne T I.id j _ hj
  · exact find?_setFlag_of_ne T I.id j _ hj
  · rfl
  · exact find?_setFlag_of_ne T I.id j _ hj

theorem mem_markUses (nd : DuplicationMap) (nbb : Nat) (I : Instruction)
    (P P2 : LatticeElement) (T T2 : SerializationMap)
    (h : markUses nd nbb I P T = some (P2, T2)) (j : Nat) :
    (j ∈ P.Instructions → j ∈ P2.Instructions) ∧
    (j ∈ P2.Instructions → j ∈ P.Instructions ∨ j = I.id) := by
  rcases markUses_cases nd nbb I P P2 T T2 h with
    ⟨-, rfl, -⟩ | ⟨-, -, -, -, -, -, ⟨-, rfl, -⟩ | ⟨-, rfl, -⟩⟩ | ⟨-, rfl, -⟩
  · exact ⟨id, Or.inl⟩
  · exact ⟨id, Or.inl⟩
  · exact ⟨fun hj => (LatticeElement.mem_insert P I.id j).mpr (Or.inl hj),
      fun hj => (LatticeElement.mem_insert P I.id j).mp hj⟩
  · exact ⟨id, Or.inl⟩

theorem find?_serializePendingLoop_of_not_mem (I : Instruction) (l : List Nat)
    (T : SerializationMap) (j : Nat) (hj : j ∉ l) :
    PtrMap.find? (serializePendingLoop I l T).2 j = PtrMap.find? T j := by
  induction l generalizing T with
  | nil => rfl
  | cons i rest ih =>
    simp only [List.mem_cons, not_or] at hj
    simp only [serializePendingLoop, haveInterferingSideEffects, if_true]
    rw [ih _ hj.2, find?_setFlag_of_ne T i j _ hj.1]

theorem find?_serializePending_of_not_mem (I : Instruction) (P2 P' : LatticeElement)
    (T2 T' : SerializationMap) (h : serializePending I P2 T2 = (P', T')) (j : Nat)
    (hj : j ∉ P2.Instructions) : PtrMap.find? T' j = PtrMap.find? T2 j := by
  unfold serializePending at h
  cases hc : PtrMap.contains T2 I.id with
  | true =>
    simp only [hc, if_true, Prod.mk.injEq] at h
    rw [← h.2]
    exact find?_serializePendingLoop_of_not_mem I P2.Instructions T2 j hj
  | false =>
    simp only [hc, Bool.false_eq_true, if_false, Prod.mk.injEq] at h
    rw [← h.2]

theorem mem_serializePending (I : Instruction) (P2 P' : LatticeElement)
    (T2 T' : SerializationMap) (h : serializePending I P2 T2 = (P', T')) (j : Nat)
    (hj : j ∈ P'.Instructions) : j ∈ P2.Instructions ∨ j = I.id := by
  unfold serializePending at h
  cases hc : PtrMap.contains T2 I.id with
  | true =>
    simp only [hc, if_true, Prod.mk.injEq] at h
    rw [← h.1] at hj
    simp only [serializePendingLoop_fst] at hj
    cases hj
  | false =>
    simp only [hc, Bool.false_eq_true, if_false, Prod.mk.injEq] at h
    rw [← h.1] at hj
    exact (LatticeElement.mem_insert P2 I.id j).mp hj

/-- An instruction that is pending after the loop body is the instruction of the body, or was
pending before and is no operand of it. -/
theorem mem_transferInstruction (nd : DuplicationMap) (nbb : Nat) (I : Instruction)
    (P P' : LatticeElement) (T T' : SerializationMap)
    (h : transferInstruction nd nbb I P T = some (P', T')) (j : Nat)
    (hj : j ∈ P'.Instructions) :
    (j = I.id ∧ isSkipped I = false) ∨
      (j ∈ P.Instructions ∧ Value.instruction j ∉ I.operands) := by
  cases hs : isSkipped I with
  | true =>
    obtain ⟨h1, -⟩ := transferInstruction_skipped nd nbb I P P' T T' hs h
    exact Or.inr ((mem_removeOperands I.operands P P' h1 j).mp hj)
  | false =>
    obtain ⟨P1, P2, T2, h1, h2, h3⟩ := transferInstruction_phases nd nbb I P P' T T' hs h
    rcases mem_serializePending I P2 P' T2 T' h3 j hj with h4 | h4
    · rcases (mem_markUses nd nbb I P1 P2 _ T2 h2 j).2 h4 with h5 | h5
      · exact Or.inr ((mem_removeOperands I.operands P P1 h1 j).mp h5)
      · exact Or.inl ⟨h5, rfl⟩
    · exact Or.inl ⟨h4, rfl⟩

/-- The loop body changes the entry of no instruction other than the instruction of the body
and the instructions that are pending when the pending set is flushed. -/
theorem find?_transferInstruction (nd : DuplicationMap) (nbb : Nat) (I : Instruction)
    (P P' : LatticeElement) (T T' : SerializationMap)
    (h : transferInstruction nd nbb I P T = some (P', T')) (j : Nat) (hne : j ≠ I.id)
    (hj : j ∉ P.Instructions ∨ Value.instruction j ∈ I.operands) :
    PtrMap.find? T' j = PtrMap.find? T j := by
  cases hs : isSkipped I with
  | true =>
    rw [(transferInstruction_skipped nd nbb I P P' T T' hs h).2]
  | false =>
    obtain ⟨P1, P2, T2, h1, h2, h3⟩ := transferInstruction_phases nd nbb I P P' T T' hs h
    have hP1 : j ∉ P1.Instructions := by
      intro hmem
      have := (mem_removeOperands I.operands P P1 h1 j).mp hmem
      rcases hj with hj | hj
      · exact hj this.1
      · exact this.2 hj
    have hP2 : j ∉ P2.Instructions := by
      intro hmem
      rcases (mem_markUses nd nbb I P1 P2 _ T2 h2 j).2 hmem with h5 | h5
      · exact hP1 h5
      · exact hne h5
    rw [find?_serializePending_of_not_mem I P2 P' T2 T' h3 j hP2,
      find?_markUses_of_ne nd nbb I P1 P2 _ T2 h2 j hne, find?_markKind_of_ne I T j hne]

/-! ## Facts about `computeDuplicationMap` -/

theorem codeNodesOf_eq (G : RegionCFG) (bb : Nat) :
    codeNodesOf G bb = (G.nodes.filter (isCodeNodeOf bb)).length := rfl

/-- One iteration of the loop of `computeDuplicationMap`, by cases. -/
theorem computeDuplicationMapLoop_cons (N : BasicBlockNode) (rest : List BasicBlockNode)
    (R R' : DuplicationMap) (F F' : Option Function)
    (h : computeDuplicationMapLoop (N :: rest) R F = some (R', F')) :
    (N.isCode = false ∧ computeDuplicationMapLoop rest R F = some (R', F')) ∨
    (N.isCode = true ∧ ∃ BB, N.OriginalNode = some BB ∧
      (F = Option.none ∨ some BB.parent = F) ∧
      computeDuplicationMapLoop rest (PtrMap.modify 0 (fun n => n + 1) R BB.id)
        (some BB.parent) = some (R', F')) := by
  simp only [computeDuplicationMapLoop] at h
  cases hc : N.isCode with
  | false =>
    simp only [hc, Bool.false_eq_true, if_false] at h
    exact Or.inl ⟨rfl, h⟩
  | true =>
    simp only [hc, if_true] at h
    cases ho : N.OriginalNode with
    | none => simp [ho] at h
    | some BB =>
      simp only [ho] at h
      by_cases hF : F = Option.none ∨ some BB.parent = F
      · rw [if_pos hF] at h
        exact Or.inr ⟨rfl, BB, rfl, hF, h⟩
      · rw [if_neg hF] at h
        cases h

theorem computeDuplicationMapLoop_count (l : List BasicBlockNode)
    (R R' : DuplicationMap) (F F' : Option Function)
    (h : computeDuplicationMapLoop l R F = some (R', F')) (bb : Nat) :
    (R'.find? bb).getD 0 = (R.find? bb).getD 0 + (l.filter (isCodeNodeOf bb)).length := by
  induction l generalizing R F with
  | nil =>
    simp only [computeDuplicationMapLoop, Option.some.injEq, Prod.mk.injEq] at h
    rw [← h.1]
    simp
  | cons N rest ih =>
    rcases computeDuplicationMapLoop_cons N rest R R' F F' h with
      ⟨hc, h'⟩ | ⟨hc, BB, ho, -, h'⟩
    · rw [ih R F h']
      simp [List.filter_cons, isCodeNodeOf, hc]
    · rw [ih _ _ h', PtrMap.find?_modify]
      by_cases hb : bb = BB.id
      · have hb' : BB.id = bb := hb.symm
        simp only [hb, if_true, Option.getD_some, List.filter_cons, isCodeNodeOf, hc, ho,
          Bool.true_and, decide_True, List.length_cons]
        omega
      · have hb' : ¬ BB.id = bb := fun e => hb e.symm
        simp [hb, List.filter_cons, isCodeNodeOf, hc, ho, hb']

theorem computeDuplicationMapLoop_pos (l : List BasicBlockNode)
    (R R' : DuplicationMap) (F F' : Option Function)
    (h : computeDuplicationMapLoop l R F = some (R', F'))
    (hR : ∀ bb v, R.find? bb = some v → 1 ≤ v) :
    ∀ bb v, R'.find? bb = some v → 1 ≤ v := by
  induction l generalizing R F with
  | nil =>
    simp only [computeDuplicationMapLoop, Option.some.injEq, Prod.mk.injEq] at h
    rw [← h.1]
    exact hR
  | cons N rest ih =>
    rcases computeDuplicationMapLoop_cons N rest R R' F F' h with
      ⟨-, h'⟩ | ⟨-, BB, -, -, h'⟩
    · exact ih R F h' hR
    · refine ih _ _ h' ?_
      intro bb v hv
      rw [PtrMap.find?_modify] at hv
      by_cases hb : bb = BB.id
      · simp only [hb, if_true, Option.some.injEq] at hv
        omega
      · simp only [hb, if_false] at hv
        exact hR bb v hv

theorem computeDuplicationMapLoop_nodup (l : List BasicBlockNode)
    (R R' : DuplicationMap) (F F' : Option Function)
    (h : computeDuplicationMapLoop l R F = some (R', F'))
    (hR : R.keys.Nodup) : R'.keys.Nodup := by
  induction l generalizing R F with
  | nil =>
    simp only [computeDuplicationMapLoop, Option.some.injEq, Prod.mk.injEq] at h
    rw [← h.1]
    exact hR
  | cons N rest ih =>
    rcases computeDuplicationMapLoop_cons N rest R R' F F' h with
      ⟨-, h'⟩ | ⟨-, BB, -, -, h'⟩
    · exact ih R F h' hR
    · exact ih _ _ h' (PtrMap.nodup_keys_modify 0 _ R BB.id hR)

/-- The function pointer, once set, stays the same, and every Code node of the list has its
original block in that function. -/
theorem computeDuplicationMapLoop_function (l : List BasicBlockNode)
    (R R' : DuplicationMap) (F F' : Option Function)
    (h : computeDuplicationMapLoop l R F = some (R', F')) :
    (∀ f, F = some f → F' = some f) ∧
    (∀ N ∈ l, N.isCode = true → ∃ BB, N.OriginalNode = some BB ∧ F' = some BB.parent) := by
  induction l generalizing R F with
  | nil =>
    simp only [computeDuplicationMapLoop, Option.some.injEq, Prod.mk.injEq] at h
    refine ⟨fun f hf => ?_, fun N hN => ?_⟩
    · rw [← h.2]
      exact hf
    · cases hN
  | cons N rest ih =>
    rcases computeDuplicationMapLoop_cons N rest R R' F F' h with
      ⟨hc, h'⟩ | ⟨hc, BB, ho, hF, h'⟩
    · obtain ⟨ih1, ih2⟩ := ih R F h'
      refine ⟨ih1, fun M hM hMc => ?_⟩
      rcases List.mem_cons.mp hM with rfl | hM'
      · rw [hc] at hMc
        cases hMc
      · exact ih2 M hM' hMc
    · obtain ⟨ih1, ih2⟩ := ih _ _ h'
      refine ⟨fun f hf => ?_, fun M hM hMc => ?_⟩
      · rcases hF with hF | hF
        · rw [hF] at hf
          cases hf
        · rw [← hF] at hf
          cases hf
          exact ih1 _ rfl
      · rcases List.mem_cons.mp hM with rfl | hM'
        · exact ⟨BB, ho, ih1 _ rfl⟩
        · exact ih2 M hM' hMc

/-- The function `computeDuplicationMap`, unfolded on a run that returns. -/
theorem computeDuplicationMap_eq_some (G : RegionCFG) (M : DuplicationMap)
    (h : computeDuplicationMap G = some M) :
    ∃ F', computeDuplicationMapLoop G.nodes PtrMap.empty Option.none = some (M, F') ∧
      (match F' with
        | Option.none => M.size = 0
        | some F => M.size = F.blocks.length ∧ ∀ b ∈ F.blocks, M.contains b = true) := by
  unfold computeDuplicationMap at h
  split at h
  · cases h
  · rename_i R hl
    split at h
    · rename_i hsz
      cases h
      exact ⟨Option.none, hl, hsz⟩
    · cases h
  · rename_i R F hl
    split at h
    · rename_i hsz
      split at h
      · rename_i hall
        cases h
        exact ⟨some F, hl, hsz, fun b hb => (List.all_eq_true.mp hall) b hb⟩
      · cases h
    · cases h

/-! ## Claims about `transfer` on a whole block -/

/-- C1, as stated, fails: the branch that ends block 1 of the example has zero uses, and after
`transfer` on block 1 it has no `AlwaysSerialize` bit (it has no entry at all), because
branches are skipped before the switch on the number of uses. -/
theorem transfer_no_use_branch_not_alwaysSerialize :
    ∃ P' A', transfer exampleAnalysis exampleBB1 = some (P', A') ∧
      exampleBr ∈ exampleBB1.insts ∧ exampleBr.getNumUses = 0 ∧
      A'.ToSerialize.hasFlag exampleBr.id SerializationReason.AlwaysSerialize = false ∧
      PtrMap.contains A'.ToSerialize exampleBr.id = false :=
  ⟨_, _, rfl, by decide, rfl, rfl, rfl⟩

/-- C1, amended: for every instruction `I` of a block `BB` on which `transfer` returns, if `I`
is not a phi, a branch or a switch and has zero uses, then after `transfer` the bit set of `I`
in `ToSerialize` includes `AlwaysSerialize`. -/
theorem transfer_no_use_alwaysSerialize (A A' : Analysis) (BB : BasicBlock)
    (P' : LatticeElement) (I : Instruction)
    (h : transfer A BB = some (P', A')) (hI : I ∈ BB.insts) (hs : isSkipped I = false)
    (hu : I.getNumUses = 0) :
    A'.ToSerialize.hasFlag I.id SerializationReason.AlwaysSerialize = true := by
  obtain ⟨nbb, -, hl, -, -⟩ := transfer_eq_some A A' BB P' h
  obtain ⟨Pa, Ta, Pb, Tb, hstep, hmono⟩ :=
    transferLoop_step_of_mem A.NDuplicates nbb BB.insts _ P' A.ToSerialize A'.ToSerialize hl I hI
  apply hmono
  obtain ⟨b, hb⟩ := hasFlag_transferInstruction A.NDuplicates nbb I Pa Pb Ta Tb hs hstep I.id
    SerializationReason.AlwaysSerialize
  rw [hb]
  simp [usesFlag, hu]

/-- C1, amended, on the example: the store of block 1 has zero uses and is marked. -/
theorem transfer_no_use_alwaysSerialize_witness :
    ∃ P' A', transfer exampleAnalysis exampleBB1 = some (P', A') ∧
      exampleStore ∈ exampleBB1.insts ∧ isSkipped exampleStore = false ∧
      exampleStore.getNumUses = 0 ∧
      A'.ToSerialize.hasFlag exampleStore.id SerializationReason.AlwaysSerialize = true :=
  ⟨_, _, rfl, by decide, rfl, rfl,
    transfer_no_use_alwaysSerialize exampleAnalysis _ exampleBB1 _ exampleStore rfl
      (by decide) rfl rfl⟩

/-- C2, as stated, fails: the phi of block 2 of the example has exactly one use, in block 3,
whose duplication count 3 exceeds the count 2 of block 2, and after `transfer` on block 2 the
phi has no `HasDuplicatedUses` bit, because phi nodes are skipped. -/
theorem transfer_one_use_phi_not_hasDuplicatedUses :
    ∃ P' A', transfer exampleAnalysis exampleBB2 = some (P', A') ∧
      examplePhi ∈ exampleBB2.insts ∧ examplePhi.uses = [User.instruction 30 3] ∧
      exampleAnalysis.NDuplicates.find? exampleBB2.id = some 2 ∧
      exampleAnalysis.NDuplicates.find? 3 = some 3 ∧
      A'.ToSerialize.hasFlag examplePhi.id SerializationReason.HasDuplicatedUses = false :=
  ⟨_, _, rfl, by decide, rfl, rfl, rfl, rfl⟩

/-- C2, amended: for every instruction `I` of a block `BB` on which `transfer` returns, if `I`
is not a phi, a branch or a switch, has exactly one use, and the block of that user has a
duplication count strictly greater than the one of `BB`, then after `transfer` the bit set of
`I` in `ToSerialize` includes `HasDuplicatedUses`. -/
theorem transfer_one_use_hasDuplicatedUses (A A' : Analysis) (BB : BasicBlock)
    (P' : LatticeElement) (I : Instruction) (uid ubb nbb ud : Nat)
    (h : transfer A BB = some (P', A')) (hI : I ∈ BB.insts) (hs : isSkipped I = false)
    (hu : I.uses = [User.instruction uid ubb])
    (hb : A.NDuplicates.find? BB.id = some nbb) (hd : A.NDuplicates.find? ubb = some ud)
    (hlt : nbb < ud) :
    A'.ToSerialize.hasFlag I.id SerializationReason.HasDuplicatedUses = true := by
  obtain ⟨nbb', hb', hl, -, -⟩ := transfer_eq_some A A' BB P' h
  rw [hb] at hb'
  cases hb'
  obtain ⟨Pa, Ta, Pb, Tb, hstep, hmono⟩ :=
    transferLoop_step_of_mem A.NDuplicates nbb BB.insts _ P' A.ToSerialize A'.ToSerialize hl I hI
  apply hmono
  obtain ⟨b, hb⟩ := hasFlag_transferInstruction A.NDuplicates nbb I Pa Pb Ta Tb hs hstep I.id
    SerializationReason.HasDuplicatedUses
  rw [hb]
  simp [usesFlag, Instruction.getNumUses, hu, hd, hlt]

/-- C2, amended, on the example: the load of block 1 has its one use in block 2, which is
duplicated more than block 1, and is marked. -/
theorem transfer_one_use_hasDuplicatedUses_witness :
    ∃ P' A', transfer exampleAnalysis exampleBB1 = some (P', A') ∧
      exampleLoad ∈ exampleBB1.insts ∧ isSkipped exampleLoad = false ∧
      exampleLoad.uses = [User.instruction 20 2] ∧
      exampleAnalysis.NDuplicates.find? exampleBB1.id = some 1 ∧
      exampleAnalysis.NDuplicates.find? 2 = some 2 ∧ 1 < 2 ∧
      A'.ToSerialize.hasFlag exampleLoad.id SerializationReason.HasDuplicatedUses = true :=
  ⟨_, _, rfl, by decide, rfl, rfl, rfl, rfl, by decide,
    transfer_one_use_hasDuplicatedUses exampleAnalysis _ exampleBB1 _ exampleLoad 20 2 1 2 rfl
      (by decide) rfl rfl rfl rfl (by decide)⟩

/-! ## Claims about `computeDuplicationMap` -/

/-- C3: whenever `computeDuplicationMap` returns, the value of the returned map for a block is
the number of Code nodes of the graph whose original node is that block, nodes of another kind
count for nothing, and a block that is the original node of no Code node has no entry. -/
theorem computeDuplicationMap_find? (G : RegionCFG) (M : DuplicationMap)
    (h : computeDuplicationMap G = some M) (bb : Nat) :
    M.find? bb = if codeNodesOf G bb = 0 then Option.none else some (codeNodesOf G bb) := by
  obtain ⟨F', hl, -⟩ := computeDuplicationMap_eq_some G M h
  have hcount := computeDuplicationMapLoop_count G.nodes PtrMap.empty M Option.none F' hl bb
  have hpos := computeDuplicationMapLoop_pos G.nodes PtrMap.empty M Option.none F' hl
    (fun b v hv => by rw [PtrMap.find?_empty] at hv; cases hv)
  rw [PtrMap.find?_empty] at hcount
  simp only [Option.getD_none, Nat.zero_add] at hcount
  rw [codeNodesOf_eq, ← hcount]
  cases hf : M.find? bb with
  | none => simp
  | some v =>
    have hv := hpos bb v hf
    have hv' : v ≠ 0 := by omega
    simp [hv']

/-- C3 on the example: the graph yields the counts 1, 2 and 3, block 2 has two Code nodes and
block 4 has none. -/
theorem computeDuplicationMap_find?_witness :
    computeDuplicationMap exampleRegionCFG = some exampleNDuplicates ∧
      codeNodesOf exampleRegionCFG 2 = 2 ∧ codeNodesOf exampleRegionCFG 4 = 0 ∧
      exampleNDuplicates.find? 2 = some 2 ∧ exampleNDuplicates.find? 4 = Option.none :=
  ⟨rfl, rfl, rfl,
    computeDuplicationMap_find? exampleRegionCFG exampleNDuplicates rfl 2,
    computeDuplicationMap_find? exampleRegionCFG exampleNDuplicates rfl 4⟩

/-- C4: whenever `computeDuplicationMap` returns for a graph with a Code node, every Code node
of the graph wraps a block of one function, the returned map has an entry exactly for the
blocks of that function, and every value in it is at least 1. The block list of a function
holds each block once. -/
theorem computeDuplicationMap_entries (G : RegionCFG) (M : DuplicationMap)
    (N : BasicBlockNode) (BB : BasicBlock)
    (h : computeDuplicationMap G = some M) (hN : N ∈ G.nodes) (hc : N.isCode = true)
    (ho : N.OriginalNode = some BB) (hnd : BB.parent.blocks.Nodup) :
    (∀ N' ∈ G.nodes, N'.isCode = true →
      ∃ BB', N'.OriginalNode = some BB' ∧ BB'.parent = BB.parent) ∧
    (∀ b, M.contains b = true ↔ b ∈ BB.parent.blocks) ∧
    (∀ b v, M.find? b = some v → 1 ≤ v) := by
  obtain ⟨F', hl, hF'⟩ := computeDuplicationMap_eq_some G M h
  obtain ⟨-, hfun⟩ := computeDuplicationMapLoop_function G.nodes PtrMap.empty M Option.none F' hl
  obtain ⟨BB0, ho0, hF0⟩ := hfun N hN hc
  rw [ho] at ho0
  cases ho0
  subst hF0
  simp only at hF'
  obtain ⟨hsize, hall⟩ := hF'
  have hkeys : M.keys.Nodup :=
    computeDuplicationMapLoop_nodup G.nodes PtrMap.empty M Option.none _ hl List.nodup_nil
  have hsub : BB.parent.blocks ⊆ M.keys := fun b hb =>
    (PtrMap.contains_iff_mem_keys M b).mp (hall b hb)
  have hlen : M.keys.length ≤ BB.parent.blocks.length := by
    simp only [PtrMap.keys, List.length_map]
    exact le_of_eq hsize
  have hperm : List.Perm BB.parent.blocks M.keys :=
    (List.subperm_of_subset hnd hsub).perm_of_length_le hlen
  refine ⟨fun N' hN' hc' => ?_, fun b => ?_, ?_⟩
  · obtain ⟨BB', ho', hF''⟩ := hfun N' hN' hc'
    exact ⟨BB', ho', (Option.some.inj hF'').symm⟩
  · rw [PtrMap.contains_iff_mem_keys]
    exact (hperm.mem_iff).symm
  · exact computeDuplicationMapLoop_pos G.nodes PtrMap.empty M Option.none _ hl
      (fun b v hv => by rw [PtrMap.find?_empty] at hv; cases hv)

/-- C4 on the example: the map has an entry for blocks 1, 2 and 3 of the function and for no
other block. -/
theorem computeDuplicationMap_entries_witness :
    computeDuplicationMap exampleRegionCFG = some exampleNDuplicates ∧
      exampleBB1.parent.blocks = [1, 2, 3] ∧
      (∀ b, exampleNDuplicates.contains b = true ↔ b ∈ exampleBB1.parent.blocks) ∧
      (∀ b v, exampleNDuplicates.find? b = some v → 1 ≤ v) :=
  ⟨rfl, rfl,
    (computeDuplicationMap_entries exampleRegionCFG exampleNDuplicates
      ⟨0, BasicBlockNodeType.Code, some exampleBB1⟩ exampleBB1 rfl (by decide) rfl rfl
      (by decide)).2⟩

/-! ## Claims about the loop body of `transfer` -/

/-- C5: when the loop body on an instruction `I` that is not skipped ends with `I` having an
entry in `ToSerialize`, the pending set is empty after the body, and every instruction that
was pending when line 133 was reached (in particular every instruction that was pending
before the body and is no operand of `I`) has the bit `HasInterferingSideEffects`; this does
not depend on the class of `I`, `haveInterferingSideEffects` being constantly true. -/
theorem transferInstruction_flushes_pending (nd : DuplicationMap) (nbb : Nat)
    (I : Instruction) (P P' : LatticeElement) (T T' : SerializationMap)
    (hs : isSkipped I = false)
    (h : transferInstruction nd nbb I P T = some (P', T'))
    (hc : PtrMap.contains T' I.id = true) :
    P'.Instructions = [] ∧
    (∀ P1 P2 T2, removeOperands I.operands P = some P1 →
      markUses nd nbb I P1 (markKind I T) = some (P2, T2) →
      ∀ j ∈ P2.Instructions,
        T'.hasFlag j SerializationReason.HasInterferingSideEffects = true) ∧
    (∀ j ∈ P.Instructions, Value.instruction j ∉ I.operands →
      T'.hasFlag j SerializationReason.HasInterferingSideEffects = true) ∧
    (∀ J j, haveInterferingSideEffects J j = true) := by
  obtain ⟨P1, P2, T2, h1, h2, h3⟩ := transferInstruction_phases nd nbb I P P' T T' hs h
  have hc2 : PtrMap.contains T2 I.id = true := by
    cases hc2 : PtrMap.contains T2 I.id with
    | true => rfl
    | false =>
      have h3' := h3
      unfold serializePending at h3'
      simp only [hc2, Bool.false_eq_true, if_false, Prod.mk.injEq] at h3'
      rw [← h3'.2, hc2] at hc
      cases hc
  have hflag : ∀ j ∈ P2.Instructions,
      T'.hasFlag j SerializationReason.HasInterferingSideEffects = true := by
    intro j hj
    rw [hasFlag_serializePending I P2 P' T2 T' h3, hc2]
    simp [hj]
  refine ⟨?_, ?_, ?_, fun _ _ => rfl⟩
  · have h3' := h3
    unfold serializePending at h3'
    simp only [hc2, if_true, Prod.mk.injEq] at h3'
    rw [← h3'.1]
    exact serializePendingLoop_fst I P2.Instructions T2
  · intro Q1 Q2 U2 g1 g2 j hj
    rw [h1] at g1
    cases g1
    rw [h2] at g2
    cases g2
    exact hflag j hj
  · intro j hj hop
    apply hflag
    apply (mem_markUses nd nbb I P1 P2 _ T2 h2 j).1
    exact (mem_removeOperands I.operands P P1 h1 j).mpr ⟨hj, hop⟩

/-- C5 on the example: the call of block 2, reached with the instructions 11 and 30 pending,
is classified, so both get the bit and the pending set is empty. -/
theorem transferInstruction_flushes_pending_witness :
    ∃ P' T', transferInstruction exampleNDuplicates 2 exampleCall ⟨[11, 30]⟩ PtrMap.empty =
        some (P', T') ∧
      isSkipped exampleCall = false ∧ PtrMap.contains T' exampleCall.id = true ∧
      P'.Instructions = [] ∧
      T'.hasFlag 11 SerializationReason.HasInterferingSideEffects = true ∧
      T'.hasFlag 30 SerializationReason.HasInterferingSideEffects = true :=
  ⟨_, _, rfl, rfl, rfl,
    (transferInstruction_flushes_pending exampleNDuplicates 2 exampleCall ⟨[11, 30]⟩ _
      PtrMap.empty _ rfl rfl rfl).1,
    (transferInstruction_flushes_pending exampleNDuplicates 2 exampleCall ⟨[11, 30]⟩ _
      PtrMap.empty _ rfl rfl rfl).2.2.1 11 (by decide) (by decide),
    (transferInstruction_flushes_pending exampleNDuplicates 2 exampleCall ⟨[11, 30]⟩ _
      PtrMap.empty _ rfl rfl rfl).2.2.1 30 (by decide) (by decide)⟩

/-- C6, as stated, fails: the return of block 3 of the example is a control-transfer
instruction; the loop body on it, in the state that the addition before it leaves, sets
`AlwaysSerialize` on the return, because only phi nodes, branches and switches are skipped. -/
theorem transferInstruction_ret_is_classified :
    ∃ P' T',
      transferInstruction exampleNDuplicates 3 exampleAdd ⟨[]⟩ PtrMap.empty =
        some (⟨[30]⟩, PtrMap.empty) ∧
      transferInstruction exampleNDuplicates 3 exampleRet ⟨[30]⟩ PtrMap.empty =
        some (P', T') ∧
      exampleRet.opcode = Opcode.Ret ∧
      SerializationMap.hasFlag PtrMap.empty exampleRet.id
        SerializationReason.AlwaysSerialize = false ∧
      T'.hasFlag exampleRet.id SerializationReason.AlwaysSerialize = true :=
  ⟨_, _, rfl, rfl, rfl, rfl, rfl⟩

/-- C6, amended: for every instruction `I` that is a phi node, a branch or a switch, the loop
body on `I` leaves `ToSerialize` as it was, so it sets no flag on `I` or on any other
instruction, and the pending set after the body is the pending set before it without the
operands of `I` that are instructions; `I` is not added to it. -/
theorem transferInstruction_of_skipped (nd : DuplicationMap) (nbb : Nat)
    (I : Instruction) (P P' : LatticeElement) (T T' : SerializationMap)
    (hs : I.opcode = Opcode.PHI ∨ I.opcode = Opcode.Br ∨ I.opcode = Opcode.Switch)
    (h : transferInstruction nd nbb I P T = some (P', T')) :
    T' = T ∧
    (∀ j, j ∈ P'.Instructions ↔ j ∈ P.Instructions ∧ Value.instruction j ∉ I.operands) ∧
    (I.id ∉ P.Instructions → I.id ∉ P'.Instructions) := by
  have hs' : isSkipped I = true := by
    unfold isSkipped
    rcases hs with hs | hs | hs <;> simp [hs]
  obtain ⟨h1, h2⟩ := transferInstruction_skipped nd nbb I P P' T T' hs' h
  have hmem := mem_removeOperands I.operands P P' h1
  exact ⟨h2, hmem, fun hn hp => hn ((hmem I.id).mp hp).1⟩

/-- C6, amended, on the example: the phi of block 2, reached with the instructions 11 and 30
pending, removes its operand 11 from pending and does nothing else. -/
theorem transferInstruction_of_skipped_witness :
    ∃ P' T', transferInstruction exampleNDuplicates 2 examplePhi ⟨[11, 30]⟩ PtrMap.empty =
        some (P', T') ∧
      examplePhi.opcode = Opcode.PHI ∧ T' = PtrMap.empty ∧ P' = ⟨[30]⟩ ∧
      (∀ j, j ∈ P'.Instructions ↔
        j ∈ [11, 30] ∧ Value.instruction j ∉ examplePhi.operands) :=
  ⟨_, _, rfl, rfl, rfl, rfl,
    (transferInstruction_of_skipped exampleNDuplicates 2 examplePhi ⟨[11, 30]⟩ _
      PtrMap.empty _ (Or.inl rfl) rfl).2.1⟩

/-- C7: for every instruction `I` that is not skipped, the bit `HasSideEffects` of `I` after
the loop body is set exactly when `I` is a store or a call, or the bit was set before the
body: the body sets it if and only if `I` is a store or a call, and no call is pure. -/
theorem transferInstruction_hasSideEffects (nd : DuplicationMap) (nbb : Nat)
    (I : Instruction) (P P' : LatticeElement) (T T' : SerializationMap)
    (hs : isSkipped I = false)
    (h : transferInstruction nd nbb I P T = some (P', T')) :
    T'.hasFlag I.id SerializationReason.HasSideEffects =
      ((decide (I.opcode = Opcode.Store) || decide (I.opcode = Opcode.Call)) ||
        T.hasFlag I.id SerializationReason.HasSideEffects) ∧
    isPure I = false := by
  obtain ⟨b, hb⟩ := hasFlag_transferInstruction nd nbb I P P' T T' hs h I.id
    SerializationReason.HasSideEffects
  refine ⟨?_, rfl⟩
  rw [hb]
  simp [usesFlag, kindFlag]

/-- C7 on the example: the call of block 2 gets the bit, the addition of block 3 does not. -/
theorem transferInstruction_hasSideEffects_witness :
    ∃ P' T' P'' T'',
      transferInstruction exampleNDuplicates 2 exampleCall ⟨[]⟩ PtrMap.empty = some (P', T') ∧
      transferInstruction exampleNDuplicates 3 exampleAdd ⟨[]⟩ PtrMap.empty = some (P'', T'') ∧
      isSkipped exampleCall = false ∧ isSkipped exampleAdd = false ∧
      T'.hasFlag exampleCall.id SerializationReason.HasSideEffects = true ∧
      T''.hasFlag exampleAdd.id SerializationReason.HasSideEffects = false :=
  ⟨_, _, _, _, rfl, rfl, rfl, rfl,
    (transferInstruction_hasSideEffects exampleNDuplicates 2 exampleCall ⟨[]⟩ _
      PtrMap.empty _ rfl rfl).1,
    (transferInstruction_hasSideEffects exampleNDuplicates 3 exampleAdd ⟨[]⟩ _
      PtrMap.empty _ rfl rfl).1⟩

/-- C8: for every instruction `I`, skipped or not, after the loop body on `I` no operand of
`I` that is an instruction other than `I` is pending, and the entry of such an operand in
`ToSerialize` is what it was before the body: removing it marks nothing. -/
theorem transferInstruction_operand_not_pending (nd : DuplicationMap) (nbb : Nat)
    (I : Instruction) (P P' : LatticeElement) (T T' : SerializationMap)
    (h : transferInstruction nd nbb I P T = some (P', T')) (j : Nat)
    (hj : Value.instruction j ∈ I.operands) (hne : j ≠ I.id) :
    j ∉ P'.Instructions ∧ PtrMap.find? T' j = PtrMap.find? T j := by
  refine ⟨fun hmem => ?_, find?_transferInstruction nd nbb I P P' T T' h j hne (Or.inr hj)⟩
  rcases mem_transferInstruction nd nbb I P P' T T' h j hmem with h1 | h1
  · exact hne h1.1
  · exact h1.2 hj

/-- C8 on the example: the store of block 1, reached with its operand 10 and the instruction
11 pending, leaves the operand out of the pending set and without an entry. -/
theorem transferInstruction_operand_not_pending_witness :
    ∃ P' T', transferInstruction exampleNDuplicates 1 exampleStore ⟨[10, 11]⟩ PtrMap.empty =
        some (P', T') ∧
      Value.instruction 10 ∈ exampleStore.operands ∧ 10 ≠ exampleStore.id ∧
      10 ∉ P'.Instructions ∧ PtrMap.find? T' 10 = Option.none :=
  ⟨_, _, rfl, by decide, by decide,
    transferInstruction_operand_not_pending exampleNDuplicates 1 exampleStore ⟨[10, 11]⟩ _
      PtrMap.empty _ rfl 10 (by decide) (by decide)⟩

theorem eq_singleton_of_length_of_head? {α : Type} (l : List α) (u : α)
    (hl : l.length = 1) (hh : l.head? = some u) : l = [u] := by
  match l, hl, hh with
  | [a], _, hh =>
    simp only [List.head?_cons, Option.some.injEq] at hh
    rw [hh]

theorem insert_of_mem (P : LatticeElement) (i : Nat) (h : i ∈ P.Instructions) :
    P.insert i = P := by
  unfold LatticeElement.insert
  rw [if_pos h]

/-- An instruction without entry after the flagging steps is not an insertvalue, alloca,
store or call, had no entry before, and has exactly one use, in a block whose duplication
count does not exceed the one of its own block. -/
theorem single_use_of_no_entry_after_flagging (nd : DuplicationMap) (nbb : Nat)
    (I : Instruction) (P1 P2 : LatticeElement) (T T2 : SerializationMap)
    (h2 : markUses nd nbb I P1 (markKind I T) = some (P2, T2))
    (hc : PtrMap.contains T2 I.id = false) :
    hasKindFlag I = false ∧ PtrMap.contains T I.id = false ∧
      ∃ uid ubb ud, I.uses = [User.instruction uid ubb] ∧ nd.find? ubb = some ud ∧
        ud ≤ nbb := by
  have hself : ∀ (U : SerializationMap) (R : SerializationReason),
      PtrMap.contains (U.setFlag I.id R) I.id = true := by
    intro U R
    rw [SerializationMap.contains_setFlag]
    simp
  rcases markUses_cases nd nbb I P1 P2 _ T2 h2 with
    ⟨-, -, rfl⟩ | ⟨hn, uid, ubb, ud, hu, hd, ⟨-, -, rfl⟩ | ⟨hlt, rfl, rfl⟩⟩ | ⟨-, -, rfl⟩
  · rw [hself] at hc
    cases hc
  · rw [hself] at hc
    cases hc
  · rw [contains_markKind] at hc
    simp only [decide_True, Bool.true_and, Bool.or_eq_false_iff] at hc
    exact ⟨hc.1, hc.2, uid, ubb, ud, eq_singleton_of_length_of_head? I.uses _ hn hu, hd,
      by omega⟩
  · rw [hself] at hc
    cases hc

/-- The loop body on an instruction that is not skipped, is not an insertvalue, alloca, store
or call, has no entry, and has exactly one use, in a block whose duplication count does not
exceed the one of its own block: the flagging steps insert the instruction into pending and
leave `ToSerialize` as it was, and so does the whole body. -/
theorem transferInstruction_of_single_use (nd : DuplicationMap) (nbb : Nat)
    (I : Instruction) (P P1 : LatticeElement) (T : SerializationMap) (uid ubb ud : Nat)
    (hs : isSkipped I = false) (h1 : removeOperands I.operands P = some P1)
    (hk : hasKindFlag I = false) (hT : PtrMap.contains T I.id = false)
    (hu : I.uses = [User.instruction uid ubb]) (hd : nd.find? ubb = some ud)
    (hle : ud ≤ nbb) :
    markUses nd nbb I P1 (markKind I T) = some (P1.insert I.id, T) ∧
    transferInstruction nd nbb I P T = some (P1.insert I.id, T) := by
  have hlt : ¬ nbb < ud := by omega
  have hm : markUses nd nbb I P1 (markKind I T) = some (P1.insert I.id, T) := by
    rw [markKind_of_hasKindFlag_eq_false I T hk]
    simp only [markUses, Instruction.getNumUses, hu, List.length_singleton, List.head?_cons,
      hd, hlt, if_false]
  refine ⟨hm, ?_⟩
  have hmem : I.id ∈ (P1.insert I.id).Instructions :=
    (LatticeElement.mem_insert P1 I.id I.id).mpr (Or.inr rfl)
  simp only [transferInstruction, h1, hs, Bool.false_eq_true, if_false, hm, serializePending,
    hT, insert_of_mem _ _ hmem]

/-- C9: for every instruction `I` that is not skipped (its operands removed, `P1` being the
pending set then): if `I` is not an insertvalue, alloca, store or call, had no entry before
the body, and has exactly one use, in a block whose duplication count does not exceed the one
of the block of `I`, then `I` has no entry after the flagging steps, the body returns, `I` is
pending after it, `ToSerialize` is what it was, so `I` has no flag, and the pending set
afterwards is `I` together with the instructions that were pending before and are no operand
of `I`; and an instruction `I` that has no entry after the flagging steps meets these
conditions, so the same holds for it. -/
theorem transferInstruction_stays_pending (nd : DuplicationMap) (nbb : Nat)
    (I : Instruction) (P P1 : LatticeElement) (T : SerializationMap)
    (hs : isSkipped I = false) (h1 : removeOperands I.operands P = some P1) :
    (∀ uid ubb ud,
      I.opcode ≠ Opcode.InsertValue ∧ I.opcode ≠ Opcode.Alloca ∧ I.opcode ≠ Opcode.Store ∧
        I.opcode ≠ Opcode.Call →
      PtrMap.contains T I.id = false →
      I.uses = [User.instruction uid ubb] → nd.find? ubb = some ud → ud ≤ nbb →
      (∃ P2 T2, markUses nd nbb I P1 (markKind I T) = some (P2, T2) ∧
        PtrMap.contains T2 I.id = false) ∧
      ∃ P', transferInstruction nd nbb I P T = some (P', T) ∧
        I.id ∈ P'.Instructions ∧ (∀ Q, T.hasFlag I.id Q = false) ∧
        (∀ j, j ∈ P'.Instructions ↔
          j = I.id ∨ (j ∈ P.Instructions ∧ Value.instruction j ∉ I.operands))) ∧
    (∀ P2 T2, markUses nd nbb I P1 (markKind I T) = some (P2, T2) →
      PtrMap.contains T2 I.id = false →
      (I.opcode ≠ Opcode.InsertValue ∧ I.opcode ≠ Opcode.Alloca ∧ I.opcode ≠ Opcode.Store ∧
        I.opcode ≠ Opcode.Call) ∧
      PtrMap.contains T I.id = false ∧
      (∃ uid ubb ud, I.uses = [User.instruction uid ubb] ∧ nd.find? ubb = some ud ∧
        ud ≤ nbb) ∧
      ∃ P', transferInstruction nd nbb I P T = some (P', T) ∧
        I.id ∈ P'.Instructions ∧ (∀ Q, T.hasFlag I.id Q = false) ∧
        (∀ j, j ∈ P'.Instructions ↔
          j = I.id ∨ (j ∈ P.Instructions ∧ Value.instruction j ∉ I.operands))) := by
  have hkind : hasKindFlag I = false ↔
      (I.opcode ≠ Opcode.InsertValue ∧ I.opcode ≠ Opcode.Alloca ∧ I.opcode ≠ Opcode.Store ∧
        I.opcode ≠ Opcode.Call) := by
    unfold hasKindFlag
    cases I.opcode <;> simp
  have main : ∀ uid ubb ud, hasKindFlag I = false → PtrMap.contains T I.id = false →
      I.uses = [User.instruction uid ubb] → nd.find? ubb = some ud → ud ≤ nbb →
      ∃ P', transferInstruction nd nbb I P T = some (P', T) ∧
        I.id ∈ P'.Instructions ∧ (∀ Q, T.hasFlag I.id Q = false) ∧
        (∀ j, j ∈ P'.Instructions ↔
          j = I.id ∨ (j ∈ P.Instructions ∧ Value.instruction j ∉ I.operands)) := by
    intro uid ubb ud hk hT hu hd hle
    obtain ⟨-, ht⟩ :=
      transferInstruction_of_single_use nd nbb I P P1 T uid ubb ud hs h1 hk hT hu hd hle
    refine ⟨P1.insert I.id, ht, (LatticeElement.mem_insert P1 I.id I.id).mpr (Or.inr rfl),
      fun Q => SerializationMap.hasFlag_eq_false_of_contains_eq_false T I.id Q hT, fun j => ?_⟩
    rw [LatticeElement.mem_insert, mem_removeOperands I.operands P P1 h1 j]
    exact Or.comm
  refine ⟨fun uid ubb ud hop hT hu hd hle => ⟨?_, ?_⟩, fun P2 T2 h2 hc => ?_⟩
  · exact ⟨P1.insert I.id, T,
      (transferInstruction_of_single_use nd nbb I P P1 T uid ubb ud hs h1 (hkind.mpr hop) hT
        hu hd hle).1, hT⟩
  · exact main uid ubb ud (hkind.mpr hop) hT hu hd hle
  · obtain ⟨hk, hT, uid, ubb, ud, hu, hd, hle⟩ :=
      single_use_of_no_entry_after_flagging nd nbb I P1 P2 T T2 h2 hc
    exact ⟨hkind.mp hk, hT, ⟨uid, ubb, ud, hu, hd, hle⟩, main uid ubb ud hk hT hu hd hle⟩

/-- C9 on the example: the addition of block 3, reached with the instructions 11 and 20
pending, has its one use in its own block (duplication count 3, not above 3); it becomes
pending after its operand 20 is removed, and nothing is marked. -/
theorem transferInstruction_stays_pending_witness :
    isSkipped exampleAdd = false ∧
    removeOperands exampleAdd.operands ⟨[11, 20]⟩ = some ⟨[11]⟩ ∧
    exampleAdd.uses = [User.instruction 31 3] ∧ exampleNDuplicates.find? 3 = some 3 ∧
    transferInstruction exampleNDuplicates 3 exampleAdd ⟨[11, 20]⟩ PtrMap.empty =
      some (⟨[11, 30]⟩, PtrMap.empty) ∧
    ((∃ P2 T2, markUses exampleNDuplicates 3 exampleAdd ⟨[11]⟩
        (markKind exampleAdd PtrMap.empty) = some (P2, T2) ∧
        PtrMap.contains T2 exampleAdd.id = false) ∧
      ∃ P', transferInstruction exampleNDuplicates 3 exampleAdd ⟨[11, 20]⟩ PtrMap.empty =
          some (P', PtrMap.empty) ∧
        exampleAdd.id ∈ P'.Instructions ∧
        (∀ Q, SerializationMap.hasFlag PtrMap.empty exampleAdd.id Q = false) ∧
        (∀ j, j ∈ P'.Instructions ↔ j = exampleAdd.id ∨
          (j ∈ (⟨[11, 20]⟩ : LatticeElement).Instructions ∧
            Value.instruction j ∉ exampleAdd.operands))) :=
  ⟨rfl, rfl, rfl, rfl, rfl,
    (transferInstruction_stays_pending exampleNDuplicates 3 exampleAdd ⟨[11, 20]⟩ ⟨[11]⟩
      PtrMap.empty rfl rfl).1 31 3 3 (by decide) rfl rfl rfl (by decide)⟩

/-- C10: for every instruction `I` that is not skipped, the bit `HasManyUses` of `I` after
the loop body is set exactly when `I` has more than one use, or the bit was set before the
body: the body sets it if and only if `I` has more than one use. -/
theorem transferInstruction_hasManyUses (nd : DuplicationMap) (nbb : Nat)
    (I : Instruction) (P P' : LatticeElement) (T T' : SerializationMap)
    (hs : isSkipped I = false)
    (h : transferInstruction nd nbb I P T = some (P', T')) :
    T'.hasFlag I.id SerializationReason.HasManyUses =
      (decide (1 < I.getNumUses) || T.hasFlag I.id SerializationReason.HasManyUses) := by
  obtain ⟨b, hb⟩ := hasFlag_transferInstruction nd nbb I P P' T T' hs h I.id
    SerializationReason.HasManyUses
  rw [hb]
  simp [usesFlag, kindFlag, Nat.succ_le_iff]

/-- C10 on the example: the alloca of block 1 has two uses and gets the bit, the load of
block 1 has one use and does not. -/
theorem transferInstruction_hasManyUses_witness :
    ∃ P' T' P'' T'',
      transferInstruction exampleNDuplicates 1 exampleAlloca ⟨[]⟩ PtrMap.empty =
        some (P', T') ∧
      transferInstruction exampleNDuplicates 1 exampleLoad ⟨[]⟩ PtrMap.empty =
        some (P'', T'') ∧
      isSkipped exampleAlloca = false ∧ isSkipped exampleLoad = false ∧
      exampleAlloca.getNumUses = 2 ∧ exampleLoad.getNumUses = 1 ∧
      T'.hasFlag exampleAlloca.id SerializationReason.HasManyUses = true ∧
      T''.hasFlag exampleLoad.id SerializationReason.HasManyUses = false :=
  ⟨_, _, _, _, rfl, rfl, rfl, rfl, rfl, rfl,
    transferInstruction_hasManyUses exampleNDuplicates 1 exampleAlloca ⟨[]⟩ _
      PtrMap.empty _ rfl rfl,
    transferInstruction_hasManyUses exampleNDuplicates 1 exampleLoad ⟨[]⟩ _
      PtrMap.empty _ rfl rfl⟩

theorem opcode_of_isSkipped (I : Instruction) (hs : isSkipped I = true) :
    I.opcode = Opcode.PHI ∨ I.opcode = Opcode.Br ∨ I.opcode = Opcode.Switch := by
  unfold isSkipped at hs
  simp only [Bool.or_eq_true, decide_eq_true_eq] at hs
  exact hs

/-- C11: for every instruction `I`, skipped or not, the bit `NeedsManyStatements` of `I`
after the loop body is set exactly when `I` is an insertvalue, or the bit was set before the
body: the body sets it if and only if `I` is an insertvalue. -/
theorem transferInstruction_needsManyStatements (nd : DuplicationMap) (nbb : Nat)
    (I : Instruction) (P P' : LatticeElement) (T T' : SerializationMap)
    (h : transferInstruction nd nbb I P T = some (P', T')) :
    T'.hasFlag I.id SerializationReason.NeedsManyStatements =
      (decide (I.opcode = Opcode.InsertValue) ||
        T.hasFlag I.id SerializationReason.NeedsManyStatements) := by
  cases hs : isSkipped I with
  | true =>
    rw [(transferInstruction_skipped nd nbb I P P' T T' hs h).2]
    rcases opcode_of_isSkipped I hs with ho | ho | ho <;> simp [ho]
  | false =>
    obtain ⟨b, hb⟩ := hasFlag_transferInstruction nd nbb I P P' T T' hs h I.id
      SerializationReason.NeedsManyStatements
    rw [hb]
    simp [usesFlag, kindFlag]

/-- C11 on the example: an insertvalue gets the bit, the alloca of block 1 does not. -/
theorem transferInstruction_needsManyStatements_witness :
    ∃ P' T' P'' T'',
      transferInstruction exampleNDuplicates 3 exampleInsertValue ⟨[]⟩ PtrMap.empty =
        some (P', T') ∧
      transferInstruction exampleNDuplicates 1 exampleAlloca ⟨[]⟩ PtrMap.empty =
        some (P'', T'') ∧
      T'.hasFlag exampleInsertValue.id SerializationReason.NeedsManyStatements = true ∧
      T''.hasFlag exampleAlloca.id SerializationReason.NeedsManyStatements = false :=
  ⟨_, _, _, _, rfl, rfl,
    transferInstruction_needsManyStatements exampleNDuplicates 3 exampleInsertValue ⟨[]⟩ _
      PtrMap.empty _ rfl,
    transferInstruction_needsManyStatements exampleNDuplicates 1 exampleAlloca ⟨[]⟩ _
      PtrMap.empty _ rfl⟩

/-- C12: for every instruction `I`, skipped or not, the bit `NeedsLocalVarToComputeExpr` of
`I` after the loop body is set exactly when `I` is an insertvalue or an alloca, or the bit was
set before the body: the body sets it if and only if `I` is an insertvalue or an alloca. -/
theorem transferInstruction_needsLocalVar (nd : DuplicationMap) (nbb : Nat)
    (I : Instruction) (P P' : LatticeElement) (T T' : SerializationMap)
    (h : transferInstruction nd nbb I P T = some (P', T')) :
    T'.hasFlag I.id SerializationReason.NeedsLocalVarToComputeExpr =
      ((decide (I.opcode = Opcode.InsertValue) || decide (I.opcode = Opcode.Alloca)) ||
        T.hasFlag I.id SerializationReason.NeedsLocalVarToComputeExpr) := by
  cases hs : isSkipped I with
  | true =>
    rw [(transferInstruction_skipped nd nbb I P P' T T' hs h).2]
    rcases opcode_of_isSkipped I hs with ho | ho | ho <;> simp [ho]
  | false =>
    obtain ⟨b, hb⟩ := hasFlag_transferInstruction nd nbb I P P' T T' hs h I.id
      SerializationReason.NeedsLocalVarToComputeExpr
    rw [hb]
    simp [usesFlag, kindFlag]

/-- C12 on the example: an insertvalue and the alloca of block 1 get the bit, the store of
block 1 does not. -/
theorem transferInstruction_needsLocalVar_witness :
    ∃ P1 T1 P2 T2 P3 T3,
      transferInstruction exampleNDuplicates 3 exampleInsertValue ⟨[]⟩ PtrMap.empty =
        some (P1, T1) ∧
      transferInstruction exampleNDuplicates 1 exampleAlloca ⟨[]⟩ PtrMap.empty =
        some (P2, T2) ∧
      transferInstruction exampleNDuplicates 1 exampleStore ⟨[]⟩ PtrMap.empty =
        some (P3, T3) ∧
      T1.hasFlag exampleInsertValue.id SerializationReason.NeedsLocalVarToComputeExpr = true ∧
      T2.hasFlag exampleAlloca.id SerializationReason.NeedsLocalVarToComputeExpr = true ∧
      T3.hasFlag exampleStore.id SerializationReason.NeedsLocalVarToComputeExpr = false :=
  ⟨_, _, _, _, _, _, rfl, rfl, rfl,
    transferInstruction_needsLocalVar exampleNDuplicates 3 exampleInsertValue ⟨[]⟩ _
      PtrMap.empty _ rfl,
    transferInstruction_needsLocalVar exampleNDuplicates 1 exampleAlloca ⟨[]⟩ _
      PtrMap.empty _ rfl,
    transferInstruction_needsLocalVar exampleNDuplicates 1 exampleStore ⟨[]⟩ _
      PtrMap.empty _ rfl⟩

/-! ## Claims about `RegionCFGTree.h` -/

theorem getNewIDs_eq {NodeT : Type} (n : Nat) (G : RegionCFGT NodeT)
    (hc : G.IDCounter < 2 ^ 32) :
    (G.getNewIDs n).1 = (List.range n).map (fun k => (G.IDCounter + k) % 2 ^ 32) ∧
    (G.getNewIDs n).2.IDCounter = (G.IDCounter + n) % 2 ^ 32 ∧
    (G.getNewIDs n).2.BlockNodes = G.BlockNodes := by
  induction n generalizing G with
  | zero =>
    refine ⟨rfl, ?_, rfl⟩
    simp only [RegionCFGT.getNewIDs, Nat.add_zero]
    exact (Nat.mod_eq_of_lt hc).symm
  | succ n ih =>
    have hlt : (G.getNewID).2.IDCounter < 2 ^ 32 := Nat.mod_lt _ (by norm_num)
    obtain ⟨ih1, ih2, ih3⟩ := ih (G.getNewID).2 hlt
    have hcnt : (G.getNewID).2.IDCounter = (G.IDCounter + 1) % 2 ^ 32 := rfl
    refine ⟨?_, ?_, ?_⟩
    · simp only [RegionCFGT.getNewIDs]
      rw [ih1, List.range_succ_eq_map, List.map_cons, List.map_map]
      congr 1
      · exact (Nat.mod_eq_of_lt hc).symm
      · apply List.map_congr_left
        intro k _
        simp only [Function.comp, hcnt]
        rw [Nat.mod_add_mod, Nat.add_assoc, Nat.add_comm 1 k]
    · simp only [RegionCFGT.getNewIDs]
      rw [ih2, hcnt, Nat.mod_add_mod, Nat.add_assoc, Nat.add_comm 1 n]
    · simp only [RegionCFGT.getNewIDs]
      rw [ih3]
      rfl

/-- C13: on a freshly constructed RegionCFG, `n` calls of `getNewID` return `n` ids, the
call at position `k` (counted from 0, so the `k+1`-th call) returns `k` modulo `2^32`, which
is `k` itself among the first `2^32` calls, so two of the first `2^32` calls return strictly
increasing, distinct ids; every call returns the counter and advances it by one modulo
`2^32`. -/
theorem getNewID_on_new {NodeT : Type} (n : Nat) :
    ((RegionCFGT.new : RegionCFGT NodeT).getNewIDs n).1.length = n ∧
    (∀ k, k < n →
      ((RegionCFGT.new : RegionCFGT NodeT).getNewIDs n).1[k]? = some (k % 2 ^ 32)) ∧
    (∀ k, k < n → k < 2 ^ 32 →
      ((RegionCFGT.new : RegionCFGT NodeT).getNewIDs n).1[k]? = some k) ∧
    (∀ i j, i < j → j < n → j < 2 ^ 32 →
      ∃ a b, ((RegionCFGT.new : RegionCFGT NodeT).getNewIDs n).1[i]? = some a ∧
        ((RegionCFGT.new : RegionCFGT NodeT).getNewIDs n).1[j]? = some b ∧ a < b) ∧
    ((RegionCFGT.new : RegionCFGT NodeT).getNewIDs n).2.IDCounter = n % 2 ^ 32 ∧
    (∀ G : RegionCFGT NodeT, G.getNewID.1 = G.IDCounter ∧
      G.getNewID.2.IDCounter = (G.IDCounter + 1) % 2 ^ 32) := by
  obtain ⟨h1, h2, -⟩ := getNewIDs_eq n (RegionCFGT.new : RegionCFGT NodeT) (by
    show (0 : Nat) < 2 ^ 32
    norm_num)
  have hz : (RegionCFGT.new : RegionCFGT NodeT).IDCounter = 0 := rfl
  rw [hz] at h1 h2
  simp only [Nat.zero_add] at h1 h2
  have hget : ∀ k, k < n →
      ((RegionCFGT.new : RegionCFGT NodeT).getNewIDs n).1[k]? = some (k % 2 ^ 32) := by
    intro k hk
    rw [h1, List.getElem?_map, List.getElem?_range hk]
    rfl
  have hget' : ∀ k, k < n → k < 2 ^ 32 →
      ((RegionCFGT.new : RegionCFGT NodeT).getNewIDs n).1[k]? = some k := by
    intro k hk hk'
    rw [hget k hk, Nat.mod_eq_of_lt hk']
  refine ⟨?_, hget, hget', ?_, h2, fun G => ⟨rfl, rfl⟩⟩
  · rw [h1, List.length_map, List.length_range]
  · intro i j hij hj hj'
    exact ⟨i, j, hget' i (by omega) (by omega), hget' j hj hj', hij⟩

/-- C13 on three calls: the ids are 0, 1 and 2 and the counter is 3. -/
theorem getNewID_on_new_witness :
    ((RegionCFGT.new : RegionCFGT CFGBlock).getNewIDs 3).1 = [0, 1, 2] ∧
    ((RegionCFGT.new : RegionCFGT CFGBlock).getNewIDs 3).1[1]? = some 1 ∧
    ((RegionCFGT.new : RegionCFGT CFGBlock).getNewIDs 3).2.IDCounter = 3 :=
  ⟨rfl, (getNewID_on_new 3).2.2.1 1 (by decide) (by norm_num), (getNewID_on_new 3).2.2.2.2.1⟩

theorem findCaseDestLoop_some (BB : Nat) (l : List (Nat × Nat)) (v : Nat) :
    SwitchInst.findCaseDestLoop BB l (some v) =
      if l.filter (fun c => decide (c.2 = BB)) = [] then some v else none := by
  induction l with
  | nil => rfl
  | cons c rest ih =>
    obtain ⟨cv, cs⟩ := c
    by_cases h : cs = BB
    · simp [SwitchInst.findCaseDestLoop, h]
    · have hf : List.filter (fun c : Nat × Nat => decide (c.2 = BB)) ((cv, cs) :: rest) =
          List.filter (fun c : Nat × Nat => decide (c.2 = BB)) rest :=
        List.filter_cons_of_neg (by simpa using h)
      rw [hf, ← ih]
      simp [SwitchInst.findCaseDestLoop, h]

theorem findCaseDestLoop_none (BB : Nat) (l : List (Nat × Nat)) (v : Nat) :
    SwitchInst.findCaseDestLoop BB l none = some v ↔
      l.filter (fun c => decide (c.2 = BB)) = [(v, BB)] := by
  induction l with
  | nil => simp [SwitchInst.findCaseDestLoop]
  | cons c rest ih =>
    obtain ⟨cv, cs⟩ := c
    by_cases h : cs = BB
    · subst h
      simp only [SwitchInst.findCaseDestLoop, ne_eq, not_true_eq_false, if_false,
        findCaseDestLoop_some, decide_True, List.filter_cons_of_pos, List.cons.injEq,
        Prod.mk.injEq, and_true]
      by_cases hf : rest.filter (fun c => decide (c.2 = cs)) = []
      · simp [hf]
      · simp [hf]
    · simp [SwitchInst.findCaseDestLoop, h, ih]

/-- C15, as stated, fails: the block ends with a switch (default to block 4, case 7 and
case 9 to block 2) and 1 is a valid successor index, its successor being block 2, which is
not the default destination; the method returns no edge information, it fails the assertion
that the successor has a unique case value. -/
theorem getSwitchEdgeInfoSuccessor_aborts_on_shared_successor :
    exampleCFGBlockTwoCases.Terminator = TerminatorInst.Switch exampleSwitchTwoCases ∧
    exampleSwitchTwoCases.successors = [4, 2, 2] ∧
    exampleSwitchTwoCases.getSuccessor 1 = some 2 ∧
    exampleSwitchTwoCases.getDefaultDest = 4 ∧
    exampleSwitchTwoCases.findCaseDest 2 = Option.none ∧
    getSwitchEdgeInfoSuccessor (some exampleCFGBlockTwoCases) 1 = Option.none :=
  ⟨rfl, rfl, rfl, rfl, rfl, rfl⟩

/-- C15, amended: for a block that ends with a switch and a valid successor index `I`, with
`CaseBB` the successor at that index: when `CaseBB` is the default destination the method returns no
label and `Inlined = false`; when it is not and exactly one case leads to it, the method
returns the value of that case as only label and `Inlined = false`; and whenever the method
returns, `Inlined` is false, the label set is empty if and only if `CaseBB` is the default
destination, and otherwise it is the singleton of the value of the one case that leads to
`CaseBB`. -/
theorem getSwitchEdgeInfoSuccessor_of_switch (B : CFGBlock) (Switch : SwitchInst)
    (I CaseBB : Nat) (ht : B.Terminator = TerminatorInst.Switch Switch)
    (hI : Switch.getSuccessor I = some CaseBB) (hI32 : I ≤ 4294967295) :
    (CaseBB = Switch.getDefaultDest →
      getSwitchEdgeInfoSuccessor (some B) I = some ⟨[], false⟩) ∧
    (∀ v, CaseBB ≠ Switch.getDefaultDest →
      Switch.Cases.filter (fun c => decide (c.2 = CaseBB)) = [(v, CaseBB)] →
      getSwitchEdgeInfoSuccessor (some B) I = some ⟨[v], false⟩) ∧
    (∀ r, getSwitchEdgeInfoSuccessor (some B) I = some r →
      r.Inlined = false ∧ (r.Labels = [] ↔ CaseBB = Switch.getDefaultDest) ∧
      (CaseBB ≠ Switch.getDefaultDest → ∃ v, r.Labels = [v] ∧
        Switch.Cases.filter (fun c => decide (c.2 = CaseBB)) = [(v, CaseBB)])) := by
  have hmod : I % 2 ^ 32 = I := Nat.mod_eq_of_lt (by omega)
  have hunf : getSwitchEdgeInfoSuccessor (some B) I =
      if CaseBB = Switch.getDefaultDest then some ⟨[], false⟩
      else
        match Switch.findCaseDest CaseBB with
        | none => none
        | some CaseValue => some ⟨[CaseValue], false⟩ := by
    simp only [getSwitchEdgeInfoSuccessor, ht, hI32, if_true, hmod, hI]
  refine ⟨fun hd => ?_, fun v hd hf => ?_, fun r hr => ?_⟩
  · rw [hunf, if_pos hd]
  · rw [hunf, if_neg hd]
    have : Switch.findCaseDest CaseBB = some v := by
      unfold SwitchInst.findCaseDest
      rw [if_neg hd]
      exact (findCaseDestLoop_none CaseBB Switch.Cases v).mpr hf
    rw [this]
  · rw [hunf] at hr
    by_cases hd : CaseBB = Switch.getDefaultDest
    · rw [if_pos hd] at hr
      cases hr
      exact ⟨rfl, ⟨fun _ => hd, fun _ => rfl⟩, fun hn => absurd hd hn⟩
    · rw [if_neg hd] at hr
      cases hfc : Switch.findCaseDest CaseBB with
      | none => simp [hfc] at hr
      | some v =>
        simp only [hfc, Option.some.injEq] at hr
        subst hr
        refine ⟨rfl, ⟨fun hl => (List.cons_ne_nil _ _ hl).elim, fun h => absurd h hd⟩,
          fun _ => ⟨v, rfl, ?_⟩⟩
        unfold SwitchInst.findCaseDest at hfc
        rw [if_neg hd] at hfc
        exact (findCaseDestLoop_none CaseBB Switch.Cases v).mp hfc

/-- C15 on the example: the switch of block 1 has the default destination at index 0 and the
case 7 at index 1. -/
theorem getSwitchEdgeInfoSuccessor_of_switch_witness :
    exampleCFGBlock1.Terminator = TerminatorInst.Switch exampleSwitch ∧
    exampleSwitch.getSuccessor 0 = some 4 ∧ exampleSwitch.getSuccessor 1 = some 2 ∧
    getSwitchEdgeInfoSuccessor (some exampleCFGBlock1) 0 = some ⟨[], false⟩ ∧
    getSwitchEdgeInfoSuccessor (some exampleCFGBlock1) 1 = some ⟨[7], false⟩ :=
  ⟨rfl, rfl, rfl,
    (getSwitchEdgeInfoSuccessor_of_switch exampleCFGBlock1 exampleSwitch 0 4 rfl rfl
      (by decide)).1 rfl,
    (getSwitchEdgeInfoSuccessor_of_switch exampleCFGBlock1 exampleSwitch 1 2 rfl rfl
      (by decide)).2.1 7 (by decide) rfl⟩

/-- C16: `InlineFilter` keeps an edge if and only if its flag `Inlined` is false, so the
successors of a node in the filtered view, on which the dominator and the post-dominator tree
are computed, are exactly its successors along edges that are not inlined. -/
theorem InlineFilter_iff_not_inlined {NodeT : Type} (E : Nat × EdgeInfo) :
    (InlineFilter E = true ↔ E.2.Inlined = false) ∧
    (∀ (G : RegionCFGT NodeT) (Node : Nat),
      (E ∈ G.filteredSuccessors Node ↔ E ∈ G.successors Node ∧ E.2.Inlined = false)) := by
  have h1 : InlineFilter E = true ↔ E.2.Inlined = false := by
    unfold InlineFilter
    cases E.2.Inlined <;> simp
  refine ⟨h1, fun G Node => ?_⟩
  unfold RegionCFGT.filteredSuccessors
  rw [List.mem_filter, h1]

/-! ## Claims about the verifiers of `CliftAttributes.cpp` -/

/-- C18, the code at the failing inputs: a union of size 4 with one field at offset 0 is
rejected with "union types must have at least a field", and a union of size 4 without any
field is accepted; the verifier accepts exactly the unions of non-zero size without
fields. -/
theorem UnionType_verify_rejects_fields :
    UnionType.verify 1 "u" 4 [⟨0, 4, "a"⟩] = Except.error Diagnostic.unionWithoutField ∧
    UnionType.verify 1 "u" 4 [] = Except.ok () ∧
    (∀ (ID : Nat) (Name : String) (Size : Nat) (Fields : List FieldAttr),
      UnionType.verify ID Name Size Fields = Except.ok () ↔ Size ≠ 0 ∧ Fields = []) := by
  refine ⟨rfl, rfl, fun ID Name Size Fields => ?_⟩
  unfold UnionType.verify
  by_cases hs : Size = 0
  · simp [hs]
  · cases Fields with
    | nil => simp [hs, UnionType.verifyOffsets, verifyNames]
    | cons F rest => simp [hs]

/-- C19, the code at the failing input: a struct of size 16 whose two fields are exactly
adjacent (the first ends at offset 4, where the second begins) is rejected with "Fields of
structs must be ordered by offset, and they cannot overlap"; with a gap of one byte it is
accepted. -/
theorem StructType_verify_rejects_adjacent_fields :
    StructType.verify 1 "s" 16 [⟨0, 4, "a"⟩, ⟨4, 4, "b"⟩] =
      Except.error Diagnostic.structFieldsNotOrdered ∧
    StructType.verify 1 "s" 16 [⟨0, 4, "a"⟩, ⟨5, 4, "b"⟩] = Except.ok () :=
  ⟨rfl, rfl⟩

/-- C20, the code at the failing input: a struct of size 4 whose only field ends exactly at
offset 4 is rejected with "offset + size of field of struct type is greater than the struct
type size."; with size 5 it is accepted. -/
theorem StructType_verify_rejects_field_ending_at_size :
    StructType.verify 1 "s" 4 [⟨0, 4, "a"⟩] =
      Except.error Diagnostic.structFieldBeyondSize ∧
    StructType.verify 1 "s" 5 [⟨0, 4, "a"⟩] = Except.ok () :=
  ⟨rfl, rfl⟩

/-! ## Facts about `initialize` -/

theorem forall₂_append_of {α β : Type} (R : α → β → Prop) (l₁ l₂ : List α) (m₁ m₂ : List β)
    (h₁ : List.Forall₂ R l₁ m₁) (h₂ : List.Forall₂ R l₂ m₂) :
    List.Forall₂ R (l₁ ++ l₂) (m₁ ++ m₂) := by
  induction h₁ with
  | nil => exact h₂
  | cons hab _ ih => exact List.Forall₂.cons hab ih

theorem createNodes_spec {NodeT : Type} (GT : GraphTraits NodeT) (nodes : List NodeT)
    (G : RegionCFGT NodeT) (M : PtrMap Nat) (L : List NodeT)
    (hM : MapsToCreated GT G.BlockNodes L M) :
    (∃ created, (RegionCFGT.createNodes GT nodes G M).1.BlockNodes = G.BlockNodes ++ created ∧
      created.map (fun n => (n.NodeType, n.OriginalNode, n.Name)) =
        nodes.map (fun N => (BasicBlockNodeType.Code, some N, GT.getName N))) ∧
    (RegionCFGT.createNodes GT nodes G M).1.Edges = G.Edges ∧
    MapsToCreated GT (RegionCFGT.createNodes GT nodes G M).1.BlockNodes (L ++ nodes)
      (RegionCFGT.createNodes GT nodes G M).2 := by
  induction nodes generalizing G M L with
  | nil =>
    refine ⟨⟨[], by simp [RegionCFGT.createNodes], rfl⟩, rfl, ?_⟩
    simpa [RegionCFGT.createNodes] using hM
  | cons N rest ih =>
    have hB : (G.addNode N (GT.getName N)).2.BlockNodes =
        G.BlockNodes ++ [⟨G.IDCounter, BasicBlockNodeType.Code, some N, GT.getName N⟩] := rfl
    have hp : (G.addNode N (GT.getName N)).1 = G.BlockNodes.length := rfl
    have hM1 : MapsToCreated GT (G.addNode N (GT.getName N)).2.BlockNodes (L ++ [N])
        (PtrMap.modify 0 (fun _ => (G.addNode N (GT.getName N)).1) M (GT.nodeId N)) := by
      intro k p hk
      rw [PtrMap.find?_modify] at hk
      by_cases hkN : k = GT.nodeId N
      · simp only [hkN, if_true, Option.some.injEq] at hk
        rw [hp] at hk
        subst hk
        refine ⟨⟨G.IDCounter, BasicBlockNodeType.Code, some N, GT.getName N⟩, N, ?_, rfl, rfl,
          hkN.symm, by simp⟩
        rw [hB]
        exact List.getElem?_concat_length _ _
      · simp only [hkN, if_false] at hk
        obtain ⟨Node, N', h1, h2, h3, h4, h5⟩ := hM k p hk
        refine ⟨Node, N', ?_, h2, h3, h4, List.mem_append_left _ h5⟩
        rw [hB]
        have hlt : p < G.BlockNodes.length := by
          obtain ⟨hlt, -⟩ := List.getElem?_eq_some.mp h1
          exact hlt
        rw [List.getElem?_append_left hlt]
        exact h1
    obtain ⟨⟨created, hc1, hc2⟩, he, hm⟩ := ih (G.addNode N (GT.getName N)).2 _ (L ++ [N]) hM1
    refine ⟨⟨⟨G.IDCounter, BasicBlockNodeType.Code, some N, GT.getName N⟩ :: created, ?_, ?_⟩,
      ?_, ?_⟩
    · simp only [RegionCFGT.createNodes]
      rw [hc1, hB, List.append_assoc]
      rfl
    · simp only [List.map_cons, hc2]
    · simp only [RegionCFGT.createNodes]
      rw [he]
      rfl
    · simp only [RegionCFGT.createNodes]
      have : L ++ N :: rest = (L ++ [N]) ++ rest := by simp
      rw [this]
      exact hm

theorem createEdgesOf_spec {NodeT : Type} (GT : GraphTraits NodeT)
    (isSw : BasicBlockNodeT NodeT → Bool) (getInfo : Option NodeT → Nat → Option EdgeInfo)
    (M : PtrMap Nat) (N : NodeT) (BBNode : Nat) (succs : List Nat) (index : Nat)
    (G G' : RegionCFGT NodeT) (hN : M.find? (GT.nodeId N) = some BBNode)
    (h : RegionCFGT.createEdgesOf isSw getInfo M N BBNode succs index G = some G') :
    G'.BlockNodes = G.BlockNodes ∧ G'.EntryNode = G.EntryNode ∧
    ∃ added, G'.Edges = G.Edges ++ added ∧
      List.Forall₂ (fun (p : Nat × Nat) E => EdgeAt GT isSw getInfo M G.BlockNodes (N, p.1, p.2) E)
        (succs.enumFrom index) added := by
  induction succs generalizing index G with
  | nil =>
    simp only [RegionCFGT.createEdgesOf, Option.some.injEq] at h
    subst h
    exact ⟨rfl, rfl, [], by simp, List.Forall₂.nil⟩
  | cons succ rest ih =>
    simp only [RegionCFGT.createEdgesOf] at h
    cases hs : M.find? succ with
    | none => simp [hs] at h
    | some Successor =>
      simp only [hs] at h
      cases hn : G.BlockNodes[BBNode]? with
      | none => simp [hn] at h
      | some Node =>
        simp only [hn] at h
        cases hc : (Node.isCode && isSw Node) with
        | true =>
          simp only [hc, if_true] at h
          cases hg : getInfo (some N) index with
          | none => simp [hg] at h
          | some Labels =>
            simp only [hg] at h
            obtain ⟨h1, h2, added, h3, h4⟩ := ih (index + 1) _ h
            refine ⟨h1, h2, ⟨BBNode, Successor, some Labels⟩ :: added, ?_, ?_⟩
            · rw [h3]
              simp [RegionCFGT.addEdge]
            · refine List.Forall₂.cons ⟨hN, hs, Node, hn, ?_, ?_⟩ h4
              · simp [hc]
              · simp [hc, hg]
        | false =>
          simp only [hc, Bool.false_eq_true, if_false] at h
          obtain ⟨h1, h2, added, h3, h4⟩ := ih (index + 1) _ h
          refine ⟨h1, h2, ⟨BBNode, Successor, none⟩ :: added, ?_, ?_⟩
          · rw [h3]
            simp [RegionCFGT.addPlainEdge]
          · refine List.Forall₂.cons ⟨hN, hs, Node, hn, ?_, ?_⟩ h4
            · simp [hc]
            · simp [hc]

theorem createEdges_spec {NodeT : Type} (GT : GraphTraits NodeT)
    (isSw : BasicBlockNodeT NodeT → Bool) (getInfo : Option NodeT → Nat → Option EdgeInfo)
    (M : PtrMap Nat) (nodes : List NodeT) (G G' : RegionCFGT NodeT)
    (h : RegionCFGT.createEdges GT isSw getInfo M nodes G = some G') :
    G'.BlockNodes = G.BlockNodes ∧ G'.EntryNode = G.EntryNode ∧
    ∃ added, G'.Edges = G.Edges ++ added ∧
      List.Forall₂ (EdgeAt GT isSw getInfo M G.BlockNodes) (successorPositions GT nodes)
        added := by
  induction nodes generalizing G with
  | nil =>
    simp only [RegionCFGT.createEdges, Option.some.injEq] at h
    subst h
    exact ⟨rfl, rfl, [], by simp, by simp [successorPositions]⟩
  | cons N rest ih =>
    simp only [RegionCFGT.createEdges] at h
    cases hN : M.find? (GT.nodeId N) with
    | none => simp [hN] at h
    | some BBNode =>
      simp only [hN] at h
      cases h1 : RegionCFGT.createEdgesOf isSw getInfo M N BBNode (GT.children N) 0 G with
      | none => simp [h1] at h
      | some G1 =>
        simp only [h1] at h
        obtain ⟨a1, a2, added1, a3, a4⟩ :=
          createEdgesOf_spec GT isSw getInfo M N BBNode (GT.children N) 0 G G1 hN h1
        obtain ⟨b1, b2, added2, b3, b4⟩ := ih G1 h
        refine ⟨b1.trans a1, b2.trans a2, added1 ++ added2, ?_, ?_⟩
        · rw [b3, a3, List.append_assoc]
        · rw [a1] at b4
          have hpos : successorPositions GT (N :: rest) =
              (GT.children N).enum.map (fun p => (N, p.1, p.2)) ++
                successorPositions GT rest := by
            simp [successorPositions]
          rw [hpos]
          apply forall₂_append_of _ _ _ _ _ ?_ b4
          rw [List.forall₂_map_left_iff]
          exact a4

/-- The method `initialize`, unfolded on a run that returns. -/
theorem initializeWith_eq_some {NodeT : Type} (GT : GraphTraits NodeT)
    (isSw : BasicBlockNodeT NodeT → Bool) (getInfo : Option NodeT → Nat → Option EdgeInfo)
    (G G' : RegionCFGT NodeT) (Graph : InputGraph NodeT)
    (h : RegionCFGT.initializeWith GT isSw getInfo G Graph = some G') :
    ∃ Entry M created added,
      MapsToCreated GT G'.BlockNodes Graph.nodes M ∧
      M.find? Graph.getEntryNode = some Entry ∧ G'.EntryNode = some Entry ∧
      G'.BlockNodes = G.BlockNodes ++ created ∧
      created.map (fun n => (n.NodeType, n.OriginalNode, n.Name)) =
        Graph.nodes.map (fun N => (BasicBlockNodeType.Code, some N, GT.getName N)) ∧
      G'.Edges = G.Edges ++ added ∧
      List.Forall₂ (EdgeAt GT isSw getInfo M G'.BlockNodes)
        (successorPositions GT Graph.nodes) added := by
  unfold RegionCFGT.initializeWith at h
  obtain ⟨⟨created, hc1, hc2⟩, he, hm⟩ :=
    createNodes_spec GT Graph.nodes G PtrMap.empty [] (by
      intro k p hk
      rw [PtrMap.find?_empty] at hk
      cases hk)
  simp only at h
  cases hE : (RegionCFGT.createNodes GT Graph.nodes G PtrMap.empty).2.find? Graph.getEntryNode with
  | none => simp [hE] at h
  | some Entry =>
    simp only [hE] at h
    obtain ⟨a1, a2, added, a3, a4⟩ := createEdges_spec GT isSw getInfo _ Graph.nodes _ G' h
    simp only at a1 a2 a3 a4
    simp only [List.nil_append] at hm
    refine ⟨Entry, _, created, added, ?_, hE, a2, ?_, hc2, ?_, ?_⟩
    · rw [a1]
      exact hm
    · rw [a1, hc1]
    · rw [a3, he]
    · rw [a1]
      exact a4

theorem forall₂_right_of {α β : Type} (R : α → β → Prop) (Q : β → Prop) (l : List α)
    (m : List β) (h : List.Forall₂ R l m) (hQ : ∀ a b, R a b → Q b) : ∀ b ∈ m, Q b := by
  induction h with
  | nil => intro b hb; cases hb
  | cons hab _ ih =>
    intro b hb
    rcases List.mem_cons.mp hb with rfl | hb'
    · exact hQ _ _ hab
    · exact ih b hb'

/-- C14: when `initialize` of `RegionCFG<llvm::BasicBlock *>` returns, the edges that it adds
are, in order, one per successor position of the input graph (for every input node, in
order, every index of its successor list, in order); the edge at a position of the input
node `N` starts at the node created for `N` and ends at the node created for the successor;
it is a labeled edge exactly when the node created for `N` is a Code node on which
`isASwitch` holds, that is when the terminator of its original block is a switch, and its
labels are then those of `getSwitchEdgeInfoSuccessor`; it is a plain edge in every other
case. For another type of original node `isASwitch` is constantly false and every added edge
is plain. -/
theorem initialize_adds_edges (G G' : RegionCFGT CFGBlock) (Graph : InputGraph CFGBlock)
    (h : RegionCFGT.initializeBB G Graph = some G') :
    (∃ added, G'.Edges = G.Edges ++ added ∧
      List.Forall₂ (fun (pos : CFGBlock × Nat × Nat) (E : Edge) =>
        ∃ BBNode N', G'.BlockNodes[E.Source]? = some BBNode ∧
          BBNode.OriginalNode = some N' ∧ N'.id = pos.1.id ∧
          E.Info.isSome = (BBNode.isCode && isASwitch BBNode) ∧
          (E.Info.isSome = true ↔ ∃ S, N'.Terminator = TerminatorInst.Switch S) ∧
          (E.Info.isSome = true →
            E.Info = getSwitchEdgeInfoSuccessor (some pos.1) pos.2.1) ∧
          (∃ T S', G'.BlockNodes[E.Target]? = some T ∧ T.OriginalNode = some S' ∧
            S'.id = pos.2.2))
        (successorPositions CFGBlock.graphTraits Graph.nodes) added) ∧
    (∀ (NodeT : Type) (GT : GraphTraits NodeT) (H H' : RegionCFGT NodeT)
      (Gr : InputGraph NodeT), RegionCFGT.initializeGeneric GT H Gr = some H' →
      (∀ Node : BasicBlockNodeT NodeT, isASwitchGeneric Node = false) ∧
      ∃ added, H'.Edges = H.Edges ++ added ∧
        added.length = (successorPositions GT Gr.nodes).length ∧
        ∀ E ∈ added, E.Info = none) := by
  constructor
  · obtain ⟨Entry, M, created, added, hM, -, -, -, -, hE, hF⟩ :=
      initializeWith_eq_some CFGBlock.graphTraits isASwitch getSwitchEdgeInfoSuccessor G G'
        Graph h
    refine ⟨added, hE, hF.imp ?_⟩
    rintro ⟨N, i, succ⟩ E ⟨h1, h2, Node, h3, h4, h5⟩
    obtain ⟨Node1, N1, a1, a2, a3, a4, -⟩ := hM _ _ h1
    obtain ⟨Node2, N2, b1, b2, b3, b4, -⟩ := hM _ _ h2
    rw [h3] at a1
    cases a1
    have hcode : Node.isCode = true := by
      unfold BasicBlockNodeT.isCode
      simp [a2]
    have hsw : isASwitch Node = true ↔ ∃ S, N1.Terminator = TerminatorInst.Switch S := by
      unfold isASwitch BasicBlockNodeT.getOriginalNode
      rw [hcode, a3]
      cases hT : N1.Terminator <;> simp [hT]
    refine ⟨Node, N1, h3, a3, a4, h4, ?_, ?_, Node2, N2, b1, b3, b4⟩
    · rw [h4, hcode, Bool.true_and]
      exact hsw
    · intro hs
      rw [h4] at hs
      rw [h5, hs, if_pos rfl]
  · intro NodeT GT H H' Gr hg
    obtain ⟨Entry, M, created, added, -, -, -, -, -, hE, hF⟩ :=
      initializeWith_eq_some GT isASwitchGeneric getSwitchEdgeInfoSuccessorGeneric H H' Gr hg
    refine ⟨fun _ => rfl, added, hE, hF.length_eq.symm, ?_⟩
    refine forall₂_right_of _ (fun E => E.Info = none) _ _ hF ?_
    rintro pos E ⟨-, -, Node, -, -, h5⟩
    rw [h5]
    simp [isASwitchGeneric]

/-- C14 on the example: `initialize` adds three labeled edges for the switch of block 1 (the
default, case 7 and case 9) and two plain edges. -/
theorem initialize_adds_edges_witness :
    ∃ G', RegionCFGT.initializeBB RegionCFGT.new exampleInputGraph = some G' ∧
      G'.Edges = [⟨0, 3, some ⟨[], false⟩⟩, ⟨0, 1, some ⟨[7], false⟩⟩,
        ⟨0, 2, some ⟨[9], false⟩⟩, ⟨1, 3, none⟩, ⟨2, 3, none⟩] ∧
      ∃ added, G'.Edges = (RegionCFGT.new : RegionCFGT CFGBlock).Edges ++ added ∧
        added.length = (successorPositions CFGBlock.graphTraits exampleInputGraph.nodes).length :=
  ⟨_, rfl, rfl,
    (initialize_adds_edges RegionCFGT.new _ exampleInputGraph rfl).1.elim
      (fun added ha => ⟨added, ha.1, ha.2.length_eq.symm⟩)⟩

theorem verifyNames_ok_iff (mk : String → Diagnostic) (l : List FieldAttr)
    (Names : List String) :
    verifyNames mk l Names = Except.ok () ↔
      NoSharedName FieldAttr.Name l ∧ ∀ a ∈ l, a.Name ≠ "" → a.Name ∉ Names := by
  induction l generalizing Names with
  | nil => simp [verifyNames, NoSharedName]
  | cons F rest ih =>
    unfold NoSharedName at ih ⊢
    by_cases he : F.Name = ""
    · simp only [verifyNames, he, if_true, ih, List.pairwise_cons, List.mem_cons]
      constructor
      · rintro ⟨h1, h2⟩
        refine ⟨⟨fun b _ hb => hb.2 rfl, h1⟩, ?_⟩
        rintro a (rfl | ha) hne
        · exact absurd he hne
        · exact h2 a ha hne
      · rintro ⟨⟨-, h1⟩, h2⟩
        exact ⟨h1, fun a ha => h2 a (Or.inr ha)⟩
    · by_cases hm : F.Name ∈ Names
      · simp only [verifyNames, he, if_false, hm, if_true, List.pairwise_cons, List.mem_cons]
        constructor
        · intro h
          cases h
        · rintro ⟨-, h2⟩
          exact absurd hm (h2 F (Or.inl rfl) he)
      · simp only [verifyNames, he, if_false, hm, ih, List.pairwise_cons, List.mem_cons]
        constructor
        · rintro ⟨h1, h2⟩
          refine ⟨⟨fun b hb hb' => ?_, h1⟩, ?_⟩
          · have hbne : b.Name ≠ "" := fun e => he (hb'.1.trans e)
            exact h2 b hb hbne (Or.inl hb'.1.symm)
          · rintro a (rfl | ha) hne
            · exact hm
            · exact fun hin => h2 a ha hne (Or.inr hin)
        · rintro ⟨⟨h0, h1⟩, h2⟩
          refine ⟨h1, fun a ha hne hin => ?_⟩
          rcases hin with hin | hin
          · exact h0 a ha ⟨hin.symm, he⟩
          · exact h2 a (Or.inr ha) hne hin

theorem verifyNames_error (mk : String → Diagnostic) (l : List FieldAttr)
    (Names : List String) :
    verifyNames mk l Names = Except.ok () ∨
      ∃ n, verifyNames mk l Names = Except.error (mk n) ∧ n ≠ "" ∧ ∃ a ∈ l, a.Name = n := by
  induction l generalizing Names with
  | nil => exact Or.inl rfl
  | cons F rest ih =>
    by_cases he : F.Name = ""
    · simp only [verifyNames, he, if_true]
      rcases ih Names with h | ⟨n, h1, h2, a, h3, h4⟩
      · exact Or.inl h
      · exact Or.inr ⟨n, h1, h2, a, List.mem_cons_of_mem _ h3, h4⟩
    · by_cases hm : F.Name ∈ Names
      · simp only [verifyNames, he, if_false, hm, if_true]
        exact Or.inr ⟨F.Name, rfl, he, F, List.mem_cons_self _ _, rfl⟩
      · simp only [verifyNames, he, if_false, hm]
        rcases ih (F.Name :: Names) with h | ⟨n, h1, h2, a, h3, h4⟩
        · exact Or.inl h
        · exact Or.inr ⟨n, h1, h2, a, List.mem_cons_of_mem _ h3, h4⟩

theorem FunctionAttr_verifyNames_ok_iff (l : List FunctionArgumentAttr)
    (Names : List String) :
    FunctionAttr.verifyNames l Names = Except.ok () ↔
      NoSharedName FunctionArgumentAttr.Name l ∧ ∀ a ∈ l, a.Name ≠ "" → a.Name ∉ Names := by
  induction l generalizing Names with
  | nil => simp [FunctionAttr.verifyNames, NoSharedName]
  | cons F rest ih =>
    unfold NoSharedName at ih ⊢
    by_cases he : F.Name = ""
    · simp only [FunctionAttr.verifyNames, he, if_true, ih, List.pairwise_cons, List.mem_cons]
      constructor
      · rintro ⟨h1, h2⟩
        refine ⟨⟨fun b _ hb => hb.2 rfl, h1⟩, ?_⟩
        rintro a (rfl | ha) hne
        · exact absurd he hne
        · exact h2 a ha hne
      · rintro ⟨⟨-, h1⟩, h2⟩
        exact ⟨h1, fun a ha => h2 a (Or.inr ha)⟩
    · by_cases hm : F.Name ∈ Names
      · simp only [FunctionAttr.verifyNames, he, if_false, hm, if_true, List.pairwise_cons,
          List.mem_cons]
        constructor
        · intro h
          cases h
        · rintro ⟨-, h2⟩
          exact absurd hm (h2 F (Or.inl rfl) he)
      · simp only [FunctionAttr.verifyNames, he, if_false, hm, ih, List.pairwise_cons,
          List.mem_cons]
        constructor
        · rintro ⟨h1, h2⟩
          refine ⟨⟨fun b hb hb' => ?_, h1⟩, ?_⟩
          · have hbne : b.Name ≠ "" := fun e => he (hb'.1.trans e)
            exact h2 b hb hbne (Or.inl hb'.1.symm)
          · rintro a (rfl | ha) hne
            · exact hm
            · exact fun hin => h2 a ha hne (Or.inr hin)
        · rintro ⟨⟨h0, h1⟩, h2⟩
          refine ⟨h1, fun a ha hne hin => ?_⟩
          rcases hin with hin | hin
          · exact h0 a ha ⟨hin.symm, he⟩
          · exact h2 a (Or.inr ha) hne hin

theorem FunctionAttr_verifyNames_error (l : List FunctionArgumentAttr)
    (Names : List String) :
    FunctionAttr.verifyNames l Names = Except.ok () ∨
      ∃ n, FunctionAttr.verifyNames l Names =
          Except.error (FunctionDiagnostic.multipleDefinitions n) ∧
        n ≠ "" ∧ ∃ a ∈ l, a.Name = n := by
  induction l generalizing Names with
  | nil => exact Or.inl rfl
  | cons F rest ih =>
    by_cases he : F.Name = ""
    · simp only [FunctionAttr.verifyNames, he, if_true]
      rcases ih Names with h | ⟨n, h1, h2, a, h3, h4⟩
      · exact Or.inl h
      · exact Or.inr ⟨n, h1, h2, a, List.mem_cons_of_mem _ h3, h4⟩
    · by_cases hm : F.Name ∈ Names
      · simp only [FunctionAttr.verifyNames, he, if_false, hm, if_true]
        exact Or.inr ⟨F.Name, rfl, he, F, List.mem_cons_self _ _, rfl⟩
      · simp only [FunctionAttr.verifyNames, he, if_false, hm]
        rcases ih (F.Name :: Names) with h | ⟨n, h1, h2, a, h3, h4⟩
        · exact Or.inl h
        · exact Or.inr ⟨n, h1, h2, a, List.mem_cons_of_mem _ h3, h4⟩

theorem noSharedName_of_empty_names {α : Type} (name : α → String) (l : List α)
    (h : ∀ a ∈ l, name a = "") : NoSharedName name l := by
  unfold NoSharedName
  induction l with
  | nil => exact List.Pairwise.nil
  | cons a rest ih =>
    refine List.Pairwise.cons (fun b _ hb => hb.2 (h a (List.mem_cons_self _ _))) ?_
    exact ih (fun b hb => h b (List.mem_cons_of_mem _ hb))

/-- C21: once the size, order and end checks of `StructType::verify` have passed, the
verifier fails with "multiple definitions of struct field named ..." if and only if two
fields have the same non-empty name, and succeeds otherwise; once the return type check of
`FunctionAttr::verify` has passed, the verifier fails with "multiple definitions of function
argument named ..." if and only if two arguments have the same non-empty name, and succeeds
otherwise; elements whose names are all empty never share a name. -/
theorem verify_multiple_definitions_iff (ID : Nat) (Name : String) (Size : Nat)
    (Fields : List FieldAttr) (Id : Nat) (FName : String) (ReturnType : ValueType)
    (Args : List FunctionArgumentAttr)
    (hSize : Size ≠ 0)
    (hOrder : StructType.verifyOrder (List.zip Fields.dropLast (Fields.drop 1)) = Except.ok ())
    (hEnd : StructType.verifyEnd Size Fields = Except.ok ())
    (hRet : ReturnType ≠ ValueType.DefinedType true) :
    ((∃ n, StructType.verify ID Name Size Fields =
        Except.error (Diagnostic.structMultipleDefinitions n)) ↔
      ¬ NoSharedName FieldAttr.Name Fields) ∧
    (StructType.verify ID Name Size Fields = Except.ok () ↔
      NoSharedName FieldAttr.Name Fields) ∧
    ((∃ n, FunctionAttr.verify Id FName ReturnType Args =
        Except.error (FunctionDiagnostic.multipleDefinitions n)) ↔
      ¬ NoSharedName FunctionArgumentAttr.Name Args) ∧
    (FunctionAttr.verify Id FName ReturnType Args = Except.ok () ↔
      NoSharedName FunctionArgumentAttr.Name Args) ∧
    ((∀ a ∈ Fields, a.Name = "") → StructType.verify ID Name Size Fields = Except.ok ()) ∧
    ((∀ a ∈ Args, a.Name = "") →
      FunctionAttr.verify Id FName ReturnType Args = Except.ok ()) := by
  have hS : StructType.verify ID Name Size Fields =
      verifyNames Diagnostic.structMultipleDefinitions Fields [] := by
    unfold StructType.verify
    rw [if_neg hSize]
    cases Fields with
    | nil => rfl
    | cons F rest =>
      simp only [List.isEmpty_cons, Bool.false_eq_true, if_false, hOrder, hEnd]
  have hF : FunctionAttr.verify Id FName ReturnType Args = FunctionAttr.verifyNames Args [] := by
    unfold FunctionAttr.verify
    cases ReturnType with
    | DefinedType b =>
      cases b with
      | true => exact absurd rfl hRet
      | false => rfl
    | Other => rfl
  have hSok : StructType.verify ID Name Size Fields = Except.ok () ↔
      NoSharedName FieldAttr.Name Fields := by
    rw [hS, verifyNames_ok_iff]
    simp
  have hFok : FunctionAttr.verify Id FName ReturnType Args = Except.ok () ↔
      NoSharedName FunctionArgumentAttr.Name Args := by
    rw [hF, FunctionAttr_verifyNames_ok_iff]
    simp
  refine ⟨⟨?_, ?_⟩, hSok, ⟨?_, ?_⟩, hFok, ?_, ?_⟩
  · rintro ⟨n, hn⟩ hno
    rw [hSok.mpr hno] at hn
    cases hn
  · intro hno
    rcases verifyNames_error Diagnostic.structMultipleDefinitions Fields [] with h | ⟨n, h, -⟩
    · exact absurd (hSok.mp (hS.trans h)) hno
    · exact ⟨n, hS.trans h⟩
  · rintro ⟨n, hn⟩ hno
    rw [hFok.mpr hno] at hn
    cases hn
  · intro hno
    rcases FunctionAttr_verifyNames_error Args [] with h | ⟨n, h, -⟩
    · exact absurd (hFok.mp (hF.trans h)) hno
    · exact ⟨n, hF.trans h⟩
  · exact fun h => hSok.mpr (noSharedName_of_empty_names _ _ h)
  · exact fun h => hFok.mpr (noSharedName_of_empty_names _ _ h)

/-- C21 on an example: a struct whose fields at offsets 0 and 8 are both named "a" and a
function whose first and last arguments are both named "x" are rejected, two unnamed
arguments in between do not matter. -/
theorem verify_multiple_definitions_iff_witness :
    StructType.verify 1 "s" 16 [⟨0, 4, "a"⟩, ⟨8, 4, "a"⟩] =
      Except.error (Diagnostic.structMultipleDefinitions "a") ∧
    FunctionAttr.verify 2 "f" ValueType.Other [⟨4, "x"⟩, ⟨4, ""⟩, ⟨4, ""⟩, ⟨4, "x"⟩] =
      Except.error (FunctionDiagnostic.multipleDefinitions "x") ∧
    ¬ NoSharedName FieldAttr.Name [⟨0, 4, "a"⟩, ⟨8, 4, "a"⟩] ∧
    ¬ NoSharedName FunctionArgumentAttr.Name [⟨4, "x"⟩, ⟨4, ""⟩, ⟨4, ""⟩, ⟨4, "x"⟩] :=
  ⟨rfl, rfl,
    (verify_multiple_definitions_iff 1 "s" 16 [⟨0, 4, "a"⟩, ⟨8, 4, "a"⟩] 2 "f"
      ValueType.Other [⟨4, "x"⟩, ⟨4, ""⟩, ⟨4, ""⟩, ⟨4, "x"⟩] (by decide) rfl rfl
      (by decide)).1.mp ⟨"a", rfl⟩,
    (verify_multiple_definitions_iff 1 "s" 16 [⟨0, 4, "a"⟩, ⟨8, 4, "a"⟩] 2 "f"
      ValueType.Other [⟨4, "x"⟩, ⟨4, ""⟩, ⟨4, ""⟩, ⟨4, "x"⟩] (by decide) rfl rfl
      (by decide)).2.2.1.mp ⟨"x", rfl⟩⟩

/-! ## When `computeDuplicationMap` returns the empty map, and when it aborts -/

theorem computeDuplicationMapLoop_of_no_code (l : List BasicBlockNode) (R : DuplicationMap)
    (F : Option Function) (h : ∀ N ∈ l, N.isCode = false) :
    computeDuplicationMapLoop l R F = some (R, F) := by
  induction l with
  | nil => rfl
  | cons N rest ih =>
    simp only [computeDuplicationMapLoop, h N (List.mem_cons_self _ _), Bool.false_eq_true,
      if_false]
    exact ih (fun M hM => h M (List.mem_cons_of_mem _ hM))

theorem find?_eq_none_of_codeNodesOf_eq_zero (G : RegionCFG) (M : DuplicationMap)
    (F' : Option Function)
    (hl : computeDuplicationMapLoop G.nodes PtrMap.empty Option.none = some (M, F'))
    (b : Nat) (hb : codeNodesOf G b = 0) : M.find? b = Option.none := by
  have hcount := computeDuplicationMapLoop_count G.nodes PtrMap.empty M Option.none F' hl b
  have hpos := computeDuplicationMapLoop_pos G.nodes PtrMap.empty M Option.none F' hl
    (fun k v hv => by rw [PtrMap.find?_empty] at hv; cases hv)
  rw [PtrMap.find?_empty, ← codeNodesOf_eq, hb] at hcount
  cases hf : M.find? b with
  | none => rfl
  | some v =>
    have := hpos b v hf
    rw [hf] at hcount
    simp at hcount
    omega

theorem codeNodesOf_pos_of_mem (G : RegionCFG) (N : BasicBlockNode) (BB : BasicBlock)
    (hN : N ∈ G.nodes) (hc : N.isCode = true) (ho : N.OriginalNode = some BB) :
    1 ≤ codeNodesOf G BB.id := by
  rw [codeNodesOf_eq]
  have hmem : N ∈ G.nodes.filter (isCodeNodeOf BB.id) := by
    rw [List.mem_filter]
    refine ⟨hN, ?_⟩
    simp [isCodeNodeOf, hc, ho]
  exact List.length_pos_of_mem hmem

/-- C22: `computeDuplicationMap` returns the empty map exactly when the graph has no Code
node; it aborts when two Code nodes wrap blocks of different functions, and when some block
of the function of a Code node is the original node of no Code node. -/
theorem computeDuplicationMap_empty_or_abort (G : RegionCFG) :
    (computeDuplicationMap G = some PtrMap.empty ↔ ∀ N ∈ G.nodes, N.isCode = false) ∧
    (∀ N1 N2 BB1 BB2, N1 ∈ G.nodes → N2 ∈ G.nodes → N1.isCode = true → N2.isCode = true →
      N1.OriginalNode = some BB1 → N2.OriginalNode = some BB2 → BB1.parent ≠ BB2.parent →
      computeDuplicationMap G = Option.none) ∧
    (∀ N BB b, N ∈ G.nodes → N.isCode = true → N.OriginalNode = some BB →
      b ∈ BB.parent.blocks → codeNodesOf G b = 0 →
      computeDuplicationMap G = Option.none) := by
  refine ⟨⟨fun h N hN => ?_, fun h => ?_⟩, ?_, ?_⟩
  · obtain ⟨F', hl, -⟩ := computeDuplicationMap_eq_some G _ h
    cases hc : N.isCode with
    | false => rfl
    | true =>
      obtain ⟨BB, ho, -⟩ :=
        (computeDuplicationMapLoop_function G.nodes PtrMap.empty _ Option.none F' hl).2 N hN hc
      have hcount := computeDuplicationMapLoop_count G.nodes PtrMap.empty _ Option.none F' hl
        BB.id
      have hge := codeNodesOf_pos_of_mem G N BB hN hc ho
      rw [PtrMap.find?_empty, ← codeNodesOf_eq] at hcount
      simp at hcount
      omega
  · unfold computeDuplicationMap
    rw [computeDuplicationMapLoop_of_no_code G.nodes PtrMap.empty Option.none h]
    rfl
  · intro N1 N2 BB1 BB2 h1 h2 c1 c2 o1 o2 hne
    cases hr : computeDuplicationMap G with
    | none => rfl
    | some M =>
      obtain ⟨F', hl, -⟩ := computeDuplicationMap_eq_some G M hr
      obtain ⟨-, hfun⟩ :=
        computeDuplicationMapLoop_function G.nodes PtrMap.empty M Option.none F' hl
      obtain ⟨B1, p1, q1⟩ := hfun N1 h1 c1
      obtain ⟨B2, p2, q2⟩ := hfun N2 h2 c2
      rw [o1] at p1
      rw [o2] at p2
      cases p1
      cases p2
      rw [q1] at q2
      exact absurd (Option.some.inj q2) hne
  · intro N BB b hN hc ho hb hz
    cases hr : computeDuplicationMap G with
    | none => rfl
    | some M =>
      obtain ⟨F', hl, hF'⟩ := computeDuplicationMap_eq_some G M hr
      obtain ⟨-, hfun⟩ :=
        computeDuplicationMapLoop_function G.nodes PtrMap.empty M Option.none F' hl
      obtain ⟨B1, p1, q1⟩ := hfun N hN hc
      rw [ho] at p1
      cases p1
      subst q1
      simp only at hF'
      have hcont := hF'.2 b hb
      have hnone := find?_eq_none_of_codeNodesOf_eq_zero G M _ hl b hz
      unfold PtrMap.contains at hcont
      rw [hnone] at hcont
      cases hcont

/-- C22 on examples: a graph without Code node gives the empty map, a graph whose two Code
nodes wrap blocks of two functions aborts, and a graph that wraps only the blocks 1 and 2 of
a function with the blocks 1, 2 and 3 aborts. -/
theorem computeDuplicationMap_empty_or_abort_witness :
    computeDuplicationMap exampleRegionCFGNoCode = some PtrMap.empty ∧
    computeDuplicationMap exampleRegionCFGTwoFunctions = Option.none ∧
    computeDuplicationMap exampleRegionCFGMissingBlock = Option.none :=
  ⟨(computeDuplicationMap_empty_or_abort exampleRegionCFGNoCode).1.mpr (by decide),
    (computeDuplicationMap_empty_or_abort exampleRegionCFGTwoFunctions).2.1
      ⟨0, BasicBlockNodeType.Code, some exampleBB1⟩
      ⟨1, BasicBlockNodeType.Code, some ⟨9, ⟨200, [9]⟩, []⟩⟩ exampleBB1 ⟨9, ⟨200, [9]⟩, []⟩
      (by decide) (by decide) rfl rfl rfl rfl (by decide),
    (computeDuplicationMap_empty_or_abort exampleRegionCFGMissingBlock).2.2
      ⟨0, BasicBlockNodeType.Code, some exampleBB1⟩ exampleBB1 3
      (by decide) rfl rfl (by decide) rfl⟩

/-! ## When `getSwitchEdgeInfoSuccessor` is fatal -/

theorem getSwitchEdgeInfoSuccessor_on_switch (B : CFGBlock) (Switch : SwitchInst)
    (I CaseBB : Nat) (ht : B.Terminator = TerminatorInst.Switch Switch)
    (hI : Switch.getSuccessor I = some CaseBB) (hI32 : I ≤ 4294967295) :
    getSwitchEdgeInfoSuccessor (some B) I =
      if CaseBB = Switch.getDefaultDest then some ⟨[], false⟩
      else
        match Switch.findCaseDest CaseBB with
        | none => none
        | some CaseValue => some ⟨[CaseValue], false⟩ := by
  have hmod : I % 2 ^ 32 = I := Nat.mod_eq_of_lt (by omega)
  simp only [getSwitchEdgeInfoSuccessor, ht, hI32, if_true, hmod, hI]

theorem eq_singleton_of_mem_of_length_le_one {α : Type} (l : List α) (c : α)
    (hmem : c ∈ l) (hlen : l.length ≤ 1) : l = [c] := by
  cases l with
  | nil => cases hmem
  | cons a rest =>
    cases rest with
    | nil =>
      rw [List.mem_singleton] at hmem
      rw [hmem]
    | cons b rest' =>
      simp only [List.length_cons] at hlen
      omega

theorem exists_case_of_getSuccessor (Switch : SwitchInst) (I CaseBB : Nat)
    (hI : Switch.getSuccessor I = some CaseBB) (hd : CaseBB ≠ Switch.getDefaultDest) :
    ∃ c ∈ Switch.Cases, c.2 = CaseBB := by
  unfold SwitchInst.getSuccessor SwitchInst.successors at hI
  cases I with
  | zero =>
    simp only [List.getElem?_cons_zero, Option.some.injEq] at hI
    exact absurd hI.symm hd
  | succ k =>
    simp only [List.getElem?_cons_succ] at hI
    have hmem : CaseBB ∈ Switch.Cases.map Prod.snd := List.getElem?_mem hI
    obtain ⟨c, hc, hc2⟩ := List.mem_map.mp hmem
    exact ⟨c, hc, hc2⟩

/-- C23: `getSwitchEdgeInfoSuccessor` for `llvm::BasicBlock *` is fatal when the block is
null, when its terminator is not a switch, when `I` exceeds the largest `unsigned`, and when
the successor at index `I` is not the default destination and more than one case leads to
it; on a block that ends with a switch, with a valid index not above the largest `unsigned`,
it returns in every other case, that is when the successor is the default destination or at
most one case leads to it. -/
theorem getSwitchEdgeInfoSuccessor_fatal_iff (I : Nat) :
    getSwitchEdgeInfoSuccessor Option.none I = Option.none ∧
    (∀ (B : CFGBlock) Successors, B.Terminator = TerminatorInst.Other Successors →
      getSwitchEdgeInfoSuccessor (some B) I = Option.none) ∧
    (∀ B : CFGBlock, 4294967295 < I → getSwitchEdgeInfoSuccessor (some B) I = Option.none) ∧
    (∀ (B : CFGBlock) (Switch : SwitchInst) CaseBB,
      B.Terminator = TerminatorInst.Switch Switch → I ≤ 4294967295 →
      Switch.getSuccessor I = some CaseBB → CaseBB ≠ Switch.getDefaultDest →
      2 ≤ (Switch.Cases.filter (fun c => decide (c.2 = CaseBB))).length →
      getSwitchEdgeInfoSuccessor (some B) I = Option.none) ∧
    (∀ (B : CFGBlock) (Switch : SwitchInst) CaseBB,
      B.Terminator = TerminatorInst.Switch Switch → I ≤ 4294967295 →
      Switch.getSuccessor I = some CaseBB →
      (CaseBB = Switch.getDefaultDest ∨
        (Switch.Cases.filter (fun c => decide (c.2 = CaseBB))).length ≤ 1) →
      ∃ r, getSwitchEdgeInfoSuccessor (some B) I = some r) := by
  refine ⟨rfl, ?_, ?_, ?_, ?_⟩
  · intro B Successors ht
    simp only [getSwitchEdgeInfoSuccessor, ht]
  · intro B hI
    have hn : ¬ I ≤ 4294967295 := by omega
    cases hT : B.Terminator with
    | Other Successors => simp only [getSwitchEdgeInfoSuccessor, hT]
    | Switch Switch => simp only [getSwitchEdgeInfoSuccessor, hT, hn, if_false]
  · intro B Switch CaseBB ht hI32 hI hd hlen
    rw [getSwitchEdgeInfoSuccessor_on_switch B Switch I CaseBB ht hI hI32, if_neg hd]
    cases hf : Switch.findCaseDest CaseBB with
    | none => rfl
    | some v =>
      unfold SwitchInst.findCaseDest at hf
      rw [if_neg hd] at hf
      rw [(findCaseDestLoop_none CaseBB Switch.Cases v).mp hf] at hlen
      simp at hlen
  · intro B Switch CaseBB ht hI32 hI hcase
    rw [getSwitchEdgeInfoSuccessor_on_switch B Switch I CaseBB ht hI hI32]
    by_cases hd : CaseBB = Switch.getDefaultDest
    · rw [if_pos hd]
      exact ⟨_, rfl⟩
    · rw [if_neg hd]
      rcases hcase with hc | hc
      · exact absurd hc hd
      · obtain ⟨c, hc1, hc2⟩ := exists_case_of_getSuccessor Switch I CaseBB hI hd
        have hmem : c ∈ Switch.Cases.filter (fun c => decide (c.2 = CaseBB)) := by
          rw [List.mem_filter]
          exact ⟨hc1, by simp [hc2]⟩
        have hfil : Switch.Cases.filter (fun c => decide (c.2 = CaseBB)) = [(c.1, CaseBB)] := by
          rw [eq_singleton_of_mem_of_length_le_one _ c hmem hc, ← hc2]
        have hfind : Switch.findCaseDest CaseBB = some c.1 := by
          unfold SwitchInst.findCaseDest
          rw [if_neg hd]
          exact (findCaseDestLoop_none CaseBB Switch.Cases c.1).mpr hfil
        rw [hfind]
        exact ⟨_, rfl⟩

/-- C23 on examples: a null block, a block that ends with a branch, an index above the
largest `unsigned` and a successor to which two cases lead are fatal; the same index on the
switch of the example, where one case leads to that successor, returns. -/
theorem getSwitchEdgeInfoSuccessor_fatal_iff_witness :
    getSwitchEdgeInfoSuccessor Option.none 1 = Option.none ∧
    getSwitchEdgeInfoSuccessor (some exampleCFGBlock2) 1 = Option.none ∧
    getSwitchEdgeInfoSuccessor (some exampleCFGBlock1) 4294967296 = Option.none ∧
    getSwitchEdgeInfoSuccessor
      (some ⟨1, "entry", TerminatorInst.Switch exampleSwitchTwoCases⟩) 1 = Option.none ∧
    (∃ r, getSwitchEdgeInfoSuccessor (some exampleCFGBlock1) 1 = some r) :=
  ⟨(getSwitchEdgeInfoSuccessor_fatal_iff 1).1,
    (getSwitchEdgeInfoSuccessor_fatal_iff 1).2.1 exampleCFGBlock2 [4] rfl,
    (getSwitchEdgeInfoSuccessor_fatal_iff 4294967296).2.2.1 exampleCFGBlock1 (by decide),
    (getSwitchEdgeInfoSuccessor_fatal_iff 1).2.2.2.1
      ⟨1, "entry", TerminatorInst.Switch exampleSwitchTwoCases⟩ exampleSwitchTwoCases 2 rfl
      (by decide) rfl (by decide) (by decide),
    (getSwitchEdgeInfoSuccessor_fatal_iff 1).2.2.2.2 exampleCFGBlock1 exampleSwitch 2 rfl
      (by decide) rfl (Or.inr (by decide))⟩

/-! ## Claims about `addArtificialNode` -/

/-- C24: `addArtificialNode(Name, T)` appends one node of kind `T` and name `Name` to the
node storage and returns the pointer to it when `T` is `Empty`, `Break` or `Continue`, and
aborts, so adds nothing, for every other kind; `addBreak` and `addContinue` always return,
with a node of kind `Break`, respectively `Continue`, and the call with the default arguments
returns an `Empty` node named "dummy". -/
theorem addArtificialNode_appends_or_aborts {NodeT : Type} (G : RegionCFGT NodeT)
    (Name : String) (T : BasicBlockNodeType) :
    ((T = BasicBlockNodeType.Empty ∨ T = BasicBlockNodeType.Break
        ∨ T = BasicBlockNodeType.Continue) →
      ∃ p G' Node, G.addArtificialNode Name T = some (p, G') ∧
        G'.BlockNodes = G.BlockNodes ++ [Node] ∧ G'.BlockNodes[p]? = some Node ∧
        Node.NodeType = T ∧ Node.Name = Name ∧ Node.OriginalNode = none ∧
        G'.Edges = G.Edges ∧ G'.EntryNode = G.EntryNode) ∧
    (¬ (T = BasicBlockNodeType.Empty ∨ T = BasicBlockNodeType.Break
        ∨ T = BasicBlockNodeType.Continue) →
      G.addArtificialNode Name T = none) ∧
    (∃ p G' Node, G.addBreak = some (p, G') ∧ G'.BlockNodes = G.BlockNodes ++ [Node] ∧
      G'.BlockNodes[p]? = some Node ∧ Node.NodeType = BasicBlockNodeType.Break) ∧
    (∃ p G' Node, G.addContinue = some (p, G') ∧ G'.BlockNodes = G.BlockNodes ++ [Node] ∧
      G'.BlockNodes[p]? = some Node ∧ Node.NodeType = BasicBlockNodeType.Continue) ∧
    (∃ p G' Node, G.addArtificialNodeDefault = some (p, G') ∧
      G'.BlockNodes = G.BlockNodes ++ [Node] ∧ G'.BlockNodes[p]? = some Node ∧
      Node.NodeType = BasicBlockNodeType.Empty ∧ Node.Name = "dummy") := by
  have key : ∀ (N : String) (K : BasicBlockNodeType),
      (K = BasicBlockNodeType.Empty ∨ K = BasicBlockNodeType.Break
        ∨ K = BasicBlockNodeType.Continue) →
      G.addArtificialNode N K = some (G.BlockNodes.length,
        { G.getNewID.2 with
          BlockNodes := G.BlockNodes ++ [⟨G.IDCounter, K, none, N⟩] }) := by
    intro N K hK
    unfold RegionCFGT.addArtificialNode
    rw [if_pos hK]
    rfl
  refine ⟨fun hT => ?_, fun hT => ?_, ?_, ?_, ?_⟩
  · exact ⟨_, _, ⟨G.IDCounter, T, none, Name⟩, key Name T hT, rfl,
      List.getElem?_concat_length _ _, rfl, rfl, rfl, rfl, rfl⟩
  · unfold RegionCFGT.addArtificialNode
    rw [if_neg hT]
  · exact ⟨_, _, ⟨G.IDCounter, BasicBlockNodeType.Break, none, "break"⟩,
      key "break" BasicBlockNodeType.Break (Or.inr (Or.inl rfl)), rfl,
      List.getElem?_concat_length _ _, rfl⟩
  · exact ⟨_, _, ⟨G.IDCounter, BasicBlockNodeType.Continue, none, "continue"⟩,
      key "continue" BasicBlockNodeType.Continue (Or.inr (Or.inr rfl)), rfl,
      List.getElem?_concat_length _ _, rfl⟩
  · exact ⟨_, _, ⟨G.IDCounter, BasicBlockNodeType.Empty, none, "dummy"⟩,
      key "dummy" BasicBlockNodeType.Empty (Or.inl rfl), rfl,
      List.getElem?_concat_length _ _, rfl, rfl⟩

/-! ## Claims about the arithmetic of `StructType::verify` -/

theorem verifyOrder_ok (l : List (FieldAttr × FieldAttr))
    (h : StructType.verifyOrder l = Except.ok ()) :
    ∀ p ∈ l, (p.1.Offset + p.1.ByteSize) % 2 ^ 64 < p.2.Offset := by
  induction l with
  | nil => intro p hp; cases hp
  | cons q rest ih =>
    obtain ⟨first, second⟩ := q
    simp only [StructType.verifyOrder] at h
    by_cases hge : (first.Offset + first.ByteSize) % 2 ^ 64 ≥ second.Offset
    · rw [if_pos hge] at h
      cases h
    · rw [if_neg hge] at h
      intro p hp
      rcases List.mem_cons.mp hp with rfl | hp'
      · exact Nat.lt_of_not_ge hge
      · exact ih h p hp'

theorem verifyEnd_ok (Size : Nat) (l : List FieldAttr)
    (h : StructType.verifyEnd Size l = Except.ok ()) :
    ∀ F ∈ l, (F.Offset + F.ByteSize) % 2 ^ 64 < Size := by
  induction l with
  | nil => intro F hF; cases hF
  | cons G rest ih =>
    simp only [StructType.verifyEnd] at h
    by_cases hge : (G.Offset + G.ByteSize) % 2 ^ 64 ≥ Size
    · rw [if_pos hge] at h
      cases h
    · rw [if_neg hge] at h
      intro F hF
      rcases List.mem_cons.mp hF with rfl | hF'
      · exact Nat.lt_of_not_ge hge
      · exact ih h F hF'

/-- What a successful run of `StructType::verify` gives: the wrapped end of every field is
below the size and the wrapped end of the first field of every consecutive pair is below the
offset of the second; so for fields whose end does not wrap the exact inequalities hold. -/
theorem StructType_verify_ok_wrapped (ID : Nat) (Name : String) (Size : Nat)
    (Fields : List FieldAttr) (h : StructType.verify ID Name Size Fields = Except.ok ()) :
    (∀ F ∈ Fields, (F.Offset + F.ByteSize) % 2 ^ 64 < Size) ∧
    (∀ p ∈ List.zip Fields.dropLast (Fields.drop 1),
      (p.1.Offset + p.1.ByteSize) % 2 ^ 64 < p.2.Offset) ∧
    (∀ F ∈ Fields, F.Offset + F.ByteSize < 2 ^ 64 → F.Offset + F.ByteSize ≤ Size) ∧
    (∀ p ∈ List.zip Fields.dropLast (Fields.drop 1),
      p.1.Offset + p.1.ByteSize < 2 ^ 64 → p.1.Offset + p.1.ByteSize ≤ p.2.Offset) := by
  unfold StructType.verify at h
  by_cases hs : Size = 0
  · rw [if_pos hs] at h
    cases h
  · rw [if_neg hs] at h
    cases Fields with
    | nil => simp
    | cons F rest =>
      simp only [List.isEmpty_cons, Bool.false_eq_true, if_false] at h
      cases ho : StructType.verifyOrder
          (List.zip (F :: rest).dropLast (List.drop 1 (F :: rest))) with
      | error e =>
        rw [ho] at h
        cases h
      | ok u =>
        rw [ho] at h
        cases he : StructType.verifyEnd Size (F :: rest) with
        | error e =>
          rw [he] at h
          cases h
        | ok v =>
          have h1 := verifyEnd_ok Size (F :: rest) he
          have h2 := verifyOrder_ok _ ho
          refine ⟨h1, h2, fun X hX hlt => ?_, fun p hp hlt => ?_⟩
          · have := h1 X hX
            rw [Nat.mod_eq_of_lt hlt] at this
            omega
          · have := h2 p hp
            rw [Nat.mod_eq_of_lt hlt] at this
            omega

/-- C28, the code at the failing inputs: a struct of size 100 with one field at offset
`2^64 - 4` of size 8 is accepted, the sum wraps to 4, although the field ends far beyond the
struct; and with a second field at offset 50 it is accepted too, although the first field
lies after the second. -/
theorem StructType_verify_accepts_wrapped_field :
    StructType.verify 1 "s" 100 [⟨2 ^ 64 - 4, 8, "a"⟩] = Except.ok () ∧
    ¬ (2 ^ 64 - 4 + 8 ≤ 100) ∧
    StructType.verify 1 "s" 100 [⟨2 ^ 64 - 4, 8, "a"⟩, ⟨50, 8, "b"⟩] = Except.ok () ∧
    ¬ (2 ^ 64 - 4 + 8 ≤ 50) :=
  ⟨rfl, by norm_num, rfl, by norm_num⟩

/-! ## Claims about `transfer`: pending and classified, monotonicity -/

theorem contains_markUses (nd : DuplicationMap) (nbb : Nat) (I : Instruction)
    (P P2 : LatticeElement) (T T2 : SerializationMap)
    (h : markUses nd nbb I P T = some (P2, T2)) (j : Nat)
    (hc : PtrMap.contains T j = true) : PtrMap.contains T2 j = true := by
  rcases markUses_cases nd nbb I P P2 T T2 h with
    ⟨-, -, rfl⟩ | ⟨-, -, -, -, -, -, ⟨-, -, rfl⟩ | ⟨-, -, rfl⟩⟩ | ⟨-, -, rfl⟩
  · rw [SerializationMap.contains_setFlag, hc, Bool.or_true]
  · rw [SerializationMap.contains_setFlag, hc, Bool.or_true]
  · exact hc
  · rw [SerializationMap.contains_setFlag, hc, Bool.or_true]

theorem contains_serializePending (I : Instruction) (P2 P' : LatticeElement)
    (T2 T' : SerializationMap) (h : serializePending I P2 T2 = (P', T')) (j : Nat)
    (hc : PtrMap.contains T2 j = true) : PtrMap.contains T' j = true := by
  unfold serializePending at h
  cases hI : PtrMap.contains T2 I.id with
  | true =>
    simp only [hI, if_true, Prod.mk.injEq] at h
    rw [← h.2, contains_serializePendingLoop, hc, Bool.or_true]
  | false =>
    simp only [hI, Bool.false_eq_true, if_false, Prod.mk.injEq] at h
    rw [← h.2]
    exact hc

/-- Entries are never removed by the loop body. -/
theorem contains_transferInstruction_mono (nd : DuplicationMap) (nbb : Nat) (I : Instruction)
    (P P' : LatticeElement) (T T' : SerializationMap)
    (h : transferInstruction nd nbb I P T = some (P', T')) (j : Nat)
    (hc : PtrMap.contains T j = true) : PtrMap.contains T' j = true := by
  cases hs : isSkipped I with
  | true =>
    rw [(transferInstruction_skipped nd nbb I P P' T T' hs h).2]
    exact hc
  | false =>
    obtain ⟨P1, P2, T2, -, h2, h3⟩ := transferInstruction_phases nd nbb I P P' T T' hs h
    apply contains_serializePending I P2 P' T2 T' h3
    apply contains_markUses nd nbb I P1 P2 _ T2 h2
    rw [contains_markKind, hc, Bool.or_true]

/-- Entries are never removed by the loop over the instructions. -/
theorem contains_transferLoop_mono (nd : DuplicationMap) (nbb : Nat) (l : List Instruction)
    (P P' : LatticeElement) (T T' : SerializationMap)
    (h : transferLoop nd nbb l P T = some (P', T')) (j : Nat)
    (hc : PtrMap.contains T j = true) : PtrMap.contains T' j = true := by
  induction l generalizing P T with
  | nil =>
    simp only [transferLoop, Option.some.injEq, Prod.mk.injEq] at h
    rw [← h.2]
    exact hc
  | cons I rest ih =>
    simp only [transferLoop] at h
    cases h1 : transferInstruction nd nbb I P T with
    | none => simp [h1] at h
    | some r =>
      obtain ⟨P1, T1⟩ := r
      simp only [h1] at h
      exact ih P1 T1 h (contains_transferInstruction_mono nd nbb I P P1 T T1 h1 j hc)

/-- The loop body keeps the pending instructions without entry. -/
theorem pending_unclassified_transferInstruction (nd : DuplicationMap) (nbb : Nat)
    (I : Instruction) (P P' : LatticeElement) (T T' : SerializationMap)
    (h : transferInstruction nd nbb I P T = some (P', T'))
    (hd : ∀ j ∈ P.Instructions, PtrMap.contains T j = false) :
    ∀ j ∈ P'.Instructions, PtrMap.contains T' j = false := by
  cases hs : isSkipped I with
  | true =>
    obtain ⟨h1, h2⟩ := transferInstruction_skipped nd nbb I P P' T T' hs h
    intro j hj
    rw [h2]
    exact hd j ((mem_removeOperands I.operands P P' h1 j).mp hj).1
  | false =>
    obtain ⟨P1, P2, T2, h1, h2, h3⟩ := transferInstruction_phases nd nbb I P P' T T' hs h
    have hP1 : ∀ j ∈ P1.Instructions, PtrMap.contains T j = false :=
      fun j hj => hd j ((mem_removeOperands I.operands P P1 h1 j).mp hj).1
    unfold serializePending at h3
    cases hI : PtrMap.contains T2 I.id with
    | true =>
      simp only [hI, if_true, Prod.mk.injEq] at h3
      intro j hj
      rw [← h3.1] at hj
      simp only [serializePendingLoop_fst] at hj
      cases hj
    | false =>
      simp only [hI, Bool.false_eq_true, if_false, Prod.mk.injEq] at h3
      obtain ⟨rfl, rfl⟩ := h3
      have hself : ∀ (U : SerializationMap) (R : SerializationReason),
          PtrMap.contains (U.setFlag I.id R) I.id = true := by
        intro U R
        rw [SerializationMap.contains_setFlag]
        simp
      rcases markUses_cases nd nbb I P1 P2 _ T2 h2 with
        ⟨-, -, rfl⟩ | ⟨-, -, -, -, -, -, ⟨-, -, rfl⟩ | ⟨-, rfl, rfl⟩⟩ | ⟨-, -, rfl⟩
      · rw [hself] at hI
        cases hI
      · rw [hself] at hI
        cases hI
      · intro j hj
        by_cases hjI : j = I.id
        · rw [hjI]
          exact hI
        · have hj1 : j ∈ P1.Instructions := by
            rcases (LatticeElement.mem_insert _ I.id j).mp hj with hj' | hj'
            · rcases (LatticeElement.mem_insert _ I.id j).mp hj' with hj'' | hj''
              · exact hj''
              · exact absurd hj'' hjI
            · exact absurd hj' hjI
          rw [contains_markKind]
          simp [hjI, hP1 j hj1]
      · rw [hself] at hI
        cases hI

theorem pending_unclassified_transferLoop (nd : DuplicationMap) (nbb : Nat)
    (l : List Instruction) (P P' : LatticeElement) (T T' : SerializationMap)
    (h : transferLoop nd nbb l P T = some (P', T'))
    (hd : ∀ j ∈ P.Instructions, PtrMap.contains T j = false) :
    ∀ j ∈ P'.Instructions, PtrMap.contains T' j = false := by
  induction l generalizing P T with
  | nil =>
    simp only [transferLoop, Option.some.injEq, Prod.mk.injEq] at h
    rw [← h.1, ← h.2]
    exact hd
  | cons I rest ih =>
    simp only [transferLoop] at h
    cases h1 : transferInstruction nd nbb I P T with
    | none => simp [h1] at h
    | some r =>
      obtain ⟨P1, T1⟩ := r
      simp only [h1] at h
      exact ih P1 T1 h (pending_unclassified_transferInstruction nd nbb I P P1 T T1 h1 hd)

theorem getD_find?_modify_id (S : PtrMap LatticeElement) (k j : Nat) :
    ((PtrMap.modify LatticeElement.empty (fun P => P) S k).find? j).getD LatticeElement.empty =
      (S.find? j).getD LatticeElement.empty := by
  rw [PtrMap.find?_modify]
  by_cases h : j = k
  · simp [h]
  · simp [h]

/-- C25: if no instruction of the incoming pending set `State[BB]` has an entry in
`ToSerialize`, then no instruction of the pending set that `transfer` returns has an entry in
`ToSerialize` afterwards. -/
theorem transfer_pending_unclassified (A A' : Analysis) (BB : BasicBlock)
    (P' : LatticeElement) (h : transfer A BB = some (P', A'))
    (hd : ∀ j ∈ (A.stateOf BB.id).Instructions, PtrMap.contains A.ToSerialize j = false) :
    ∀ j ∈ P'.Instructions, PtrMap.contains A'.ToSerialize j = false := by
  obtain ⟨nbb, -, hl, -, -⟩ := transfer_eq_some A A' BB P' h
  rw [getD_find?_modify_id] at hl
  exact pending_unclassified_transferLoop A.NDuplicates nbb BB.insts _ P' A.ToSerialize
    A'.ToSerialize hl hd

/-- C25 on an example: block 5 is entered with the instruction 59 pending and nothing
classified; the pending set returned holds 59 and the addition 60, and neither has an
entry. -/
theorem transfer_pending_unclassified_witness :
    ∃ P' A', transfer exampleAnalysis5 exampleBB5 = some (P', A') ∧
      (exampleAnalysis5.stateOf exampleBB5.id).Instructions = [59] ∧
      P'.Instructions = [59, 60] ∧
      (∀ j ∈ P'.Instructions, PtrMap.contains A'.ToSerialize j = false) :=
  ⟨_, _, rfl, rfl, rfl,
    transfer_pending_unclassified exampleAnalysis5 _ exampleBB5 _ rfl (by decide)⟩

/-- C26: for every instruction `I` that is not skipped, is a call, an insertvalue or an
alloca, and has exactly one use, in a block whose duplication count does not exceed the one
of the block of `I`: at line 133 `I` is pending and has an entry, so the pending set is
flushed; after the body `I` has the bit `HasInterferingSideEffects` and its kind bits, and the
pending set is empty, so `I` is not pending. -/
theorem transferInstruction_kind_flagged_single_use (nd : DuplicationMap) (nbb : Nat)
    (I : Instruction) (P P' : LatticeElement) (T T' : SerializationMap) (uid ubb ud : Nat)
    (hs : isSkipped I = false)
    (hk : I.opcode = Opcode.Call ∨ I.opcode = Opcode.InsertValue ∨ I.opcode = Opcode.Alloca)
    (hu : I.uses = [User.instruction uid ubb]) (hd : nd.find? ubb = some ud)
    (hle : ud ≤ nbb) (h : transferInstruction nd nbb I P T = some (P', T')) :
    (∀ P1 P2 T2, removeOperands I.operands P = some P1 →
      markUses nd nbb I P1 (markKind I T) = some (P2, T2) →
      I.id ∈ P2.Instructions ∧ PtrMap.contains T2 I.id = true) ∧
    T'.hasFlag I.id SerializationReason.HasInterferingSideEffects = true ∧
    (∀ Q, kindFlag I Q = true → T'.hasFlag I.id Q = true) ∧
    (∃ Q, kindFlag I Q = true) ∧
    I.id ∉ P'.Instructions ∧ P'.Instructions = [] := by
  obtain ⟨P1, P2, T2, h1, h2, h3⟩ := transferInstruction_phases nd nbb I P P' T T' hs h
  have hkind : hasKindFlag I = true := by
    unfold hasKindFlag
    rcases hk with hk | hk | hk <;> simp [hk]
  have hn : I.getNumUses = 1 := by
    unfold Instruction.getNumUses
    rw [hu]
    rfl
  have hmid : I.id ∈ P2.Instructions ∧ PtrMap.contains T2 I.id = true ∧
      T2 = markKind I T := by
    rcases markUses_cases nd nbb I P1 P2 _ T2 h2 with
      ⟨h0, -, -⟩ | ⟨-, uid', ubb', ud', hu', hd', ⟨hlt, -, -⟩ | ⟨-, rfl, rfl⟩⟩ | ⟨h2', -, -⟩
    · omega
    · rw [hu] at hu'
      simp only [List.head?_cons, Option.some.injEq, User.instruction.injEq] at hu'
      rw [← hu'.2, hd] at hd'
      cases hd'
      omega
    · refine ⟨(LatticeElement.mem_insert _ I.id I.id).mpr (Or.inr rfl), ?_, rfl⟩
      rw [contains_markKind, hkind]
      simp
    · omega
  obtain ⟨hm1, hm2, hm3⟩ := hmid
  have hflag := hasFlag_serializePending I P2 P' T2 T' h3
  have hP' : P'.Instructions = [] := by
    have h3' := h3
    unfold serializePending at h3'
    simp only [hm2, if_true, Prod.mk.injEq] at h3'
    rw [← h3'.1]
    exact serializePendingLoop_fst I P2.Instructions T2
  refine ⟨?_, ?_, ?_, ?_, ?_, hP'⟩
  · intro Q1 Q2 U2 g1 g2
    rw [h1] at g1
    cases g1
    rw [h2] at g2
    cases g2
    exact ⟨hm1, hm2⟩
  · rw [hflag, hm2]
    simp [hm1]
  · intro Q hQ
    rw [hflag, hm3, hasFlag_markKind, hQ]
    simp
  · rcases hk with hk | hk | hk
    · exact ⟨SerializationReason.HasSideEffects, by simp [kindFlag, hk]⟩
    · exact ⟨SerializationReason.NeedsManyStatements, by simp [kindFlag, hk]⟩
    · exact ⟨SerializationReason.NeedsLocalVarToComputeExpr, by simp [kindFlag, hk]⟩
  · rw [hP']
    exact List.not_mem_nil _

/-- C26 on an example: a call used once in its own block, reached with the instruction 11
pending, ends with `HasSideEffects` and `HasInterferingSideEffects` and is not pending. -/
theorem transferInstruction_kind_flagged_single_use_witness :
    ∃ P' T', transferInstruction exampleNDuplicates 3 exampleCallUsedOnce ⟨[11]⟩ PtrMap.empty =
        some (P', T') ∧
      exampleCallUsedOnce.uses = [User.instruction 51 3] ∧
      exampleNDuplicates.find? 3 = some 3 ∧
      T'.hasFlag exampleCallUsedOnce.id SerializationReason.HasInterferingSideEffects = true ∧
      T'.hasFlag exampleCallUsedOnce.id SerializationReason.HasSideEffects = true ∧
      exampleCallUsedOnce.id ∉ P'.Instructions :=
  ⟨_, _, rfl, rfl, rfl,
    (transferInstruction_kind_flagged_single_use exampleNDuplicates 3 exampleCallUsedOnce
      ⟨[11]⟩ _ PtrMap.empty _ 51 3 3 rfl (Or.inl rfl) rfl rfl (by decide) rfl).2.1,
    (transferInstruction_kind_flagged_single_use exampleNDuplicates 3 exampleCallUsedOnce
      ⟨[11]⟩ _ PtrMap.empty _ 51 3 3 rfl (Or.inl rfl) rfl rfl (by decide) rfl).2.2.1
      SerializationReason.HasSideEffects rfl,
    (transferInstruction_kind_flagged_single_use exampleNDuplicates 3 exampleCallUsedOnce
      ⟨[11]⟩ _ PtrMap.empty _ 51 3 3 rfl (Or.inl rfl) rfl rfl (by decide) rfl).2.2.2.2.1⟩

/-- C27: `transfer` only adds to the classification map: every bit that is set for an
instruction before `transfer` is set afterwards, and an instruction that has an entry before
has one afterwards; the element that `State[BB]` denotes is the same before and after, for
every block, every entry that `State` had is unchanged, and `NDuplicates` is unchanged. -/
theorem transfer_monotone (A A' : Analysis) (BB : BasicBlock) (P' : LatticeElement)
    (h : transfer A BB = some (P', A')) :
    (∀ j Q, A.ToSerialize.hasFlag j Q = true → A'.ToSerialize.hasFlag j Q = true) ∧
    (∀ j, PtrMap.contains A.ToSerialize j = true → PtrMap.contains A'.ToSerialize j = true) ∧
    (∀ k, A'.stateOf k = A.stateOf k) ∧
    (∀ k, PtrMap.contains A.State k = true → A'.State.find? k = A.State.find? k) ∧
    A'.NDuplicates = A.NDuplicates := by
  obtain ⟨nbb, -, hl, hS, hN⟩ := transfer_eq_some A A' BB P' h
  refine ⟨fun j Q hf => ?_, fun j hc => ?_, fun k => ?_, fun k hk => ?_, hN⟩
  · exact hasFlag_transferLoop_mono A.NDuplicates nbb BB.insts _ P' A.ToSerialize
      A'.ToSerialize hl j Q hf
  · exact contains_transferLoop_mono A.NDuplicates nbb BB.insts _ P' A.ToSerialize
      A'.ToSerialize hl j hc
  · unfold Analysis.stateOf
    rw [hS]
    exact getD_find?_modify_id A.State BB.id k
  · rw [hS, PtrMap.find?_modify]
    by_cases hkb : k = BB.id
    · unfold PtrMap.contains at hk
      rw [hkb] at hk ⊢
      cases hf : A.State.find? BB.id with
      | none => simp [hf] at hk
      | some v => simp
    · simp [hkb]

/-- C27 on the example: the bit `HasManyUses` of the alloca, set before a run over block 2,
is still set after it, and the pending set of block 5 is what it was before the run over
block 5. -/
theorem transfer_monotone_witness :
    ∃ P2 A2 P5 A5, transfer exampleAnalysisClassified exampleBB2 = some (P2, A2) ∧
      transfer exampleAnalysis5 exampleBB5 = some (P5, A5) ∧
      exampleAnalysisClassified.ToSerialize.hasFlag 10 SerializationReason.HasManyUses = true ∧
      A2.ToSerialize.hasFlag 10 SerializationReason.HasManyUses = true ∧
      A5.stateOf 5 = exampleAnalysis5.stateOf 5 ∧ (A5.stateOf 5).Instructions = [59] :=
  ⟨_, _, _, _, rfl, rfl, rfl,
    (transfer_monotone exampleAnalysisClassified _ exampleBB2 _ rfl).1 10
      SerializationReason.HasManyUses rfl,
    (transfer_monotone exampleAnalysis5 _ exampleBB5 _ rfl).2.2.1 5, rfl⟩

/-! ## Claims about sequences of runs of `transfer` -/

theorem useFlagsSound_transferInstruction (numUses : Nat → Nat) (nd : DuplicationMap)
    (nbb : Nat) (I : Instruction) (P P' : LatticeElement) (T T' : SerializationMap)
    (hI : I.getNumUses = numUses I.id) (hT : UseFlagsSound numUses T)
    (h : transferInstruction nd nbb I P T = some (P', T')) : UseFlagsSound numUses T' := by
  cases hs : isSkipped I with
  | true =>
    rw [(transferInstruction_skipped nd nbb I P P' T T' hs h).2]
    exact hT
  | false =>
    intro j
    obtain ⟨hA, hD, hM⟩ := hT j
    obtain ⟨b1, e1⟩ := hasFlag_transferInstruction nd nbb I P P' T T' hs h j
      SerializationReason.AlwaysSerialize
    obtain ⟨b2, e2⟩ := hasFlag_transferInstruction nd nbb I P P' T T' hs h j
      SerializationReason.HasDuplicatedUses
    obtain ⟨b3, e3⟩ := hasFlag_transferInstruction nd nbb I P P' T T' hs h j
      SerializationReason.HasManyUses
    refine ⟨fun hf => ?_, fun hf => ?_, fun hf => ?_⟩
    · rw [e1] at hf
      simp only [usesFlag, kindFlag, Bool.or_false, Bool.or_eq_true, Bool.and_eq_true,
        decide_eq_true_eq] at hf
      rcases hf with hf | hf | hf
      · exact absurd hf.2 (by decide)
      · rw [hf.1, ← hI]
        exact hf.2
      · exact hA hf
    · rw [e2] at hf
      simp only [usesFlag, kindFlag, Bool.or_false, Bool.or_eq_true, Bool.and_eq_true,
        decide_eq_true_eq] at hf
      rcases hf with hf | hf | hf
      · exact absurd hf.2 (by decide)
      · rw [hf.1, ← hI]
        exact hf.2.1
      · exact hD hf
    · rw [e3] at hf
      simp only [usesFlag, kindFlag, Bool.or_false, Bool.or_eq_true, Bool.and_eq_true,
        decide_eq_true_eq] at hf
      rcases hf with hf | hf | hf
      · exact absurd hf.2 (by decide)
      · rw [hf.1, ← hI]
        exact hf.2
      · exact hM hf

theorem useFlagsSound_transferLoop (numUses : Nat → Nat) (nd : DuplicationMap) (nbb : Nat)
    (l : List Instruction) (P P' : LatticeElement) (T T' : SerializationMap)
    (hl : ∀ I ∈ l, I.getNumUses = numUses I.id) (hT : UseFlagsSound numUses T)
    (h : transferLoop nd nbb l P T = some (P', T')) : UseFlagsSound numUses T' := by
  induction l generalizing P T with
  | nil =>
    simp only [transferLoop, Option.some.injEq, Prod.mk.injEq] at h
    rw [← h.2]
    exact hT
  | cons I rest ih =>
    simp only [transferLoop] at h
    cases h1 : transferInstruction nd nbb I P T with
    | none => simp [h1] at h
    | some r =>
      obtain ⟨P1, T1⟩ := r
      simp only [h1] at h
      exact ih P1 T1 (fun J hJ => hl J (List.mem_cons_of_mem _ hJ))
        (useFlagsSound_transferInstruction numUses nd nbb I P P1 T T1
          (hl I (List.mem_cons_self _ _)) hT h1) h

theorem useFlagsSound_transferRuns (numUses : Nat → Nat)
    (runs : List (PtrMap LatticeElement × BasicBlock)) (A A' : Analysis)
    (hfix : ∀ r ∈ runs, ∀ I ∈ r.2.insts, I.getNumUses = numUses I.id)
    (hT : UseFlagsSound numUses A.ToSerialize)
    (h : transferRuns runs A = some A') : UseFlagsSound numUses A'.ToSerialize := by
  induction runs generalizing A with
  | nil =>
    simp only [transferRuns, Option.some.injEq] at h
    rw [← h]
    exact hT
  | cons r rest ih =>
    obtain ⟨S, BB⟩ := r
    simp only [transferRuns] at h
    cases h1 : transfer { A with State := S } BB with
    | none => simp [h1] at h
    | some q =>
      obtain ⟨P1, A1⟩ := q
      simp only [h1] at h
      obtain ⟨nbb, -, hl, -, -⟩ := transfer_eq_some _ A1 BB P1 h1
      refine ih A1 (fun r' hr' => hfix r' (List.mem_cons_of_mem _ hr')) ?_ h
      exact useFlagsSound_transferLoop numUses _ nbb BB.insts _ P1 _ A1.ToSerialize
        (hfix (S, BB) (List.mem_cons_self _ _)) hT hl

/-- C29: starting from an empty classification map, with the use count of every instruction
fixed (`numUses` gives it, by the identity of the instruction), after any sequence of runs of
`transfer`, whatever `State` is before each run, no instruction has two of the bits
`AlwaysSerialize`, `HasDuplicatedUses` and `HasManyUses`. -/
theorem transferRuns_at_most_one_use_flag (numUses : Nat → Nat)
    (runs : List (PtrMap LatticeElement × BasicBlock)) (A A' : Analysis)
    (hfix : ∀ r ∈ runs, ∀ I ∈ r.2.insts, I.getNumUses = numUses I.id)
    (hempty : A.ToSerialize = PtrMap.empty)
    (h : transferRuns runs A = some A') (j : Nat) :
    ¬ (A'.ToSerialize.hasFlag j SerializationReason.AlwaysSerialize = true ∧
        A'.ToSerialize.hasFlag j SerializationReason.HasDuplicatedUses = true) ∧
    ¬ (A'.ToSerialize.hasFlag j SerializationReason.AlwaysSerialize = true ∧
        A'.ToSerialize.hasFlag j SerializationReason.HasManyUses = true) ∧
    ¬ (A'.ToSerialize.hasFlag j SerializationReason.HasDuplicatedUses = true ∧
        A'.ToSerialize.hasFlag j SerializationReason.HasManyUses = true) := by
  have h0 : UseFlagsSound numUses A.ToSerialize := by
    intro k
    rw [hempty]
    refine ⟨fun hf => ?_, fun hf => ?_, fun hf => ?_⟩ <;> cases hf
  obtain ⟨hA, hD, hM⟩ := useFlagsSound_transferRuns numUses runs A A' hfix h0 h j
  refine ⟨fun hf => ?_, fun hf => ?_, fun hf => ?_⟩
  · have := hA hf.1
    have := hD hf.2
    omega
  · have := hA hf.1
    have := hM hf.2
    omega
  · have := hD hf.1
    have := hM hf.2
    omega

/-- C29 on the example: after runs over the blocks 1, 2, 3 and 1 again the alloca has
`HasManyUses` and neither of the two other use-count bits. -/
theorem transferRuns_at_most_one_use_flag_witness :
    ∃ A', transferRuns exampleRuns exampleAnalysis = some A' ∧
      A'.ToSerialize.hasFlag 10 SerializationReason.HasManyUses = true ∧
      ¬ (A'.ToSerialize.hasFlag 10 SerializationReason.AlwaysSerialize = true ∧
          A'.ToSerialize.hasFlag 10 SerializationReason.HasManyUses = true) ∧
      ¬ (A'.ToSerialize.hasFlag 10 SerializationReason.HasDuplicatedUses = true ∧
          A'.ToSerialize.hasFlag 10 SerializationReason.HasManyUses = true) :=
  ⟨_, rfl, rfl,
    (transferRuns_at_most_one_use_flag exampleNumUses exampleRuns exampleAnalysis _
      (by decide) rfl rfl 10).2.1,
    (transferRuns_at_most_one_use_flag exampleNumUses exampleRuns exampleAnalysis _
      (by decide) rfl rfl 10).2.2⟩

end RevngC
